import Mathlib

/-!
Verification of the unbarrelify barrel-elimination engine.

This file gives a shallow embedding, in Lean 4, of the algorithmic core of
the unbarrelify tool: the barrel tracker and its fixpoint classification
(`tracker.ts`), the module resolver (`resolver.ts`), the barrel predicate of
the analyzer (`analyzer.ts`), the import-tracing rewrite builder and the
textual splice application (`rewriter.ts`), and the per-file orchestration
(`main.ts`).  JavaScript `Set`/`Map` values are modelled as insertion-ordered
lists (of elements, respectively of key-value pairs); paths and source text
are strings (JS string indices are modelled as character indices, which
agrees with the source for the ASCII inputs considered here); the external
oxc resolver, the TypeScript parser/printer and the filesystem are modelled
as explicit parameters or explicit state, as the specification places them
outside the core's scope.
-/

namespace Unbarrelify

/-- Absolute file paths and external specifiers, as plain strings. -/
abbrev Path := String

/-- JS `Set.add`: append the element unless already present
(insertion-ordered set). -/
def addElem (xs : List String) (x : String) : List String :=
  if xs.contains x then xs else xs ++ [x]

/-- JS `String.prototype.startsWith`, over the character-list view of
strings (kernel-computable). -/
def strStartsWith (s pre : String) : Bool :=
  pre.toList.isPrefixOf s.toList

/-- JS `String.prototype.endsWith`. -/
def strEndsWith (s suf : String) : Bool :=
  suf.toList.isSuffixOf s.toList

/-- Node's `isAbsolute`, POSIX model: the path starts with a slash. -/
def isAbsolutePath (p : Path) : Bool :=
  strStartsWith p "/"

/-- Substring test on character lists (JS `String.prototype.includes`). -/
def hasInfix (hay pat : List Char) : Bool :=
  match hay with
  | [] => pat.isEmpty
  | _ :: tl => pat.isPrefixOf hay || hasInfix tl pat

/-- JS `includes` on strings. -/
def strContains (s pat : String) : Bool :=
  hasInfix s.toList pat.toList

/-- Split a character list on slashes (the `/`-separated segment view used
to model the anchored path regular expressions). -/
def splitSlash : List Char → List (List Char)
  | [] => [[]]
  | c :: rest =>
      if c = '/' then [] :: splitSlash rest
      else
        match splitSlash rest with
        | [] => [[c]]
        | seg :: segs => (c :: seg) :: segs

/-- Test of the `BUILD_OUTPUT_DIRS` regular expression from `constants.ts`:
the relative path starts with one of `apps|packages|libs|modules`, then a
non-empty segment, then one of `dist|build|out|coverage`, then a slash. -/
def buildOutputDirs (rel : List Char) : Bool :=
  match splitSlash rel with
  | a :: b :: c :: _ :: _ =>
      (a == "apps".toList || a == "packages".toList || a == "libs".toList ||
        a == "modules".toList) &&
      !b.isEmpty && (c == "dist".toList || c == "build".toList || c == "out".toList ||
        c == "coverage".toList)
  | _ => false

/-- `isIgnoredPath` from `constants.ts`: the `IGNORED_PATH_PATTERN` test
(inside `node_modules`, or a `.d.ts` file), and, when a base is given, the
`BUILD_OUTPUT_DIRS` test on the base-relative path. -/
def isIgnoredPath (filePath : String) (base : Option String) : Bool :=
  if strContains filePath "/node_modules/" || strEndsWith filePath ".d.ts" then true
  else
    match base with
    | some b =>
        let fp := filePath.toList
        let bl := b.toList ++ ['/']
        let relativePath := if bl.isPrefixOf fp then fp.drop bl.length else fp
        buildOutputDirs relativePath
    | none => false

/-- Per-barrel bookkeeping state of the tracker (`tracker.ts`). -/
structure BarrelState where
  consumers : List Path
  rewrittenConsumers : List Path
  dynamicConsumers : List Path
deriving DecidableEq, Repr

/-- The fresh state `register` installs for a new barrel. -/
def BarrelState.empty : BarrelState :=
  { consumers := [], rewrittenConsumers := [], dynamicConsumers := [] }

/-- An untraceable-import record `(barrelPath, consumerPath, name)`. -/
structure UntraceableImport where
  barrelPath : Path
  consumerPath : Path
  name : String
deriving DecidableEq, Repr

/-- The mutable registry of discovered barrels (`BarrelTracker`), with its
barrel map modelled as an insertion-ordered association list. -/
structure BarrelTracker where
  barrels : List (Path × BarrelState)
  untraceableImports : List UntraceableImport
deriving DecidableEq, Repr

def BarrelTracker.empty : BarrelTracker :=
  { barrels := [], untraceableImports := [] }

/-- Association-list lookup (JS `Map.get`). -/
def getA {β : Type} (m : List (Path × β)) (k : Path) : Option β :=
  match m with
  | [] => none
  | (k', v) :: rest => if k' = k then some v else getA rest k

/-- Update the value at an existing key in place, leaving the list unchanged
when the key is absent (the `if (state)` guards of the tracker methods). -/
def modifyA {β : Type} (m : List (Path × β)) (k : Path) (f : β → β) : List (Path × β) :=
  match m with
  | [] => []
  | (k', v) :: rest => if k' = k then (k', f v) :: rest else (k', v) :: modifyA rest k f

/-- `BarrelTracker.has`. -/
def BarrelTracker.hasBarrel (t : BarrelTracker) (p : Path) : Bool :=
  (getA t.barrels p).isSome

/-- `BarrelTracker.register`: install a fresh state unless already known;
the boolean reports whether the path was newly registered. -/
def BarrelTracker.register (t : BarrelTracker) (p : Path) : Bool × BarrelTracker :=
  if t.hasBarrel p then (false, t)
  else (true, { t with barrels := t.barrels ++ [(p, BarrelState.empty)] })

/-- `register` ignoring the freshness flag. -/
def BarrelTracker.register0 (t : BarrelTracker) (p : Path) : BarrelTracker :=
  (t.register p).2

/-- `BarrelTracker.addConsumer`. -/
def BarrelTracker.addConsumer (t : BarrelTracker) (barrel consumer : Path) : BarrelTracker :=
  let f := fun st : BarrelState => { st with consumers := addElem st.consumers consumer }
  { t with barrels := modifyA t.barrels barrel f }

/-- `BarrelTracker.markRewritten`. -/
def BarrelTracker.markRewritten (t : BarrelTracker) (barrel consumer : Path) : BarrelTracker :=
  let f := fun st : BarrelState =>
    { st with rewrittenConsumers := addElem st.rewrittenConsumers consumer }
  { t with barrels := modifyA t.barrels barrel f }

/-- `BarrelTracker.addDynamicConsumer`. -/
def BarrelTracker.addDynamicConsumer (t : BarrelTracker) (barrel consumer : Path) : BarrelTracker :=
  let f := fun st : BarrelState =>
    { st with dynamicConsumers := addElem st.dynamicConsumers consumer }
  { t with barrels := modifyA t.barrels barrel f }

/-- The parts of the run context that `classify` consults. -/
structure ClassifyCtx where
  base : String
  preservedBarrels : List Path
  isPackageEntryPoint : Path → Bool

/-- A barrel path is in scope for classification: inside the base directory
and not on an ignored path (the two `continue` guards shared by both loops
of `classify`). -/
def inScope (ctx : ClassifyCtx) (p : Path) : Bool :=
  strStartsWith p ctx.base && !isIgnoredPath p (some ctx.base)

/-- The skip condition: explicitly preserved or a package entry point. -/
def isSkipped (ctx : ClassifyCtx) (p : Path) : Bool :=
  ctx.preservedBarrels.contains p || ctx.isPackageEntryPoint p

/-- The static part of the delete-candidate test in the fixpoint loop of
`classify`: in scope, no dynamic consumers, not skipped. -/
def candidateGuard (ctx : ClassifyCtx) (p : Path) (st : BarrelState) : Bool :=
  inScope ctx p && st.dynamicConsumers.isEmpty && !isSkipped ctx p

/-- `getUnrewritten`: the consumers neither marked rewritten nor themselves
delete candidates. -/
def getUnrewritten (st : BarrelState) (toDelete : List Path) : List Path :=
  st.consumers.filter (fun c => !st.rewrittenConsumers.contains c && !toDelete.contains c)

/-- Body of one iteration of the scan inside the fixpoint loop of
`classify`: skip barrels that are already candidates, add a barrel when the
static guard holds and it has no unrewritten consumer relative to the
candidate set accumulated so far. -/
def onePassStep (ctx : ClassifyCtx) (acc : List Path) (pair : Path × BarrelState) :
    List Path :=
  if acc.contains pair.1 then acc
  else if candidateGuard ctx pair.1 pair.2 && (getUnrewritten pair.2 acc).isEmpty then
    acc ++ [pair.1]
  else acc

/-- One pass of the fixpoint loop of `classify`: scan the registered barrels
in order. -/
def onePass (ctx : ClassifyCtx) (barrels : List (Path × BarrelState)) (td : List Path) :
    List Path :=
  barrels.foldl (onePassStep ctx) td

/-- The `while (changed)` loop of `classify`, with explicit fuel: repeat
passes until a pass adds no new candidate. -/
def classifyLoop (ctx : ClassifyCtx) (barrels : List (Path × BarrelState)) :
    Nat → List Path → List Path
  | 0, td => td
  | Nat.succ n, td =>
      let td' := onePass ctx barrels td
      if td'.length = td.length then td else classifyLoop ctx barrels n td'

/-- One `preserved` report entry. -/
structure PreservedBarrel where
  path : Path
  reason : String
  consumers : List Path
deriving DecidableEq, Repr

/-- `getPreservationReasons`: dynamic-import is exclusive and first, then
skip, then the split of pending consumers into non-script (`non-ts-import`)
and script (`namespace-import`) entries. -/
def getPreservationReasons (ctx : ClassifyCtx) (p : Path) (st : BarrelState)
    (toDelete : List Path) : List (String × List Path) :=
  if !st.dynamicConsumers.isEmpty then [("dynamic-import", st.dynamicConsumers)]
  else if isSkipped ctx p then [("skip", ([] : List Path))]
  else
    let pending := st.consumers.filter
      (fun c => !(st.rewrittenConsumers.contains c || toDelete.contains c))
    let nonTsConsumers := pending.filter (fun c => !(strEndsWith c ".ts" || strEndsWith c ".tsx"))
    let nsConsumers := pending.filter (fun c => strEndsWith c ".ts" || strEndsWith c ".tsx")
    (if !nonTsConsumers.isEmpty then [("non-ts-import", nonTsConsumers)] else []) ++
    (if !nsConsumers.isEmpty then [("namespace-import", nsConsumers)] else [])

/-- `BarrelTracker.classify`: the fixpoint loop (run with enough fuel for
quiescence), then the final pass assigning every in-scope registered barrel
to `deleted` or to one or more `preserved` entries. -/
def BarrelTracker.classify (t : BarrelTracker) (ctx : ClassifyCtx) :
    List Path × List PreservedBarrel :=
  let toDelete := classifyLoop ctx t.barrels (t.barrels.length + 1) []
  let deleted := (t.barrels.filter
    (fun pair => inScope ctx pair.1 && toDelete.contains pair.1)).map (fun pair => pair.1)
  let preserved := (t.barrels.filter
    (fun pair => inScope ctx pair.1 && !toDelete.contains pair.1)).flatMap
      (fun pair => (getPreservationReasons ctx pair.1 pair.2 toDelete).map
        (fun rc => PreservedBarrel.mk pair.1 rc.1 rc.2))
  (deleted, preserved)

/-- A single scan step only appends, and appends at most the scanned key. -/
theorem onePassStep_extend (ctx : ClassifyCtx) (acc : List Path) (pair : Path × BarrelState) :
    onePassStep ctx acc pair = acc ∨ onePassStep ctx acc pair = acc ++ [pair.1] := by
  unfold onePassStep
  split
  · exact Or.inl rfl
  · split
    · exact Or.inr rfl
    · exact Or.inl rfl

/-- A pass of the fixpoint scan only appends to the candidate list. -/
theorem onePass_extend (ctx : ClassifyCtx) (bs : List (Path × BarrelState)) (td : List Path) :
    ∃ ex, onePass ctx bs td = td ++ ex := by
  induction bs generalizing td with
  | nil => exact ⟨[], by simp [onePass]⟩
  | cons pair rest ih =>
      rcases ih (onePassStep ctx td pair) with ⟨ex, hex⟩
      rcases onePassStep_extend ctx td pair with h | h
      · exact ⟨ex, by simpa [onePass, h] using hex⟩
      · exact ⟨pair.1 :: ex, by simpa [onePass, h] using hex⟩

theorem subset_onePass (ctx : ClassifyCtx) (bs : List (Path × BarrelState)) (td : List Path) :
    td ⊆ onePass ctx bs td := by
  rcases onePass_extend ctx bs td with ⟨ex, hex⟩
  rw [hex]
  exact List.subset_append_left td ex

/-- A pass whose result has the same length added nothing. -/
theorem onePass_of_length_eq (ctx : ClassifyCtx) (bs : List (Path × BarrelState))
    (td : List Path) (h : (onePass ctx bs td).length = td.length) :
    onePass ctx bs td = td := by
  rcases onePass_extend ctx bs td with ⟨ex, hex⟩
  rw [hex] at h ⊢
  have : ex.length = 0 := by
    have := List.length_append td ex
    omega
  simp [List.length_eq_zero.mp this]

/-- Every element of a pass result came from the start list or is a
registered key. -/
theorem mem_onePass (ctx : ClassifyCtx) (bs : List (Path × BarrelState)) (td : List Path)
    (x : Path) (hx : x ∈ onePass ctx bs td) : x ∈ td ∨ x ∈ bs.map Prod.fst := by
  induction bs generalizing td with
  | nil => exact Or.inl hx
  | cons pair rest ih =>
      have hx' : x ∈ onePass ctx rest (onePassStep ctx td pair) := hx
      rcases ih (onePassStep ctx td pair) hx' with h | h
      · rcases onePassStep_extend ctx td pair with he | he
        · rw [he] at h
          exact Or.inl h
        · rw [he, List.mem_append] at h
          rcases h with h | h
          · exact Or.inl h
          · simp only [List.mem_singleton] at h
            subst h
            exact Or.inr (by simp)
      · exact Or.inr (by simp [h])

/-- A pass preserves freedom from duplicates. -/
theorem nodup_onePass (ctx : ClassifyCtx) (bs : List (Path × BarrelState)) (td : List Path)
    (h : td.Nodup) : (onePass ctx bs td).Nodup := by
  induction bs generalizing td with
  | nil => exact h
  | cons pair rest ih =>
      refine ih (onePassStep ctx td pair) ?_
      unfold onePassStep
      split
      · exact h
      · split
        · rename_i hmem _
          refine List.Nodup.append h (List.nodup_singleton _) ?_
          intro a ha hb
          simp only [List.mem_singleton] at hb
          subst hb
          exact hmem (by simpa using List.elem_eq_true_of_mem ha)
        · exact h

/-- Unfolding equation for `onePass` on a cons cell. -/
theorem onePass_cons (ctx : ClassifyCtx) (pair : Path × BarrelState)
    (rest : List (Path × BarrelState)) (td : List Path) :
    onePass ctx (pair :: rest) td = onePass ctx rest (onePassStep ctx td pair) := rfl

/-- Membership and `contains` agree on string lists. -/
theorem contains_iff_mem (l : List String) (a : String) : l.contains a = true ↔ a ∈ l := by
  constructor
  · exact List.mem_of_elem_eq_true
  · exact List.elem_eq_true_of_mem

/-- `getUnrewritten` is empty exactly when every consumer is marked
rewritten or is in the candidate set. -/
theorem getUnrewritten_eq_nil_iff (st : BarrelState) (td : List Path) :
    getUnrewritten st td = [] ↔
      ∀ c ∈ st.consumers, st.rewrittenConsumers.contains c = true ∨ c ∈ td := by
  constructor
  · intro h c hc
    by_contra hcon
    push_neg at hcon
    have hmem : c ∈ getUnrewritten st td := by
      unfold getUnrewritten
      rw [List.mem_filter]
      refine ⟨hc, ?_⟩
      rw [Bool.and_eq_true]
      constructor
      · cases hcontains : st.rewrittenConsumers.contains c
        · rfl
        · exact absurd hcontains hcon.1
      · cases ht : td.contains c
        · rfl
        · exact absurd (List.mem_of_elem_eq_true ht) hcon.2
    rw [h] at hmem
    cases hmem
  · intro h
    unfold getUnrewritten
    rw [List.filter_eq_nil_iff]
    intro c hc hpred
    rw [Bool.and_eq_true] at hpred
    rcases h c hc with hr | htd
    · rw [hr] at hpred
      exact absurd hpred.1 (by simp)
    · rw [(contains_iff_mem td c).mpr htd] at hpred
      exact absurd hpred.2 (by simp)

/-- Soundness of one pass: every member of the result was already a
candidate, or is a registered barrel that passes the static guard and whose
consumers are all rewritten or themselves in the result. -/
theorem onePass_sound (ctx : ClassifyCtx) (bs : List (Path × BarrelState)) (td : List Path)
    (x : Path) (hx : x ∈ onePass ctx bs td) :
    x ∈ td ∨ ∃ st, (x, st) ∈ bs ∧ candidateGuard ctx x st = true ∧
      ∀ c ∈ st.consumers, st.rewrittenConsumers.contains c = true ∨ c ∈ onePass ctx bs td := by
  induction bs generalizing td with
  | nil => exact Or.inl hx
  | cons pair rest ih =>
      have hx' : x ∈ onePass ctx rest (onePassStep ctx td pair) := hx
      have hsub : td ⊆ onePass ctx (pair :: rest) td := by
        intro a ha
        refine subset_onePass ctx rest (onePassStep ctx td pair) ?_
        rcases onePassStep_extend ctx td pair with he | he <;> rw [he]
        · exact ha
        · exact List.mem_append_left _ ha
      rcases ih (onePassStep ctx td pair) hx' with h | h
      · unfold onePassStep at h
        by_cases hc : td.contains pair.1 = true
        · rw [if_pos hc] at h
          exact Or.inl h
        · rw [if_neg hc] at h
          by_cases hg : (candidateGuard ctx pair.1 pair.2 &&
              (getUnrewritten pair.2 td).isEmpty) = true
          · rw [if_pos hg] at h
            rw [Bool.and_eq_true] at hg
            rcases List.mem_append.mp h with h | h
            · exact Or.inl h
            · simp only [List.mem_singleton] at h
              subst h
              right
              refine ⟨pair.2, by simp, hg.1, ?_⟩
              have hemp := hg.2
              rw [List.isEmpty_iff] at hemp
              intro c hcons
              rcases (getUnrewritten_eq_nil_iff pair.2 td).mp hemp c hcons with hr | htd
              · exact Or.inl hr
              · exact Or.inr (hsub htd)
          · rw [if_neg hg] at h
            exact Or.inl h
      · rcases h with ⟨st, hmem, hguard, hcons⟩
        exact Or.inr ⟨st, List.mem_cons_of_mem _ hmem, hguard, hcons⟩

/-- Completeness of one pass: a registered barrel passing the static guard
whose consumers are all rewritten or already candidates is in the result. -/
theorem onePass_complete (ctx : ClassifyCtx) (bs : List (Path × BarrelState))
    (td : List Path) (x : Path) (st : BarrelState) (hmem : (x, st) ∈ bs)
    (hguard : candidateGuard ctx x st = true)
    (hcons : ∀ c ∈ st.consumers, st.rewrittenConsumers.contains c = true ∨ c ∈ td) :
    x ∈ onePass ctx bs td := by
  induction bs generalizing td with
  | nil => cases hmem
  | cons pair rest ih =>
      rcases List.mem_cons.mp hmem with hhd | htl
      · subst hhd
        rw [onePass_cons]
        have hstep : x ∈ onePassStep ctx td (x, st) := by
          unfold onePassStep
          by_cases hc : td.contains (x, st).1 = true
          · rw [if_pos hc]
            exact List.mem_of_elem_eq_true hc
          · rw [if_neg hc]
            have hg : (candidateGuard ctx (x, st).1 (x, st).2 &&
                (getUnrewritten (x, st).2 td).isEmpty) = true := by
              rw [Bool.and_eq_true, List.isEmpty_iff, getUnrewritten_eq_nil_iff]
              exact ⟨hguard, hcons⟩
            rw [if_pos hg]
            exact List.mem_append_right _ (by simp)
        exact subset_onePass ctx rest (onePassStep ctx td (x, st)) hstep
      · rw [onePass_cons]
        refine ih (onePassStep ctx td pair) htl ?_
        intro c hc
        rcases hcons c hc with h | h
        · exact Or.inl h
        · right
          rcases onePassStep_extend ctx td pair with he | he <;> rw [he]
          · exact h
          · exact List.mem_append_left _ h

/-- Unfolding equations for the fixpoint loop. -/
theorem classifyLoop_zero (ctx : ClassifyCtx) (bs : List (Path × BarrelState))
    (td : List Path) : classifyLoop ctx bs 0 td = td := rfl

theorem classifyLoop_succ (ctx : ClassifyCtx) (bs : List (Path × BarrelState))
    (n : Nat) (td : List Path) :
    classifyLoop ctx bs (n + 1) td =
      if (onePass ctx bs td).length = td.length then td
      else classifyLoop ctx bs n (onePass ctx bs td) := rfl

/-- The fixpoint loop only appends to the candidate list. -/
theorem classifyLoop_extend (ctx : ClassifyCtx) (bs : List (Path × BarrelState))
    (fuel : Nat) (td : List Path) : ∃ ex, classifyLoop ctx bs fuel td = td ++ ex := by
  induction fuel generalizing td with
  | zero => exact ⟨[], by rw [classifyLoop_zero, List.append_nil]⟩
  | succ n ih =>
      rw [classifyLoop_succ]
      split
      · exact ⟨[], by rw [List.append_nil]⟩
      · rcases ih (onePass ctx bs td) with ⟨ex, hex⟩
        rcases onePass_extend ctx bs td with ⟨ex', hex'⟩
        exact ⟨ex' ++ ex, by rw [hex, hex', List.append_assoc]⟩

/-- With enough fuel, the loop reaches quiescence: one more pass over the
result adds nothing. -/
theorem classifyLoop_fix (ctx : ClassifyCtx) (bs : List (Path × BarrelState)) :
    ∀ (fuel : Nat) (td : List Path), td.Nodup → (∀ x ∈ td, x ∈ bs.map Prod.fst) →
    bs.length + 1 - td.length ≤ fuel →
    onePass ctx bs (classifyLoop ctx bs fuel td) = classifyLoop ctx bs fuel td := by
  intro fuel
  induction fuel with
  | zero =>
      intro td hnd hsub hfuel
      exfalso
      have hcard : td.length ≤ bs.length := by
        have h1 : td.toFinset.card = td.length := List.toFinset_card_of_nodup hnd
        have h2 : td.toFinset ⊆ (bs.map Prod.fst).toFinset := by
          intro a ha
          rw [List.mem_toFinset] at ha ⊢
          exact hsub a ha
        have h3 := Finset.card_le_card h2
        have h4 := (bs.map Prod.fst).toFinset_card_le
        simp only [List.length_map] at h4
        omega
      omega
  | succ n ih =>
      intro td hnd hsub hfuel
      rw [classifyLoop_succ]
      split
      · rename_i hlen
        exact onePass_of_length_eq ctx bs td hlen
      · rename_i hlen
        refine ih (onePass ctx bs td) (nodup_onePass ctx bs td hnd) ?_ ?_
        · intro x hx
          rcases mem_onePass ctx bs td x hx with h | h
          · exact hsub x h
          · exact h
        · rcases onePass_extend ctx bs td with ⟨ex, hex⟩
          have hexlen : (onePass ctx bs td).length = td.length + ex.length := by
            rw [hex, List.length_append]
          have : ex.length ≠ 0 := by
            intro h0
            exact hlen (by omega)
          omega

/-- Soundness of the whole loop, relative to the final candidate set. -/
theorem classifyLoop_sound (ctx : ClassifyCtx) (bs : List (Path × BarrelState)) :
    ∀ (fuel : Nat) (td : List Path) (x : Path), x ∈ classifyLoop ctx bs fuel td →
    x ∈ td ∨ ∃ st, (x, st) ∈ bs ∧ candidateGuard ctx x st = true ∧
      ∀ c ∈ st.consumers, st.rewrittenConsumers.contains c = true ∨
        c ∈ classifyLoop ctx bs fuel td := by
  intro fuel
  induction fuel with
  | zero => intro td x hx; exact Or.inl hx
  | succ n ih =>
      intro td x hx
      rw [classifyLoop_succ] at hx ⊢
      split at hx
      · rename_i hlen
        rw [if_pos hlen]
        exact Or.inl hx
      · rename_i hlen
        rw [if_neg hlen]
        rcases ih (onePass ctx bs td) x hx with h | h
        · rcases onePass_sound ctx bs td x h with h' | h'
          · exact Or.inl h'
          · rcases h' with ⟨st, hmem, hguard, hcons⟩
            right
            refine ⟨st, hmem, hguard, ?_⟩
            intro c hc
            rcases hcons c hc with hr | htd
            · exact Or.inl hr
            · right
              rcases classifyLoop_extend ctx bs n (onePass ctx bs td) with ⟨ex, hex⟩
              rw [hex]
              exact List.mem_append_left _ htd
        · exact Or.inr h

/-- The delete-candidate set computed by `classify`'s fixpoint loop contains
a path exactly when it is a registered barrel that passes the static guard
and all of whose consumers are rewritten or themselves candidates. -/
theorem toDelete_spec (ctx : ClassifyCtx) (bs : List (Path × BarrelState)) (x : Path) :
    x ∈ classifyLoop ctx bs (bs.length + 1) [] ↔
      ∃ st, (x, st) ∈ bs ∧ candidateGuard ctx x st = true ∧
        ∀ c ∈ st.consumers, st.rewrittenConsumers.contains c = true ∨
          c ∈ classifyLoop ctx bs (bs.length + 1) [] := by
  constructor
  · intro hx
    rcases classifyLoop_sound ctx bs (bs.length + 1) [] x hx with h | h
    · cases h
    · exact h
  · intro h
    rcases h with ⟨st, hmem, hguard, hcons⟩
    have hfix := classifyLoop_fix ctx bs (bs.length + 1) [] List.nodup_nil
      (by intro x hx; cases hx) (by simp)
    rw [← hfix]
    exact onePass_complete ctx bs _ x st hmem hguard hcons

/-- The delete-candidate set `classify` computes, as a named definition. -/
def toDeleteSet (t : BarrelTracker) (ctx : ClassifyCtx) : List Path :=
  classifyLoop ctx t.barrels (t.barrels.length + 1) []

theorem classify_fst_eq (t : BarrelTracker) (ctx : ClassifyCtx) :
    (t.classify ctx).1 = (t.barrels.filter
      (fun pair => inScope ctx pair.1 && (toDeleteSet t ctx).contains pair.1)).map
        (fun pair => pair.1) := rfl

theorem classify_snd_eq (t : BarrelTracker) (ctx : ClassifyCtx) :
    (t.classify ctx).2 = (t.barrels.filter
      (fun pair => inScope ctx pair.1 && !(toDeleteSet t ctx).contains pair.1)).flatMap
      (fun pair => (getPreservationReasons ctx pair.1 pair.2 (toDeleteSet t ctx)).map
        (fun rc => PreservedBarrel.mk pair.1 rc.1 rc.2)) := rfl

/-- Membership in the reported `deleted` list agrees with membership in the
candidate set: every candidate is a registered in-scope barrel. -/
theorem mem_deleted_iff_toDelete (t : BarrelTracker) (ctx : ClassifyCtx) (x : Path) :
    x ∈ (t.classify ctx).1 ↔ x ∈ toDeleteSet t ctx := by
  rw [classify_fst_eq]
  constructor
  · intro hx
    rcases List.mem_map.mp hx with ⟨pair, hpair, hfst⟩
    have hfil := List.of_mem_filter hpair
    rw [Bool.and_eq_true] at hfil
    rw [← hfst]
    exact List.mem_of_elem_eq_true hfil.2
  · intro hx
    rcases (toDelete_spec ctx t.barrels x).mp hx with ⟨st, hmem, hguard, _⟩
    have hscope : inScope ctx x = true := by
      unfold candidateGuard at hguard
      rw [Bool.and_eq_true, Bool.and_eq_true] at hguard
      exact hguard.1.1
    refine List.mem_map.mpr ⟨(x, st), ?_, rfl⟩
    refine List.mem_filter.mpr ⟨hmem, ?_⟩
    rw [Bool.and_eq_true]
    exact ⟨hscope, List.elem_eq_true_of_mem hx⟩

/-- Claim-level characterization of the `deleted` bucket: a path is deleted
iff it is registered, in scope, has no dynamic consumer, is not skipped, and
every consumer is marked rewritten or is itself deleted. -/
theorem deleted_spec (t : BarrelTracker) (ctx : ClassifyCtx) (x : Path) :
    x ∈ (t.classify ctx).1 ↔
      ∃ st, (x, st) ∈ t.barrels ∧ inScope ctx x = true ∧
        st.dynamicConsumers = [] ∧ isSkipped ctx x = false ∧
        ∀ c ∈ st.consumers, st.rewrittenConsumers.contains c = true ∨
          c ∈ (t.classify ctx).1 := by
  have hguard_iff : ∀ st : BarrelState, candidateGuard ctx x st = true ↔
      (inScope ctx x = true ∧ st.dynamicConsumers = [] ∧ isSkipped ctx x = false) := by
    intro st
    unfold candidateGuard
    rw [Bool.and_eq_true, Bool.and_eq_true, List.isEmpty_iff, Bool.not_eq_true']
    tauto
  rw [mem_deleted_iff_toDelete, toDeleteSet, toDelete_spec]
  constructor
  · rintro ⟨st, hmem, hguard, hcons⟩
    rcases (hguard_iff st).mp hguard with ⟨h1, h2, h3⟩
    refine ⟨st, hmem, h1, h2, h3, ?_⟩
    intro c hc
    rcases hcons c hc with h | h
    · exact Or.inl h
    · exact Or.inr ((mem_deleted_iff_toDelete t ctx c).mpr h)
  · rintro ⟨st, hmem, h1, h2, h3, hcons⟩
    refine ⟨st, hmem, (hguard_iff st).mpr ⟨h1, h2, h3⟩, ?_⟩
    intro c hc
    rcases hcons c hc with h | h
    · exact Or.inl h
    · exact Or.inr ((mem_deleted_iff_toDelete t ctx c).mp h)

/-- The preserved-report builder of the final pass of `classify`, named for
reasoning. -/
def preservedOf (ctx : ClassifyCtx) (td : List Path) (bs : List (Path × BarrelState)) :
    List PreservedBarrel :=
  (bs.filter (fun pair => inScope ctx pair.1 && !td.contains pair.1)).flatMap
    (fun pair => (getPreservationReasons ctx pair.1 pair.2 td).map
      (fun rc => PreservedBarrel.mk pair.1 rc.1 rc.2))

theorem classify_snd_eq_preservedOf (t : BarrelTracker) (ctx : ClassifyCtx) :
    (t.classify ctx).2 = preservedOf ctx (toDeleteSet t ctx) t.barrels := rfl

theorem preservedOf_nil_list (ctx : ClassifyCtx) (td : List Path) :
    preservedOf ctx td [] = [] := rfl

theorem preservedOf_cons (ctx : ClassifyCtx) (td : List Path)
    (pair : Path × BarrelState) (rest : List (Path × BarrelState)) :
    preservedOf ctx td (pair :: rest) =
      (if (inScope ctx pair.1 && !td.contains pair.1) = true
       then (getPreservationReasons ctx pair.1 pair.2 td).map
         (fun rc => PreservedBarrel.mk pair.1 rc.1 rc.2)
       else []) ++ preservedOf ctx td rest := by
  unfold preservedOf
  rw [List.filter_cons]
  split
  · rw [List.flatMap_cons]
  · rw [List.nil_append]

/-- Entries contributed for one barrel all carry that barrel's path, so
filtering by a different path removes them. -/
theorem reasons_filter_ne (ctx : ClassifyCtx) (td : List Path) (p x : Path)
    (st : BarrelState) (hne : p ≠ x) :
    ((getPreservationReasons ctx p st td).map
      (fun rc => PreservedBarrel.mk p rc.1 rc.2)).filter (fun e => e.path == x) = [] := by
  rw [List.filter_eq_nil_iff]
  intro e he
  rcases List.mem_map.mp he with ⟨rc, _, hrc⟩
  rw [← hrc]
  simp [hne]

theorem reasons_filter_eq (ctx : ClassifyCtx) (td : List Path) (x : Path)
    (st : BarrelState) :
    ((getPreservationReasons ctx x st td).map
      (fun rc => PreservedBarrel.mk x rc.1 rc.2)).filter (fun e => e.path == x) =
    (getPreservationReasons ctx x st td).map (fun rc => PreservedBarrel.mk x rc.1 rc.2) := by
  rw [List.filter_eq_self]
  intro e he
  rcases List.mem_map.mp he with ⟨rc, _, hrc⟩
  rw [← hrc]
  simp

/-- With no barrel registered under `x`, nothing in the preserved report
carries path `x`. -/
theorem preservedOf_filter_not_mem (ctx : ClassifyCtx) (td : List Path)
    (bs : List (Path × BarrelState)) (x : Path) (hx : x ∉ bs.map Prod.fst) :
    (preservedOf ctx td bs).filter (fun e => e.path == x) = [] := by
  induction bs with
  | nil => rfl
  | cons pair rest ih =>
      have hne : pair.1 ≠ x := by
        intro h
        exact hx (by simp [h])
      have hx' : x ∉ rest.map Prod.fst := by
        intro h
        exact hx (by simp [h])
      rw [preservedOf_cons, List.filter_append, ih hx']
      split
      · rw [reasons_filter_ne ctx td pair.1 x pair.2 hne, List.append_nil]
      · rw [List.filter_nil, List.append_nil]

/-- The preserved entries carrying a registered barrel's path are exactly
the reason entries computed for its state (assuming distinct keys). -/
theorem preservedOf_filter_eq (ctx : ClassifyCtx) (td : List Path)
    (bs : List (Path × BarrelState)) (x : Path) (st : BarrelState)
    (hnd : (bs.map Prod.fst).Nodup) (hmem : (x, st) ∈ bs) :
    (preservedOf ctx td bs).filter (fun e => e.path == x) =
      if (inScope ctx x && !td.contains x) = true
      then (getPreservationReasons ctx x st td).map (fun rc => PreservedBarrel.mk x rc.1 rc.2)
      else [] := by
  induction bs with
  | nil => cases hmem
  | cons pair rest ih =>
      rw [List.map_cons, List.nodup_cons] at hnd
      rcases List.mem_cons.mp hmem with hhd | htl
      · subst hhd
        have hx' : x ∉ rest.map Prod.fst := hnd.1
        rw [preservedOf_cons, List.filter_append,
          preservedOf_filter_not_mem ctx td rest x hx', List.append_nil]
        split
        · exact reasons_filter_eq ctx td x st
        · rw [List.filter_nil]
      · have hne : pair.1 ≠ x := by
          intro h
          exact hnd.1 (by rw [h]; exact List.mem_map.mpr ⟨(x, st), htl, rfl⟩)
        rw [preservedOf_cons, List.filter_append, ih hnd.2 htl]
        split
        · rw [reasons_filter_ne ctx td pair.1 x pair.2 hne, List.nil_append]
        · rw [List.filter_nil, List.nil_append]

/-- Distinct keys determine at most one state per barrel path. -/
theorem assoc_state_unique (bs : List (Path × BarrelState)) (x : Path)
    (st1 st2 : BarrelState) (hnd : (bs.map Prod.fst).Nodup)
    (h1 : (x, st1) ∈ bs) (h2 : (x, st2) ∈ bs) : st1 = st2 := by
  induction bs with
  | nil => cases h1
  | cons pair rest ih =>
      rw [List.map_cons, List.nodup_cons] at hnd
      rcases List.mem_cons.mp h1 with ha | ha <;> rcases List.mem_cons.mp h2 with hb | hb
      · rw [← ha] at hb
        exact congrArg Prod.snd hb.symm
      · exfalso
        refine hnd.1 ?_
        rw [← ha]
        exact List.mem_map.mpr ⟨(x, st2), hb, rfl⟩
      · exfalso
        refine hnd.1 ?_
        rw [← hb]
        exact List.mem_map.mpr ⟨(x, st1), ha, rfl⟩
      · exact ih hnd.2 ha hb

/-- The consumers pending for a barrel: not rewritten and not candidates. -/
def pendingConsumers (st : BarrelState) (td : List Path) : List Path :=
  st.consumers.filter (fun c => !(st.rewrittenConsumers.contains c || td.contains c))

def nonTsPending (st : BarrelState) (td : List Path) : List Path :=
  (pendingConsumers st td).filter (fun c => !(strEndsWith c ".ts" || strEndsWith c ".tsx"))

def nsPending (st : BarrelState) (td : List Path) : List Path :=
  (pendingConsumers st td).filter (fun c => strEndsWith c ".ts" || strEndsWith c ".tsx")

theorem getPreservationReasons_dynamic (ctx : ClassifyCtx) (p : Path) (st : BarrelState)
    (td : List Path) (hdyn : st.dynamicConsumers ≠ []) :
    getPreservationReasons ctx p st td = [("dynamic-import", st.dynamicConsumers)] := by
  unfold getPreservationReasons
  rw [if_pos]
  rw [Bool.not_eq_true', Bool.eq_false_iff]
  intro h
  exact hdyn (List.isEmpty_iff.mp h)

theorem getPreservationReasons_skip (ctx : ClassifyCtx) (p : Path) (st : BarrelState)
    (td : List Path) (hdyn : st.dynamicConsumers = []) (hskip : isSkipped ctx p = true) :
    getPreservationReasons ctx p st td = [("skip", ([] : List Path))] := by
  unfold getPreservationReasons
  rw [hdyn]
  rw [if_neg (by simp), if_pos hskip]

theorem getPreservationReasons_split (ctx : ClassifyCtx) (p : Path) (st : BarrelState)
    (td : List Path) (hdyn : st.dynamicConsumers = []) (hskip : isSkipped ctx p = false) :
    getPreservationReasons ctx p st td =
      (if !(nonTsPending st td).isEmpty then [("non-ts-import", nonTsPending st td)] else []) ++
      (if !(nsPending st td).isEmpty then [("namespace-import", nsPending st td)] else []) := by
  unfold getPreservationReasons
  rw [hdyn, if_neg (by simp), if_neg (by simp [hskip])]
  rfl

/-- C2: classify assigns every registered in-scope barrel to exactly one of
the deleted or preserved buckets; a barrel with a dynamic consumer is never
deleted and gets the single exclusive reason dynamic-import; otherwise a
skipped or entry-point barrel gets the exclusive reason skip; otherwise its
unrewritten non-candidate consumers are split by file kind into a
non-ts-import entry (non-script consumers) and a namespace-import entry
(script consumers), and both entries may be emitted for the same barrel. -/
theorem classify_buckets_and_reasons (t : BarrelTracker) (ctx : ClassifyCtx)
    (x : Path) (st : BarrelState) (hnd : (t.barrels.map Prod.fst).Nodup)
    (hmem : (x, st) ∈ t.barrels) (hscope : inScope ctx x = true) :
    ((x ∈ (t.classify ctx).1 ∧ ((t.classify ctx).2.filter (fun e => e.path == x)) = []) ∨
     (x ∉ (t.classify ctx).1 ∧ ((t.classify ctx).2.filter (fun e => e.path == x)) ≠ [])) ∧
    (st.dynamicConsumers ≠ [] →
      x ∉ (t.classify ctx).1 ∧
      (t.classify ctx).2.filter (fun e => e.path == x) =
        [PreservedBarrel.mk x "dynamic-import" st.dynamicConsumers]) ∧
    (st.dynamicConsumers = [] → isSkipped ctx x = true →
      x ∉ (t.classify ctx).1 ∧
      (t.classify ctx).2.filter (fun e => e.path == x) =
        [PreservedBarrel.mk x "skip" []]) ∧
    (st.dynamicConsumers = [] → isSkipped ctx x = false → x ∉ (t.classify ctx).1 →
      (t.classify ctx).2.filter (fun e => e.path == x) =
        (if !(nonTsPending st (toDeleteSet t ctx)).isEmpty then
          [PreservedBarrel.mk x "non-ts-import" (nonTsPending st (toDeleteSet t ctx))]
         else []) ++
        (if !(nsPending st (toDeleteSet t ctx)).isEmpty then
          [PreservedBarrel.mk x "namespace-import" (nsPending st (toDeleteSet t ctx))]
         else [])) := by
  have hF : (t.classify ctx).2.filter (fun e => e.path == x) =
      if (inScope ctx x && !(toDeleteSet t ctx).contains x) = true
      then (getPreservationReasons ctx x st (toDeleteSet t ctx)).map
        (fun rc => PreservedBarrel.mk x rc.1 rc.2)
      else [] := by
    rw [classify_snd_eq_preservedOf]
    exact preservedOf_filter_eq ctx (toDeleteSet t ctx) t.barrels x st hnd hmem
  have hDel : x ∈ (t.classify ctx).1 ↔ x ∈ toDeleteSet t ctx :=
    mem_deleted_iff_toDelete t ctx x
  by_cases hx : x ∈ toDeleteSet t ctx
  · have hguard : candidateGuard ctx x st = true := by
      rcases (toDelete_spec ctx t.barrels x).mp hx with ⟨st', hmem', hguard', _⟩
      rw [assoc_state_unique t.barrels x st st' hnd hmem hmem']
      exact hguard'
    unfold candidateGuard at hguard
    rw [Bool.and_eq_true, Bool.and_eq_true, List.isEmpty_iff, Bool.not_eq_true'] at hguard
    have hFnil : (t.classify ctx).2.filter (fun e => e.path == x) = [] := by
      rw [hF, if_neg]
      rw [Bool.and_eq_true, Bool.not_eq_true']
      rintro ⟨-, hc⟩
      rw [(contains_iff_mem _ x).mpr hx] at hc
      cases hc
    refine ⟨Or.inl ⟨hDel.mpr hx, hFnil⟩, ?_, ?_, ?_⟩
    · intro hdyn
      exact absurd hguard.1.2 hdyn
    · intro _ hskip
      rw [hguard.2] at hskip
      cases hskip
    · intro _ _ hnotdel
      exact absurd (hDel.mpr hx) hnotdel
  · have hcont : (toDeleteSet t ctx).contains x = false := by
      cases h : (toDeleteSet t ctx).contains x
      · rfl
      · exact absurd (List.mem_of_elem_eq_true h) hx
    have hFmap : (t.classify ctx).2.filter (fun e => e.path == x) =
        (getPreservationReasons ctx x st (toDeleteSet t ctx)).map
          (fun rc => PreservedBarrel.mk x rc.1 rc.2) := by
      rw [hF, if_pos]
      rw [Bool.and_eq_true, hcont]
      exact ⟨hscope, rfl⟩
    have hnotdel : x ∉ (t.classify ctx).1 := fun h => hx (hDel.mp h)
    refine ⟨?_, ?_, ?_, ?_⟩
    · right
      refine ⟨hnotdel, ?_⟩
      rw [hFmap]
      rw [Ne, List.map_eq_nil_iff]
      by_cases hdyn : st.dynamicConsumers = []
      · by_cases hskip : isSkipped ctx x = true
        · rw [getPreservationReasons_skip ctx x st _ hdyn hskip]
          simp
        · rw [Bool.not_eq_true] at hskip
          rw [getPreservationReasons_split ctx x st _ hdyn hskip]
          have hpend : ∃ c ∈ st.consumers, st.rewrittenConsumers.contains c = false ∧
              c ∉ toDeleteSet t ctx := by
            by_contra hall
            push_neg at hall
            refine hx ((toDelete_spec ctx t.barrels x).mpr ⟨st, hmem, ?_, ?_⟩)
            · unfold candidateGuard
              rw [Bool.and_eq_true, Bool.and_eq_true, List.isEmpty_iff, Bool.not_eq_true']
              exact ⟨⟨hscope, hdyn⟩, hskip⟩
            · intro c hc
              by_cases hr : st.rewrittenConsumers.contains c = true
              · exact Or.inl hr
              · rw [Bool.not_eq_true] at hr
                exact Or.inr (hall c hc hr)
          rcases hpend with ⟨c, hc, hcr, hctd⟩
          have hcpend : c ∈ pendingConsumers st (toDeleteSet t ctx) := by
            unfold pendingConsumers
            rw [List.mem_filter]
            refine ⟨hc, ?_⟩
            have hctd' : (toDeleteSet t ctx).contains c = false := by
              cases h : (toDeleteSet t ctx).contains c
              · rfl
              · exact absurd (List.mem_of_elem_eq_true h) hctd
            rw [hcr, hctd']
            rfl
          intro hnil
          rw [List.append_eq_nil] at hnil
          by_cases hts : (strEndsWith c ".ts" || strEndsWith c ".tsx") = true
          · have hcns : c ∈ nsPending st (toDeleteSet t ctx) := by
              unfold nsPending
              rw [List.mem_filter]
              exact ⟨hcpend, hts⟩
            have hemp : (nsPending st (toDeleteSet t ctx)).isEmpty = false := by
              cases h : (nsPending st (toDeleteSet t ctx)).isEmpty
              · rfl
              · rw [List.isEmpty_iff] at h
                rw [h] at hcns
                cases hcns
            have hcond : (!(nsPending st (toDeleteSet t ctx)).isEmpty) = true := by
              rw [hemp]
              rfl
            have h2 := hnil.2
            rw [if_pos hcond] at h2
            cases h2
          · have hcns : c ∈ nonTsPending st (toDeleteSet t ctx) := by
              unfold nonTsPending
              rw [List.mem_filter]
              refine ⟨hcpend, ?_⟩
              rw [Bool.not_eq_true] at hts
              rw [hts]
              rfl
            have hemp : (nonTsPending st (toDeleteSet t ctx)).isEmpty = false := by
              cases h : (nonTsPending st (toDeleteSet t ctx)).isEmpty
              · rfl
              · rw [List.isEmpty_iff] at h
                rw [h] at hcns
                cases hcns
            have hcond : (!(nonTsPending st (toDeleteSet t ctx)).isEmpty) = true := by
              rw [hemp]
              rfl
            have h1 := hnil.1
            rw [if_pos hcond] at h1
            cases h1
      · rw [getPreservationReasons_dynamic ctx x st _ hdyn]
        simp
    · intro hdyn
      refine ⟨hnotdel, ?_⟩
      rw [hFmap, getPreservationReasons_dynamic ctx x st _ hdyn]
      rfl
    · intro hdyn hskip
      refine ⟨hnotdel, ?_⟩
      rw [hFmap, getPreservationReasons_skip ctx x st _ hdyn hskip]
      rfl
    · intro hdyn hskip _
      rw [hFmap, getPreservationReasons_split ctx x st _ hdyn hskip, List.map_append]
      congr 1
      · split
        · rfl
        · rfl
      · split
        · rfl
        · rfl

/-- A concrete classification context used by witnesses. -/
def witnessCtx : ClassifyCtx :=
  { base := "/p", preservedBarrels := [], isPackageEntryPoint := fun _ => false }

/-- A concrete tracker with one barrel that has a dynamic consumer. -/
def witnessTracker : BarrelTracker :=
  { barrels := [("/p/a.ts",
      { consumers := ["/p/c.ts"], rewrittenConsumers := [],
        dynamicConsumers := ["/p/d.ts"] })],
    untraceableImports := [] }

/-- Witness for C2 at a concrete tracker: the dynamically imported barrel is
not deleted and is reported with the single reason dynamic-import. -/
theorem classify_buckets_and_reasons_witness :
    "/p/a.ts" ∉ (witnessTracker.classify witnessCtx).1 ∧
    (witnessTracker.classify witnessCtx).2.filter (fun e => e.path == "/p/a.ts") =
      [PreservedBarrel.mk "/p/a.ts" "dynamic-import" ["/p/d.ts"]] :=
  (classify_buckets_and_reasons witnessTracker witnessCtx "/p/a.ts"
    { consumers := ["/p/c.ts"], rewrittenConsumers := [],
      dynamicConsumers := ["/p/d.ts"] }
    (by decide) (by decide) (by decide)).2.1 (by decide)

/-- `stripQueryString` from `resolver.ts`: keep everything before the first
question mark (JS `indexOf` + `slice`). -/
def stripQueryString (specifier : String) : String :=
  String.mk (specifier.toList.takeWhile (fun c => c ≠ '?'))

/-- `resolveModule` from `resolver.ts`.  The call into the oxc resolver
(`resolver.resolveFileSync`) is outside the core and is passed in as the
function argument `resolveFileSync` (returning the resolved path, when any);
the alias argument of the source function is unused by its body and is
dropped here. -/
def resolveModule (resolveFileSync : Path → String → Option String)
    (fromPath : Path) (specifier : String) : Option String :=
  let cleanSpecifier := stripQueryString specifier
  let isRelativeOrAbsolute :=
    strStartsWith cleanSpecifier "." || strStartsWith cleanSpecifier "/"
  match resolveFileSync fromPath cleanSpecifier with
  | none => if isRelativeOrAbsolute then none else some cleanSpecifier
  | some path =>
      if strContains path "node_modules" then some cleanSpecifier
      else some path

theorem stripQueryString_idem (s : String) :
    stripQueryString (stripQueryString s) = stripQueryString s := by
  unfold stripQueryString
  have h : (String.mk (s.toList.takeWhile (fun c => c ≠ '?'))).toList
      = s.toList.takeWhile (fun c => c ≠ '?') := rfl
  rw [h, List.takeWhile_idem]

/-- C9: `resolveModule` strips query-string decoration before resolving
(its result only depends on the stripped specifier); a resolution landing in
`node_modules` yields the cleaned specifier; a failed resolution yields the
cleaned specifier when it is neither relative nor absolute, and no result
when it is relative or absolute; otherwise the resolved path is returned. -/
theorem resolveModule_characterization (r : Path → String → Option String)
    (f : Path) (s : String) :
    (resolveModule r f s = resolveModule r f (stripQueryString s)) ∧
    (∀ p, r f (stripQueryString s) = some p → strContains p "node_modules" = true →
      resolveModule r f s = some (stripQueryString s)) ∧
    (∀ p, r f (stripQueryString s) = some p → strContains p "node_modules" = false →
      resolveModule r f s = some p) ∧
    (r f (stripQueryString s) = none →
      (strStartsWith (stripQueryString s) "." ||
        strStartsWith (stripQueryString s) "/") = false →
      resolveModule r f s = some (stripQueryString s)) ∧
    (r f (stripQueryString s) = none →
      (strStartsWith (stripQueryString s) "." ||
        strStartsWith (stripQueryString s) "/") = true →
      resolveModule r f s = none) := by
  refine ⟨?_, ?_, ?_, ?_, ?_⟩
  · simp only [resolveModule]
    rw [stripQueryString_idem]
  · intro p hp hnm
    simp only [resolveModule]
    rw [hp]
    simp only [hnm, if_true]
  · intro p hp hnm
    simp only [resolveModule]
    rw [hp]
    simp only [hnm, Bool.false_eq_true, if_false]
  · intro hp hrel
    simp only [resolveModule]
    rw [hp]
    simp only [hrel, Bool.false_eq_true, if_false]
  · intro hp hrel
    simp only [resolveModule]
    rw [hp]
    simp only [hrel, if_true]

/-- Witness for C9: a bare specifier with a query string resolving into a
dependency directory returns the cleaned bare specifier. -/
theorem resolveModule_characterization_witness :
    resolveModule (fun _ _ => some "/proj/node_modules/pkg/index.ts") "/proj/a.ts"
      "pkg?query" = some (stripQueryString "pkg?query") :=
  (resolveModule_characterization (fun _ _ => some "/proj/node_modules/pkg/index.ts")
    "/proj/a.ts" "pkg?query").2.1 "/proj/node_modules/pkg/index.ts" rfl (by decide)

/-- The export clause forms of a TypeScript `ExportDeclaration` node:
a named clause (elements with optional property name) or `export * as ns`. -/
inductive ExportClause
  | named (elements : List (String × Option String))
  | namespaceExport (name : String)
deriving DecidableEq, Repr

/-- The top-level statement forms the analyzer distinguishes.  A TypeScript
`ExportDeclaration` covers `export ... from "m"` and also `export { x }`
without a module specifier; `export default e` and `export = e` are
`ExportAssignment` nodes; exported declarations are their own node kinds
with an export modifier. -/
inductive Statement
  | exportDeclaration (exportClause : Option ExportClause) (moduleSpecifier : Option String)
  | importDeclaration (specifier : String)
  | exportAssignment
  | variableStatement (isExported : Bool) (names : List String)
  | functionDeclaration (isExported : Bool) (name : String)
  | classDeclaration (isExported : Bool) (name : String)
  | interfaceDeclaration (isExported : Bool) (name : String)
  | typeAliasDeclaration (isExported : Bool) (name : String)
  | enumDeclaration (isExported : Bool) (name : String)
  | otherStatement
deriving DecidableEq, Repr

/-- `ts.isExportDeclaration`. -/
def isExportDeclaration : Statement → Bool
  | Statement.exportDeclaration _ _ => true
  | _ => false

/-- `checkIsBarrel` from `analyzer.ts`: at least one top-level statement and
every statement an export declaration. -/
def checkIsBarrel (statements : List Statement) : Bool :=
  decide (statements.length > 0) && statements.all isExportDeclaration

/-- The spec's wording for a barrel-qualifying statement: an export-from
declaration, i.e. an export declaration that carries a module specifier. -/
def isExportFromDeclaration : Statement → Bool
  | Statement.exportDeclaration _ (some _) => true
  | _ => false

/-- C6 counterexample: a file whose sole statement is `export { x }` without
a module specifier is not an export-from declaration, yet `checkIsBarrel`
classifies the file as a barrel — so the claim that non-re-exporting export
statements disqualify a file fails on the code. -/
theorem checkIsBarrel_specless_export_counterexample :
    checkIsBarrel
      [Statement.exportDeclaration (some (ExportClause.named [("x", none)])) none] = true ∧
    isExportFromDeclaration
      (Statement.exportDeclaration (some (ExportClause.named [("x", none)])) none) = false := by
  decide

/-- C6 (amended): `checkIsBarrel` holds iff the file has at least one
statement and every statement is an export declaration, with or without a
module specifier; plain exports of locally declared values, functions,
classes, interfaces, type aliases or enums, and export assignments, all
disqualify the file, while `export { x }` without a module specifier does
not. -/
theorem checkIsBarrel_characterization (stmts : List Statement) :
    (checkIsBarrel stmts = true ↔ stmts ≠ [] ∧ ∀ s ∈ stmts, isExportDeclaration s = true) ∧
    (∀ b ns, isExportDeclaration (Statement.variableStatement b ns) = false) ∧
    (∀ b n, isExportDeclaration (Statement.functionDeclaration b n) = false) ∧
    (∀ b n, isExportDeclaration (Statement.classDeclaration b n) = false) ∧
    (∀ b n, isExportDeclaration (Statement.interfaceDeclaration b n) = false) ∧
    (∀ b n, isExportDeclaration (Statement.typeAliasDeclaration b n) = false) ∧
    (∀ b n, isExportDeclaration (Statement.enumDeclaration b n) = false) ∧
    (isExportDeclaration Statement.exportAssignment = false) ∧
    (∀ cl, isExportDeclaration (Statement.exportDeclaration cl none) = true) := by
  refine ⟨?_, fun _ _ => rfl, fun _ _ => rfl, fun _ _ => rfl, fun _ _ => rfl,
    fun _ _ => rfl, fun _ _ => rfl, rfl, fun _ => rfl⟩
  unfold checkIsBarrel
  rw [Bool.and_eq_true, List.all_eq_true, decide_eq_true_eq]
  constructor
  · rintro ⟨h1, h2⟩
    exact ⟨List.length_pos.mp h1, h2⟩
  · rintro ⟨h1, h2⟩
    exact ⟨List.length_pos.mpr h1, h2⟩

/-- A statement's source-position span (`pos.start`/`pos.end`; the second
field is named `stop` because `end` is reserved in Lean). -/
structure Pos where
  start : Nat
  stop : Nat
deriving DecidableEq, Repr

/-- A bound name with optional alias and type-only flag (`Name` in
`types.ts`; the source field `alias` is named `aliasName`, since `alias` is
reserved). -/
structure Name where
  name : String
  aliasName : Option String := none
  isType : Bool := false
deriving DecidableEq, Repr

/-- The two-way discriminant of a rewrite (`Rewrite.type`). -/
inductive RewriteKind
  | importKind
  | exportKind
deriving DecidableEq, Repr

/-- A rewrite item (`Rewrite` in `types.ts`).  The `specifierPrefix` and
`specifierSuffix` fields of the source are named `specPre` and `specSuf`
here. -/
structure Rewrite where
  kind : RewriteKind
  ns : Option String := none
  named : List Name := []
  members : List Name := []
  externalSpecifier : Option String := none
  reExportedNs : Option String := none
  defaultName : Option String := none
  originalSpecifier : Option String := none
  specPre : Option String := none
  specSuf : Option String := none
  unsafeNsName : Option String := none
deriving DecidableEq, Repr

/-- A rewrite plan (`Rewrites`): statement span to (target path or external
specifier) to rewrite item.  The source keys the outer map by the string
`start:end`, which encodes the pair injectively; the embedding keys by the
pair itself. -/
abbrev Rewrites := List (Pos × List (Path × Rewrite))

/-- One entry of `RewritesByPosition`. -/
abbrev PosEntry := ((Nat × Nat) × List (Path × Rewrite))

/-- Insertion step of the JS `Array.prototype.sort` call with comparator
`b[0][0] - a[0][0]` (descending by span start). -/
def insertDescByStart (x : PosEntry) : List PosEntry → List PosEntry
  | [] => [x]
  | y :: ys => if y.1.1 ≤ x.1.1 then x :: y :: ys else y :: insertDescByStart x ys

def sortDescByStart (l : List PosEntry) : List PosEntry :=
  l.foldr insertDescByStart []

/-- `reverseRewritesByPos` from `rewriter.ts`: the plan's entries as
`((start, end), item)` pairs sorted by descending start offset. -/
def reverseRewritesByPos (rewrites : Rewrites) : List PosEntry :=
  sortDescByStart (rewrites.map (fun pm => ((pm.1.start, pm.1.stop), pm.2)))

/-- One textual splice:
`content.slice(0, start) + replacement + content.slice(end)`. -/
def spliceAt (c : List Char) (s e : Nat) (r : List Char) : List Char :=
  c.take s ++ r ++ c.drop e

/-- The splice loop of `applyRewrites`: fold the descending entry list over
the source text. -/
def applyDesc (render : List (Path × Rewrite) → List Char) (content : List Char)
    (entries : List PosEntry) : List Char :=
  entries.foldl (fun c entry => spliceAt c entry.1.1 entry.1.2 (render entry.2)) content

/-- `applyRewrites` from `rewriter.ts`, restricted to its splice loop: the
synthesis of each span's replacement text (specifier building, factory
nodes, printing, and the unsafe-namespace accumulation — all per-entry and
independent of the surrounding text) is abstracted as `render`; the
organize-imports post-pass is the external formatting utility `organize`,
applied only when the flag is set. -/
def applyRewrites (render : List (Path × Rewrite) → List Char)
    (organize : List Char → List Char) (organizeFlag : Bool)
    (content : List Char) (rewrites : Rewrites) : List Char :=
  let out := applyDesc render content (reverseRewritesByPos rewrites)
  if organizeFlag then organize out else out

theorem applyDesc_cons (render : List (Path × Rewrite) → List Char) (content : List Char)
    (x : PosEntry) (rest : List PosEntry) :
    applyDesc render content (x :: rest) =
      applyDesc render (spliceAt content x.1.1 x.1.2 (render x.2)) rest := rfl

/-- The expected interleaving of untouched gap segments of the original
text with the rendered replacements, for a descending entry list: every
character outside the spans is a character of the original content, kept in
order. -/
def expectedSplice (render : List (Path × Rewrite) → List Char) (content : List Char) :
    List PosEntry → List Char
  | [] => content
  | ((s, e), m) :: rest =>
      expectedSplice render (content.take s) rest ++ render m ++ content.drop e

/-- Well-formed descending entry chain under a right bound: spans are
ordered, non-overlapping, and within bounds. -/
def DescChain (bound : Nat) : List PosEntry → Prop
  | [] => True
  | ((s, e), _) :: rest => s ≤ e ∧ e ≤ bound ∧ DescChain s rest

theorem insertDescByStart_perm (x : PosEntry) (l : List PosEntry) :
    List.Perm (insertDescByStart x l) (x :: l) := by
  induction l with
  | nil => exact List.Perm.refl _
  | cons y ys ih =>
      unfold insertDescByStart
      split
      · exact List.Perm.refl _
      · exact List.Perm.trans (List.Perm.cons y ih) (List.Perm.swap x y ys)

theorem sortDescByStart_perm (l : List PosEntry) :
    List.Perm (sortDescByStart l) l := by
  induction l with
  | nil => exact List.Perm.refl _
  | cons x xs ih =>
      have h1 : sortDescByStart (x :: xs) = insertDescByStart x (sortDescByStart xs) := rfl
      rw [h1]
      exact List.Perm.trans (insertDescByStart_perm x (sortDescByStart xs))
        (List.Perm.cons x ih)

theorem insertDescByStart_pairwise (x : PosEntry) (l : List PosEntry)
    (h : List.Pairwise (fun a b : PosEntry => b.1.1 ≤ a.1.1) l) :
    List.Pairwise (fun a b : PosEntry => b.1.1 ≤ a.1.1) (insertDescByStart x l) := by
  induction l with
  | nil => exact List.pairwise_singleton _ x
  | cons y ys ih =>
      rw [List.pairwise_cons] at h
      unfold insertDescByStart
      split
      · rename_i hle
        rw [List.pairwise_cons]
        refine ⟨?_, List.pairwise_cons.mpr h⟩
        intro z hz
        rcases List.mem_cons.mp hz with hz | hz
        · rw [hz]
          exact hle
        · exact Nat.le_trans (h.1 z hz) hle
      · rename_i hgt
        rw [List.pairwise_cons]
        constructor
        · intro z hz
          have hz' := (insertDescByStart_perm x ys).mem_iff.mp hz
          rcases List.mem_cons.mp hz' with hz' | hz'
          · rw [hz']
            exact Nat.le_of_not_le hgt
          · exact h.1 z hz'
        · exact ih h.2

theorem sortDescByStart_pairwise (l : List PosEntry) :
    List.Pairwise (fun a b : PosEntry => b.1.1 ≤ a.1.1) (sortDescByStart l) := by
  induction l with
  | nil => exact List.Pairwise.nil
  | cons x xs ih => exact insertDescByStart_pairwise x (sortDescByStart xs) ih

/-- Splicing at a span keeps the prefix before the span start intact: a
splice never shifts the offsets of a not-yet-applied edit located before
it. -/
theorem spliceAt_take_prefix (c : List Char) (s e j : Nat) (r : List Char)
    (hj : j ≤ s) (hs : s ≤ c.length) : (spliceAt c s e r).take j = c.take j := by
  unfold spliceAt
  have hlen : (c.take s).length = s := List.length_take_of_le hs
  rw [List.append_assoc]
  rw [List.take_append_of_le_length (by rw [hlen]; exact hj)]
  rw [List.take_take, Nat.min_eq_left hj]

/-- A run of splices all below a bound leaves an appended tail untouched. -/
theorem applyDesc_append (render : List (Path × Rewrite) → List Char)
    (entries : List PosEntry) :
    ∀ (A B : List Char) (bound : Nat), DescChain bound entries → bound ≤ A.length →
    applyDesc render (A ++ B) entries = applyDesc render A entries ++ B := by
  induction entries with
  | nil => intro A B bound _ _; rfl
  | cons x rest ih =>
      intro A B bound hchain hA
      obtain ⟨⟨s, e⟩, m⟩ := x
      obtain ⟨hse, heb, hrest⟩ := hchain
      have hsA : s ≤ A.length := Nat.le_trans (Nat.le_trans hse heb) hA
      have heA : e ≤ A.length := Nat.le_trans heb hA
      have hstep : spliceAt (A ++ B) s e (render m) = spliceAt A s e (render m) ++ B := by
        unfold spliceAt
        rw [List.take_append_of_le_length hsA, List.drop_append_of_le_length heA]
        rw [List.append_assoc, List.append_assoc, List.append_assoc]
      rw [applyDesc_cons, applyDesc_cons, hstep]
      refine ih (spliceAt A s e (render m)) B s hrest ?_
      unfold spliceAt
      rw [List.length_append, List.length_append, List.length_take_of_le hsA]
      omega

/-- The splice fold over a well-formed descending entry list produces
exactly the interleaving of untouched gap segments with the rendered
replacements. -/
theorem applyDesc_eq_expectedSplice (render : List (Path × Rewrite) → List Char)
    (entries : List PosEntry) :
    ∀ content : List Char, DescChain content.length entries →
    applyDesc render content entries = expectedSplice render content entries := by
  induction entries with
  | nil => intro content _; rfl
  | cons x rest ih =>
      intro content hchain
      obtain ⟨⟨s, e⟩, m⟩ := x
      obtain ⟨hse, heb, hrest⟩ := hchain
      have hsA : s ≤ content.length := Nat.le_trans hse heb
      have hsplice : spliceAt content s e (render m) =
          content.take s ++ (render m ++ content.drop e) := by
        unfold spliceAt
        rw [List.append_assoc]
      rw [applyDesc_cons, hsplice]
      rw [applyDesc_append render rest (content.take s) (render m ++ content.drop e) s hrest
        (by rw [List.length_take_of_le hsA])]
      rw [ih (content.take s) (by rw [List.length_take_of_le hsA]; exact hrest)]
      show _ = expectedSplice render (content.take s) rest ++ render m ++ content.drop e
      rw [List.append_assoc]

/-- Descending order, pairwise-disjointness and validity of the spans give a
well-formed chain. -/
theorem descChain_of_sorted_disjoint (l : List PosEntry) :
    ∀ bound : Nat,
    List.Pairwise (fun a b : PosEntry => b.1.1 ≤ a.1.1) l →
    List.Pairwise (fun a b : PosEntry => a.1.2 ≤ b.1.1 ∨ b.1.2 ≤ a.1.1) l →
    (∀ x ∈ l, x.1.1 < x.1.2 ∧ x.1.2 ≤ bound) → DescChain bound l := by
  induction l with
  | nil => intro bound _ _ _; trivial
  | cons x rest ih =>
      intro bound hsort hdisj hval
      rw [List.pairwise_cons] at hsort hdisj
      have hx := hval x (List.mem_cons_self x rest)
      refine ⟨Nat.le_of_lt hx.1, hx.2, ?_⟩
      refine ih x.1.1 hsort.2 hdisj.2 ?_
      intro y hy
      have hy' := hval y (List.mem_cons_of_mem x hy)
      refine ⟨hy'.1, ?_⟩
      rcases hdisj.1 y hy with h | h
      · exfalso
        have := hsort.1 y hy
        omega
      · exact h

/-- C8: `applyRewrites` (organize-imports disabled) processes the plan
entries in descending span-start order (`reverseRewritesByPos` is sorted
descending and is a permutation of the plan), and for pairwise
non-overlapping spans the output is exactly the original text with only the
spans replaced: every character outside the spans is kept, in order, in the
gap segments of `expectedSplice`; moreover a splice never changes the text
before its span start, so earlier edits do not shift the offsets of
not-yet-applied ones. -/
theorem applyRewrites_frame (render : List (Path × Rewrite) → List Char)
    (organize : List Char → List Char) (content : List Char) (rw : Rewrites)
    (hval : ∀ pm ∈ rw, pm.1.start < pm.1.stop ∧ pm.1.stop ≤ content.length)
    (hdisj : List.Pairwise
      (fun a b : Pos × List (Path × Rewrite) =>
        a.1.stop ≤ b.1.start ∨ b.1.stop ≤ a.1.start) rw) :
    applyRewrites render organize false content rw =
      expectedSplice render content (reverseRewritesByPos rw) ∧
    List.Pairwise (fun a b : PosEntry => b.1.1 ≤ a.1.1) (reverseRewritesByPos rw) ∧
    List.Perm (reverseRewritesByPos rw)
      (rw.map (fun pm => ((pm.1.start, pm.1.stop), pm.2))) ∧
    (∀ (c : List Char) (s e j : Nat) (r : List Char), j ≤ s → s ≤ c.length →
      (spliceAt c s e r).take j = c.take j) := by
  have hperm : List.Perm (reverseRewritesByPos rw)
      (rw.map (fun pm => ((pm.1.start, pm.1.stop), pm.2))) :=
    sortDescByStart_perm _
  have hsort := sortDescByStart_pairwise
    (rw.map (fun pm => ((pm.1.start, pm.1.stop), pm.2)))
  have hdisj0 : List.Pairwise (fun a b : PosEntry => a.1.2 ≤ b.1.1 ∨ b.1.2 ≤ a.1.1)
      (rw.map (fun pm => ((pm.1.start, pm.1.stop), pm.2))) := by
    rw [List.pairwise_map]
    exact hdisj
  have hdisj1 : List.Pairwise (fun a b : PosEntry => a.1.2 ≤ b.1.1 ∨ b.1.2 ≤ a.1.1)
      (reverseRewritesByPos rw) := by
    refine (List.Perm.pairwise_iff ?_ hperm).mpr hdisj0
    intro a b h
    exact h.symm
  have hval1 : ∀ x ∈ reverseRewritesByPos rw, x.1.1 < x.1.2 ∧ x.1.2 ≤ content.length := by
    intro x hx
    have hx' := hperm.mem_iff.mp hx
    rcases List.mem_map.mp hx' with ⟨pm, hpm, hmap⟩
    rw [← hmap]
    exact hval pm hpm
  have hchain : DescChain content.length (reverseRewritesByPos rw) :=
    descChain_of_sorted_disjoint (reverseRewritesByPos rw) content.length hsort hdisj1 hval1
  refine ⟨?_, hsort, hperm, fun c s e j r hj hs => spliceAt_take_prefix c s e j r hj hs⟩
  show applyDesc render content (reverseRewritesByPos rw) = _
  exact applyDesc_eq_expectedSplice render (reverseRewritesByPos rw) content hchain

/-- Witness for C8 at a concrete two-span plan over concrete text. -/
theorem applyRewrites_frame_witness :
    applyRewrites (fun _ => "XY".toList) (fun c => c) false "abcdefghij".toList
      [(Pos.mk 2 4, []), (Pos.mk 6 8, [])] =
      expectedSplice (fun _ => "XY".toList) "abcdefghij".toList
        (reverseRewritesByPos [(Pos.mk 2 4, []), (Pos.mk 6 8, [])]) :=
  (applyRewrites_frame (fun _ => "XY".toList) (fun c => c) "abcdefghij".toList
    [(Pos.mk 2 4, []), (Pos.mk 6 8, [])] (by decide) (by decide)).1

/-- Association lookup for arbitrary decidable keys (JS `Map.get`). -/
def getAssoc {κ β : Type} [DecidableEq κ] (m : List (κ × β)) (k : κ) : Option β :=
  match m with
  | [] => none
  | (k', v) :: rest => if k' = k then some v else getAssoc rest k

/-- JS `Map.set`: update in place when the key exists, append otherwise. -/
def setAssoc {κ β : Type} [DecidableEq κ] (m : List (κ × β)) (k : κ) (v : β) :
    List (κ × β) :=
  match m with
  | [] => [(k, v)]
  | (k', v') :: rest => if k' = k then (k, v) :: rest else (k', v') :: setAssoc rest k v

/-- `ExportData` from `types.ts`.  `rewriter.ts` additionally reads an
`aliases` map on export entries (`exportItem.aliases`); the analyzer only
ever populates `aliasedDefaults`, so on analyzer-produced data `aliases`
stays empty, but the rewriter consults it and the embedding keeps the
field. -/
structure ExportData where
  specifier : String
  pos : Pos
  exportedNames : List String
  reExportedNs : Option String := none
  externalSpecifier : Option String := none
  aliasedDefaults : List (String × String) := []
  exportedAsDefault : Option String := none
  aliases : List (String × String) := []
deriving DecidableEq, Repr

abbrev ExportMap := List (Path × ExportData)

/-- The five-way discriminant of an import item (`ImportData.type`).  The
source strings `"named" | "default" | "ns" | "as" | "export"` map to the
constructors below (`default`, `as` and `export` are reserved in Lean). -/
inductive ImportKind
  | named
  | defaultImport
  | ns
  | aliasedNamed
  | exportFrom
deriving DecidableEq, Repr

/-- `ImportData` from `types.ts` (`specifierPrefix`/`specifierSuffix` are
named `specPre`/`specSuf`). -/
structure ImportData where
  name : Option String := none
  names : List Name := []
  members : List Name := []
  pos : Pos
  kind : ImportKind
  originalSpecifier : Option String := none
  specPre : Option String := none
  specSuf : Option String := none
deriving DecidableEq, Repr

abbrev ImportMap := List (Path × List ImportData)

/-- `File` from `types.ts`: one analyzed file record; `text` stands for the
`sourceFile` text retained for splicing. -/
structure File where
  isBarrel : Bool
  imports : ImportMap := []
  exports : ExportMap := []
  dynamicImports : List Path := []
  text : List Char := []
deriving DecidableEq, Repr

/-- The run context fields the rewrite builder consults (`Context` in
`types.ts`). -/
structure Ctx where
  base : String
  only : List String := []
  preservedBarrels : List Path := []
  includedBarrels : List Path := []
  isPackageEntryPoint : Path → Bool := fun _ => false
  unsafeNamespace : Bool := false

/-- The classification view of a run context. -/
def Ctx.toClassifyCtx (ctx : Ctx) : ClassifyCtx :=
  { base := ctx.base, preservedBarrels := ctx.preservedBarrels,
    isPackageEntryPoint := ctx.isPackageEntryPoint }

/-- `isBarrel` from `main.ts`: analyzer verdict or explicit inclusion. -/
def isBarrelFile (ctx : Ctx) (filePath : Path) (analysis : File) : Bool :=
  analysis.isBarrel || ctx.includedBarrels.contains filePath

/-- The mutable state threaded through `buildRewrites`: the per-file plan
and dedup set, and the run-wide tracker (which owns the untraceable-import
list). -/
structure TraceSt where
  rewrites : Rewrites
  added : List (Pos × String × String)
  tracker : BarrelTracker
deriving DecidableEq, Repr

/-- Append an untraceable-import record. -/
def pushUntraceable (t : BarrelTracker) (u : UntraceableImport) : BarrelTracker :=
  { t with untraceableImports := t.untraceableImports ++ [u] }

/-- `buildRewriteItem` from `rewriter.ts`. -/
def buildRewriteItem (name : Name) (importItem : ImportData) (exportItem : ExportData) :
    Rewrite :=
  let isDefault := name.name == "default"
  { kind := if importItem.kind = ImportKind.exportFrom then RewriteKind.exportKind
      else RewriteKind.importKind,
    ns := if isDefault then none else importItem.name,
    named := if isDefault then [] else [name],
    members := if importItem.kind = ImportKind.ns && !isDefault
      then [{ name := name.name }] else [],
    externalSpecifier := exportItem.externalSpecifier,
    reExportedNs := exportItem.reExportedNs,
    defaultName := if isDefault then
        (match name.aliasName with
         | some a => some a
         | none => importItem.name)
      else none,
    originalSpecifier := importItem.originalSpecifier,
    specPre := importItem.specPre,
    specSuf := importItem.specSuf }

/-- `isNameExported` from `rewriter.ts`: the empty exported-name set stands
for an unenumerated external star re-export and accepts any name only for
external targets; otherwise the name must appear among the exported names,
the alias keys or values, the re-exported namespace, or the
exported-as-default name. -/
def isNameExported (name : Name) (exportItem : ExportData) : Bool :=
  if exportItem.exportedNames.isEmpty then exportItem.externalSpecifier.isSome
  else if exportItem.exportedNames.contains name.name then true
  else if (getAssoc exportItem.aliases name.name).isSome then true
  else if exportItem.reExportedNs == some name.name then true
  else if exportItem.exportedAsDefault == some name.name then true
  else (exportItem.aliases.map Prod.snd).contains name.name

/-- `addRewrite` from `rewriter.ts`: record one binding's rewrite under the
statement span and target, deduplicating on
`(position, name, alias ?? "")`, merging into an existing item for the same
target. -/
def addRewrite (name : Name) (importItem : ImportData) (exportItem : ExportData)
    (targetFilePath : Path) (st : TraceSt) : Bool × TraceSt :=
  if isNameExported name exportItem = false then (false, st)
  else
    let nameKey := (importItem.pos, name.name, name.aliasName.getD "")
    if st.added.contains nameKey then (false, st)
    else
      let posRewrites := (getAssoc st.rewrites importItem.pos).getD []
      let posRewrites' :=
        match getAssoc posRewrites targetFilePath with
        | none => setAssoc posRewrites targetFilePath (buildRewriteItem name importItem exportItem)
        | some existing =>
            let existing1 :=
              if importItem.kind = ImportKind.ns then
                { existing with members := existing.members ++ [{ name := name.name }] }
              else { existing with named := existing.named ++ [name] }
            let existing2 :=
              match exportItem.reExportedNs with
              | some nsName => { existing1 with reExportedNs := some nsName }
              | none => existing1
            setAssoc posRewrites targetFilePath existing2
      (true, { st with
        rewrites := setAssoc st.rewrites importItem.pos posRewrites',
        added := st.added ++ [nameKey] })

/-- The effective name the source computes before recursing into an
internal target: alias and exported-as-default indirections substitute the
underlying name and keep the display alias. -/
def effectiveNameFor (name : Name) (importItem : ImportData) (exportItem : ExportData) :
    Name :=
  match getAssoc exportItem.aliases name.name with
  | some al => { name := al, aliasName := some (name.aliasName.getD name.name) }
  | none =>
      if name.name == "default" then
        match exportItem.exportedAsDefault with
        | some expDefault =>
            { name := expDefault,
              aliasName :=
                match name.aliasName with
                | some a => some a
                | none => importItem.name }
        | none => name
      else name

/-- The verdict of `traceExport`'s loop body on one export entry: stop with
success, skip to the next entry, or descend into the target's export map
with the effective name (continuing with the next entry if the descent
fails). -/
inductive TraceStep
  | stop (st : TraceSt)
  | skip (st : TraceSt)
  | descend (effectiveName : Name) (target : Path) (st : TraceSt)
deriving DecidableEq, Repr

/-- The per-entry body of `traceExport` from `rewriter.ts`: non-absolute
and external entries that claim the name become rewrites to the entry's
specifier (stop on success); ignored paths are skipped; an internal
non-barrel target becomes a rewrite to that definer (descending into its
export map when the rewrite is refused); an internal barrel target is
registered (outside only-mode) and descended into. -/
def traceStep (A : Path → File) (ctx : Ctx) (name : Name) (importItem : ImportData)
    (targetFilePath : Path) (exportItem : ExportData) (st : TraceSt) : TraceStep :=
  if isAbsolutePath targetFilePath = false then
    if exportItem.exportedNames.isEmpty || exportItem.exportedNames.contains name.name then
      match addRewrite name importItem exportItem targetFilePath st with
      | (true, st') => TraceStep.stop st'
      | (false, st') => TraceStep.skip st'
    else TraceStep.skip st
  else
    match exportItem.externalSpecifier with
    | some extSpecifier =>
        if exportItem.exportedNames.isEmpty ||
            exportItem.exportedNames.contains name.name then
          match addRewrite name importItem exportItem extSpecifier st with
          | (true, st') => TraceStep.stop st'
          | (false, st') => TraceStep.skip st'
        else TraceStep.skip st
    | none =>
        if isIgnoredPath targetFilePath (some ctx.base) then TraceStep.skip st
        else
          let effectiveName := effectiveNameFor name importItem exportItem
          let targetFile := A targetFilePath
          if targetFile.isBarrel = false then
            match addRewrite effectiveName importItem exportItem targetFilePath st with
            | (true, st') => TraceStep.stop st'
            | (false, st') => TraceStep.descend effectiveName targetFilePath st'
          else
            let st' :=
              if ctx.only.isEmpty then
                { st with tracker := st.tracker.register0 targetFilePath }
              else st
            TraceStep.descend effectiveName targetFilePath st'

/-- `traceExport` from `rewriter.ts`: walk the export entries with
`traceStep`, recursing into a target's export map on a descend verdict.
The source recursion carries no cycle guard; the embedding makes the
work budget explicit as `fuel` (one unit per loop step or descent),
returning `none` when the budget is exhausted while the source would still
be running; any outcome the source reaches is the `some` outcome of every
sufficiently large budget. -/
def traceExport (A : Path → File) (ctx : Ctx) : Nat → Name → ImportData →
    ExportMap → TraceSt → Option (Bool × TraceSt)
  | 0, _, _, _, _ => none
  | Nat.succ f, name, importItem, exports, st =>
      match exports with
      | [] => some (false, st)
      | (targetFilePath, exportItem) :: rest =>
          match traceStep A ctx name importItem targetFilePath exportItem st with
          | TraceStep.stop st' => some (true, st')
          | TraceStep.skip st' => traceExport A ctx f name importItem rest st'
          | TraceStep.descend effName target st' =>
              match traceExport A ctx f effName importItem (A target).exports st' with
              | none => none
              | some (true, st'') => some (true, st'')
              | some (false, st'') => traceExport A ctx f name importItem rest st''

theorem traceExport_zero (A : Path → File) (ctx : Ctx) (name : Name)
    (importItem : ImportData) (exports : ExportMap) (st : TraceSt) :
    traceExport A ctx 0 name importItem exports st = none := rfl

theorem traceExport_succ_nil (A : Path → File) (ctx : Ctx) (f : Nat) (name : Name)
    (importItem : ImportData) (st : TraceSt) :
    traceExport A ctx (Nat.succ f) name importItem [] st = some (false, st) := rfl

theorem traceExport_succ_cons (A : Path → File) (ctx : Ctx) (f : Nat) (name : Name)
    (importItem : ImportData) (targetFilePath : Path) (exportItem : ExportData)
    (rest : ExportMap) (st : TraceSt) :
    traceExport A ctx (Nat.succ f) name importItem ((targetFilePath, exportItem) :: rest) st =
      match traceStep A ctx name importItem targetFilePath exportItem st with
      | TraceStep.stop st' => some (true, st')
      | TraceStep.skip st' => traceExport A ctx f name importItem rest st'
      | TraceStep.descend effName target st' =>
          match traceExport A ctx f effName importItem (A target).exports st' with
          | none => none
          | some (true, st'') => some (true, st'')
          | some (false, st'') => traceExport A ctx f name importItem rest st'' := rfl

/-- Create the (possibly empty) per-position map before a loop, as
`buildUnsafeNamespaceRewrites` and `buildStarReExportRewrites` do. -/
def ensurePos (rewrites : Rewrites) (pos : Pos) : Rewrites :=
  match getAssoc rewrites pos with
  | some _ => rewrites
  | none => setAssoc rewrites pos []

/-- The named-bindings loop of `buildRewrites`: trace each requested name,
recording an untraceable-import entry when the trace fails. -/
def traceNames (A : Path → File) (ctx : Ctx) (fuel : Nat) (item : ImportData)
    (importedFilePath filePath : Path) (exports : ExportMap) :
    List Name → TraceSt → Option TraceSt
  | [], st => some st
  | n :: rest, st =>
      match traceExport A ctx fuel n item exports st with
      | none => none
      | some (found, st') =>
          let u : UntraceableImport :=
            { barrelPath := importedFilePath, consumerPath := filePath, name := n.name }
          let st'' :=
            if found then st'
            else { st' with tracker := pushUntraceable st'.tracker u }
          traceNames A ctx fuel item importedFilePath filePath exports rest st''

/-- The member-bindings loop of `buildRewrites`: trace each member of a
namespace import; the result is discarded, so a failed member trace records
nothing. -/
def traceMembers (A : Path → File) (ctx : Ctx) (fuel : Nat) (item : ImportData)
    (exports : ExportMap) : List Name → TraceSt → Option TraceSt
  | [], st => some st
  | n :: rest, st =>
      match traceExport A ctx fuel n item exports st with
      | none => none
      | some (_, st') => traceMembers A ctx fuel item exports rest st'

/-- The default-import step of `buildRewrites`: trace the reserved name
`default`, recording an untraceable-import entry on failure. -/
def traceDefault (A : Path → File) (ctx : Ctx) (fuel : Nat) (item : ImportData)
    (importedFilePath filePath : Path) (exports : ExportMap) (st : TraceSt) :
    Option TraceSt :=
  if item.kind = ImportKind.defaultImport then
    match traceExport A ctx fuel { name := "default" } item exports st with
    | none => none
    | some (found, st') =>
        let u : UntraceableImport :=
          { barrelPath := importedFilePath, consumerPath := filePath, name := "default" }
        some (if found then st'
          else { st' with tracker := pushUntraceable st'.tracker u })
  else some st

/-- The single level of barrel-chain following performed by the namespace
branch of `buildRewrites`: when the sole local export target is itself a
barrel with exactly one local export entry, use that deeper path; otherwise
keep the target as is (even when it is still a barrel). -/
def followOne (A : Path → File) (targetPath : Path) : Path :=
  if (A targetPath).isBarrel then
    match (A targetPath).exports.filter (fun pe => isAbsolutePath pe.1) with
    | [(p, _)] => p
    | _ => targetPath
  else targetPath

/-- `buildUnsafeNamespaceRewrites` from `rewriter.ts`: for every local
export entry, collect its exported names (falling back to the names the
target re-exports when the entry enumerates none and the target is not a
barrel), and accumulate them under the statement span with the namespace
identifier recorded in `unsafeNsName`; barrel targets are registered. -/
def buildUnsafeNamespaceRewrites (A : Path → File) (ctx : Ctx) (item : ImportData)
    (exports : ExportMap) (st : TraceSt) : TraceSt :=
  let pos := item.pos
  let st0 := { st with rewrites := ensurePos st.rewrites pos }
  exports.foldl
    (fun st pe =>
      if isAbsolutePath pe.1 = false then st
      else if isIgnoredPath pe.1 (some ctx.base) then st
      else
        let targetFile := A pe.1
        let exportedNames :=
          if pe.2.exportedNames.isEmpty && targetFile.isBarrel = false then
            targetFile.exports.flatMap (fun te => te.2.exportedNames)
          else pe.2.exportedNames
        if exportedNames.isEmpty then st
        else
          let posRewrites := (getAssoc st.rewrites pos).getD []
          let posRewrites' :=
            match getAssoc posRewrites pe.1 with
            | none => setAssoc posRewrites pe.1
                { kind := RewriteKind.importKind,
                  named := exportedNames.map (fun n => { name := n }),
                  members := [],
                  unsafeNsName := item.name,
                  originalSpecifier := item.originalSpecifier,
                  specPre := item.specPre,
                  specSuf := item.specSuf }
            | some existing =>
                let named' := exportedNames.foldl
                  (fun acc n =>
                    if acc.any (fun m => m.name == n) then acc else acc ++ [{ name := n }])
                  existing.named
                setAssoc posRewrites pe.1
                  { existing with named := named', unsafeNsName := item.name }
          let st1 := { st with rewrites := setAssoc st.rewrites pos posRewrites' }
          if targetFile.isBarrel && ctx.only.isEmpty then
            { st1 with tracker := st1.tracker.register0 pe.1 }
          else st1)
    st0

/-- The namespace-import branch of `buildRewrites` (`item.type === "ns"`
with a bound name and no member accesses): with exactly one local export
entry, rewrite to a namespace import of the one-level-followed target; with
two or more local entries, do nothing unless unsafe-namespace mode is on. -/
def nsBranch (A : Path → File) (ctx : Ctx) (item : ImportData) (exports : ExportMap)
    (st : TraceSt) : TraceSt :=
  if item.kind = ImportKind.ns ∧ item.name.isSome ∧ item.members = [] then
    let localExports := exports.filter (fun pe => isAbsolutePath pe.1)
    match localExports with
    | [(targetPath, exportData)] =>
        let finalPath := followOne A targetPath
        if finalPath = "" then st
        else
          (addRewrite { name := item.name.getD "" } item
            { exportData with reExportedNs := item.name } finalPath st).2
    | _ =>
        if decide (localExports.length > 1) && ctx.unsafeNamespace then
          buildUnsafeNamespaceRewrites A ctx item exports st
        else st
  else st

/-- `traceStarExports` from `rewriter.ts`: expand barrel entries depth-first
under a visited set, and emit one star re-export per non-barrel definer.
The visited set guards cycles in the source; the embedding still carries
fuel for the nested descents, which the visited set bounds in practice. -/
def traceStarExports (A : Path → File) (ctx : Ctx) : Nat → ImportData →
    ExportMap → List (Path × Rewrite) → List Path → BarrelTracker →
    Option (List (Path × Rewrite) × List Path × BarrelTracker)
  | 0, _, _, _, _, _ => none
  | Nat.succ f, item, exports, posRewrites, visited, trk =>
      match exports with
      | [] => some (posRewrites, visited, trk)
      | (targetFilePath, _) :: rest =>
          if isAbsolutePath targetFilePath = false then
            traceStarExports A ctx f item rest posRewrites visited trk
          else if isIgnoredPath targetFilePath (some ctx.base) then
            traceStarExports A ctx f item rest posRewrites visited trk
          else if visited.contains targetFilePath then
            traceStarExports A ctx f item rest posRewrites visited trk
          else
            let visited' := visited ++ [targetFilePath]
            let targetFile := A targetFilePath
            if targetFile.isBarrel then
              let trk' := if ctx.only.isEmpty then trk.register0 targetFilePath else trk
              match traceStarExports A ctx f item targetFile.exports posRewrites
                  visited' trk' with
              | none => none
              | some (pr', v', trk'') =>
                  traceStarExports A ctx f item rest pr' v' trk''
            else
              let posRewrites' :=
                if (getAssoc posRewrites targetFilePath).isSome then posRewrites
                else setAssoc posRewrites targetFilePath
                  { kind := RewriteKind.exportKind,
                    named := [], members := [],
                    originalSpecifier := item.originalSpecifier,
                    specPre := item.specPre,
                    specSuf := item.specSuf }
              traceStarExports A ctx f item rest posRewrites' visited' trk

/-- The star re-export branch of `buildRewrites`
(`item.type === "export" && item.name === "*"`). -/
def starBranch (A : Path → File) (ctx : Ctx) (fuel : Nat) (item : ImportData)
    (exports : ExportMap) (st : TraceSt) : Option TraceSt :=
  if item.kind = ImportKind.exportFrom ∧ item.name = some "*" then
    let pos := item.pos
    let rewrites0 := ensurePos st.rewrites pos
    let posRewrites := (getAssoc rewrites0 pos).getD []
    match traceStarExports A ctx fuel item exports posRewrites [] st.tracker with
    | none => none
    | some (pr', _, trk') =>
        some { st with rewrites := setAssoc rewrites0 pos pr', tracker := trk' }
  else some st

/-- Processing of one import item inside `buildRewrites`: named bindings,
member bindings, default import, namespace branch, star re-export branch. -/
def processImportItem (A : Path → File) (ctx : Ctx) (fuel : Nat)
    (importedFilePath filePath : Path) (exports : ExportMap) (item : ImportData)
    (st : TraceSt) : Option TraceSt :=
  match traceNames A ctx fuel item importedFilePath filePath exports item.names st with
  | none => none
  | some st1 =>
      match traceMembers A ctx fuel item exports item.members st1 with
      | none => none
      | some st2 =>
          match traceDefault A ctx fuel item importedFilePath filePath exports st2 with
          | none => none
          | some st3 =>
              let st4 := nsBranch A ctx item exports st3
              starBranch A ctx fuel item exports st4

def processItems (A : Path → File) (ctx : Ctx) (fuel : Nat)
    (importedFilePath filePath : Path) (exports : ExportMap) :
    List ImportData → TraceSt → Option TraceSt
  | [], st => some st
  | item :: rest, st =>
      match processImportItem A ctx fuel importedFilePath filePath exports item st with
      | none => none
      | some st' => processItems A ctx fuel importedFilePath filePath exports rest st'

/-- Processing of one import-map entry inside `buildRewrites`: guards
(absolute, not ignored, not preserved or an entry point, and a tracked or
newly discovered barrel), then the item loop over the imported file's
export map. -/
def processImportEntry (A : Path → File) (ctx : Ctx) (fuel : Nat) (filePath : Path)
    (entry : Path × List ImportData) (st : TraceSt) : Option TraceSt :=
  let importedFilePath := entry.1
  if isAbsolutePath importedFilePath = false then some st
  else if isIgnoredPath importedFilePath (some ctx.base) then some st
  else if ctx.preservedBarrels.contains importedFilePath ||
      ctx.isPackageEntryPoint importedFilePath then some st
  else if ctx.only.isEmpty = false then
    if st.tracker.hasBarrel importedFilePath = false then some st
    else processItems A ctx fuel importedFilePath filePath (A importedFilePath).exports
      entry.2 st
  else
    if isBarrelFile ctx importedFilePath (A importedFilePath) = false then some st
    else
      let st' := { st with tracker := st.tracker.register0 importedFilePath }
      processItems A ctx fuel importedFilePath filePath (A importedFilePath).exports
        entry.2 st'

def processEntries (A : Path → File) (ctx : Ctx) (fuel : Nat) (filePath : Path) :
    List (Path × List ImportData) → TraceSt → Option TraceSt
  | [], st => some st
  | entry :: rest, st =>
      match processImportEntry A ctx fuel filePath entry st with
      | none => none
      | some st' => processEntries A ctx fuel filePath rest st'

/-- `buildRewrites` from `rewriter.ts`: a barrel that is neither skipped nor
a package entry point gets an empty plan immediately; otherwise every
entry of the import map is processed.  The run-scoped analysis cache makes
repeated analysis of a path return the identical record, so the analyzer is
passed as the pure function `A`. -/
def buildRewrites (A : Path → File) (ctx : Ctx) (fuel : Nat) (analysis : File)
    (filePath : Path) (trk : BarrelTracker) : Option (Rewrites × BarrelTracker) :=
  if analysis.isBarrel && !ctx.preservedBarrels.contains filePath &&
      !ctx.isPackageEntryPoint filePath then some ([], trk)
  else
    match processEntries A ctx fuel filePath analysis.imports
        { rewrites := [], added := [], tracker := trk } with
    | none => none
    | some st => some (st.rewrites, st.tracker)

/-- On an internal barrel entry with no alias or default indirection in
play, the loop body registers the barrel and descends with the unchanged
name. -/
theorem traceStep_barrel (A : Path → File) (ctx : Ctx) (name : Name)
    (item : ImportData) (t : Path) (e : ExportData) (st : TraceSt)
    (habs : isAbsolutePath t = true) (hext : e.externalSpecifier = none)
    (hign : isIgnoredPath t (some ctx.base) = false)
    (halias : getAssoc e.aliases name.name = none)
    (hnd : (name.name == "default") = false)
    (hbar : (A t).isBarrel = true) (honly : ctx.only = []) :
    traceStep A ctx name item t e st =
      TraceStep.descend name t { st with tracker := st.tracker.register0 t } := by
  unfold traceStep effectiveNameFor
  simp only [habs, hext, hign, halias, hnd, hbar, honly]
  simp

/-- One unfolding step of `traceExport` on a single-entry export map whose
target is an internal barrel and whose descent comes back empty-handed or
out of budget: the barrel is registered, the recursion descends into its
export map with one unit of fuel less, and the overall outcome is `none`
whenever the descent yields `none` (the single entry being the last). -/
theorem traceExport_barrel_step (A : Path → File) (ctx : Ctx) (f : Nat)
    (name : Name) (item : ImportData) (t : Path) (e : ExportData) (st : TraceSt)
    (habs : isAbsolutePath t = true) (hext : e.externalSpecifier = none)
    (hign : isIgnoredPath t (some ctx.base) = false)
    (halias : getAssoc e.aliases name.name = none)
    (hnd : (name.name == "default") = false)
    (hbar : (A t).isBarrel = true) (honly : ctx.only = [])
    (hin : traceExport A ctx f name item (A t).exports
      { st with tracker := st.tracker.register0 t } = none) :
    traceExport A ctx (Nat.succ f) name item [(t, e)] st = none := by
  rw [traceExport_succ_cons]
  rw [traceStep_barrel A ctx name item t e st habs hext hign halias hnd hbar honly]
  dsimp only
  rw [hin]

/-- The two-barrel cyclic graph: `a.ts` star re-exports `b.ts` and vice
versa; neither declares any name of its own, so both export entries carry
the empty name enumeration. -/
def cycExportA : ExportData :=
  { specifier := "./b.ts", pos := Pos.mk 0 24, exportedNames := [] }

def cycExportB : ExportData :=
  { specifier := "./a.ts", pos := Pos.mk 0 24, exportedNames := [] }

def cycFileA : File :=
  { isBarrel := true, exports := [("/p/b.ts", cycExportA)] }

def cycFileB : File :=
  { isBarrel := true, exports := [("/p/a.ts", cycExportB)] }

def cycEnv : Path → File := fun p =>
  if p = "/p/a.ts" then cycFileA
  else if p = "/p/b.ts" then cycFileB
  else { isBarrel := false }

def cycCtx : Ctx := { base := "/p" }

/-- The consumer's `import { x } from "./a.ts"` statement. -/
def cycItem : ImportData :=
  { pos := Pos.mk 0 30, kind := ImportKind.named, names := [{ name := "x" }],
    originalSpecifier := some "./a.ts" }

/-- C4: on the realizable cyclic module graph in which the barrels `a.ts`
and `b.ts` star re-export each other, tracing a name exported by neither
never terminates: for every recursion-depth budget, the embedded
`traceExport` still wants to descend further.  The source function carries
no visited set (unlike its sibling `traceStarExports`), so the claim that
`traceExport` terminates on every module graph fails on the code. -/
theorem traceExport_diverges_on_cycle :
    ∀ (fuel : Nat) (st : TraceSt),
      traceExport cycEnv cycCtx fuel { name := "x" } cycItem
        [("/p/b.ts", cycExportA)] st = none ∧
      traceExport cycEnv cycCtx fuel { name := "x" } cycItem
        [("/p/a.ts", cycExportB)] st = none := by
  intro fuel
  induction fuel with
  | zero =>
      intro st
      exact ⟨traceExport_zero _ _ _ _ _ _, traceExport_zero _ _ _ _ _ _⟩
  | succ f ih =>
      intro st
      constructor
      · refine traceExport_barrel_step cycEnv cycCtx f { name := "x" } cycItem
          "/p/b.ts" cycExportA st (by decide) (by decide) (by decide) (by decide)
          (by decide) (by decide) rfl ?_
        exact (ih _).2
      · refine traceExport_barrel_step cycEnv cycCtx f { name := "x" } cycItem
          "/p/a.ts" cycExportB st (by decide) (by decide) (by decide) (by decide)
          (by decide) (by decide) rfl ?_
        exact (ih _).1

/-- Modelled from the spec (claim wording, for comparison with the code):
follow the chain of single-local-entry barrels from a barrel and return the
sole definer file it resolves to, failing when a barrel on the chain has
any number of local entries other than one; a non-barrel target ends the
chain as the definer. -/
def chainSoleDefiner (A : Path → File) : Nat → Path → Option Path
  | 0, _ => none
  | Nat.succ f, p =>
      match (A p).exports.filter (fun pe => isAbsolutePath pe.1) with
      | [(q, _)] => if (A q).isBarrel then chainSoleDefiner A f q else some q
      | _ => none

/-- Barrel `a.ts` re-exports `x`, `y` from barrel `b.ts`; `b.ts` re-exports
`x` from definer `d1.ts` and `y` from definer `d2.ts`. -/
def nsFileA : File :=
  { isBarrel := true,
    exports :=
      [("/p/b.ts",
        { specifier := "./b.ts", pos := Pos.mk 0 30, exportedNames := ["x", "y"] })] }

def nsFileB : File :=
  { isBarrel := true,
    exports :=
      [("/p/d1.ts",
        { specifier := "./d1.ts", pos := Pos.mk 0 30, exportedNames := ["x"] }),
       ("/p/d2.ts",
        { specifier := "./d2.ts", pos := Pos.mk 31 62, exportedNames := ["y"] })] }

/-- The consumer's `import * as NS from "./a.ts"` statement. -/
def nsItem : ImportData :=
  { name := some "NS", pos := Pos.mk 0 33, kind := ImportKind.ns,
    originalSpecifier := some "./a.ts" }

def nsConsumer : File :=
  { isBarrel := false, imports := [("/p/a.ts", [nsItem])] }

def nsEnv : Path → File := fun p =>
  if p = "/p/a.ts" then nsFileA
  else if p = "/p/b.ts" then nsFileB
  else { isBarrel := false }

def nsCtx : Ctx := { base := "/p" }

/-- The rewrite the code produces for the namespace import in this
scenario. -/
def nsProducedRewrite : Rewrite :=
  { kind := RewriteKind.importKind, ns := some "NS",
    named := [{ name := "NS" }], members := [{ name := "NS" }],
    reExportedNs := some "NS", originalSpecifier := some "./a.ts" }

/-- C5 counterexample: the namespace import from `a.ts` is rewritten — to
`b.ts`, a barrel with two internal definers — although the chain of
single-definer barrels from `a.ts` resolves to no sole definer file; the
claim that such a statement is rewritten exactly when the chain yields one
definer, pointing at that definer, fails on the code, which follows the
chain one level only and rewrites regardless of what it lands on. -/
theorem ns_rewrite_multi_definer_counterexample :
    buildRewrites nsEnv nsCtx 5 nsConsumer "/p/c.ts" BarrelTracker.empty =
      some ([(Pos.mk 0 33, [("/p/b.ts", nsProducedRewrite)])],
        { barrels := [("/p/a.ts", BarrelState.empty)], untraceableImports := [] }) ∧
    nsProducedRewrite.reExportedNs = some "NS" ∧
    (nsEnv "/p/b.ts").isBarrel = true ∧
    ((nsEnv "/p/b.ts").exports.filter (fun pe => isAbsolutePath pe.1)).length = 2 ∧
    (∀ f : Nat, f ≤ 5 → chainSoleDefiner nsEnv f "/p/a.ts" = none) := by
  decide

/-- C5 (amended): a namespace import (`import * as X`, no member accesses)
from a barrel is rewritten exactly when the barrel has exactly one internal
export entry (and the rewrite is accepted): the target is that entry's
file, or, when that file is itself a barrel with exactly one internal
entry, that deeper file — one level of chain-following only, so the result
may itself still be a barrel rather than the ultimate definer; the
statement becomes a namespace import of the target (the rewrite carries
`reExportedNs = X`).  With no internal entries, or with two or more and
unsafe-namespace mode off, the statement is left untouched; with two or
more and the mode on, the unsafe object-literal synthesis runs instead. -/
theorem ns_branch_characterization (A : Path → File) (ctx : Ctx) (item : ImportData)
    (exports : ExportMap) (st : TraceSt) (nsName : String)
    (h1 : item.kind = ImportKind.ns) (h2 : item.name = some nsName)
    (h3 : item.members = []) :
    (exports.filter (fun pe => isAbsolutePath pe.1) = [] →
      nsBranch A ctx item exports st = st) ∧
    (∀ targetPath exportData,
      exports.filter (fun pe => isAbsolutePath pe.1) = [(targetPath, exportData)] →
      nsBranch A ctx item exports st =
        (if followOne A targetPath = "" then st
         else (addRewrite { name := nsName } item
            { exportData with reExportedNs := some nsName }
            (followOne A targetPath) st).2)) ∧
    ((exports.filter (fun pe => isAbsolutePath pe.1)).length ≥ 2 →
      ctx.unsafeNamespace = false → nsBranch A ctx item exports st = st) ∧
    ((exports.filter (fun pe => isAbsolutePath pe.1)).length ≥ 2 →
      ctx.unsafeNamespace = true →
      nsBranch A ctx item exports st = buildUnsafeNamespaceRewrites A ctx item exports st) := by
  have hcond : item.kind = ImportKind.ns ∧ item.name.isSome ∧ item.members = [] := by
    refine ⟨h1, ?_, h3⟩
    rw [h2]
    rfl
  refine ⟨?_, ?_, ?_, ?_⟩
  · intro hnil
    unfold nsBranch
    rw [if_pos hcond, hnil]
    simp
  · intro targetPath exportData hone
    unfold nsBranch
    rw [if_pos hcond, hone, h2]
    simp
  · intro hlen huns
    unfold nsBranch
    rw [if_pos hcond]
    cases hfil : exports.filter (fun pe => isAbsolutePath pe.1) with
    | nil =>
        rw [hfil] at hlen
        simp at hlen
    | cons hd tl =>
        cases tl with
        | nil =>
            rw [hfil] at hlen
            simp at hlen
        | cons hd2 tl2 =>
            simp [huns]
  · intro hlen huns
    unfold nsBranch
    rw [if_pos hcond]
    cases hfil : exports.filter (fun pe => isAbsolutePath pe.1) with
    | nil =>
        rw [hfil] at hlen
        simp at hlen
    | cons hd tl =>
        cases tl with
        | nil =>
            rw [hfil] at hlen
            simp at hlen
        | cons hd2 tl2 =>
            simp [huns]

/-- Witness for C5 (amended) at the two-definer barrel of the
counterexample scenario: with unsafe-namespace mode off, the namespace
statement targeting that barrel is left untouched. -/
theorem ns_branch_characterization_witness :
    nsBranch nsEnv nsCtx
      { name := some "NS", pos := Pos.mk 0 33, kind := ImportKind.ns }
      nsFileB.exports { rewrites := [], added := [], tracker := BarrelTracker.empty } =
      { rewrites := [], added := [], tracker := BarrelTracker.empty } :=
  (ns_branch_characterization nsEnv nsCtx
    { name := some "NS", pos := Pos.mk 0 33, kind := ImportKind.ns }
    nsFileB.exports { rewrites := [], added := [], tracker := BarrelTracker.empty }
    "NS" rfl rfl rfl).2.2.1 (by decide) rfl

/-- Barrel `bar.ts` re-exports `zap` from `src.ts`; the consumer holds
`import * as NS from "./bar.ts"` with a member access `NS.missing` recorded
as a member binding, where `missing` is exported nowhere. -/
def memFileBar : File :=
  { isBarrel := true,
    exports :=
      [("/p/src.ts",
        { specifier := "./src.ts", pos := Pos.mk 0 30, exportedNames := ["zap"] })] }

def memItem : ImportData :=
  { name := some "NS", pos := Pos.mk 0 33, kind := ImportKind.ns,
    members := [{ name := "missing" }], originalSpecifier := some "./bar.ts" }

def memConsumer : File :=
  { isBarrel := false, imports := [("/p/bar.ts", [memItem])] }

def memEnv : Path → File := fun p =>
  if p = "/p/bar.ts" then memFileBar else { isBarrel := false }

def memCtx : Ctx := { base := "/p" }

/-- C3 counterexample: the member binding `missing`, requested from the
tracked barrel `bar.ts` and matched by no export in its transitive closure,
ends up with neither a rewrite in the returned plan (the plan is empty) nor
an entry in `untraceableImports` (the list stays empty): member bindings of
namespace imports are silently dropped on trace failure, so the claim fails
on the code for them. -/
theorem member_binding_untraceable_not_recorded :
    buildRewrites memEnv memCtx 5 memConsumer "/p/c.ts" BarrelTracker.empty =
      some ([],
        { barrels := [("/p/bar.ts", BarrelState.empty)], untraceableImports := [] }) := by
  decide

/-- A nonempty rewrite entry is recorded in the plan at a statement span. -/
def PosRecorded (st : TraceSt) (pos : Pos) : Prop :=
  ∃ m, getAssoc st.rewrites pos = some m ∧ m ≠ []

/-- The state-growth relation of the rewrite builder: untraceable-import
records are never dropped, recorded statement spans never lose their
rewrites, and registered barrels stay registered. -/
def StExtends (st st' : TraceSt) : Prop :=
  (∀ u, u ∈ st.tracker.untraceableImports → u ∈ st'.tracker.untraceableImports) ∧
  (∀ pos, PosRecorded st pos → PosRecorded st' pos) ∧
  (∀ p, st.tracker.hasBarrel p = true → st'.tracker.hasBarrel p = true)

theorem stExtends_refl (st : TraceSt) : StExtends st st :=
  ⟨fun _ h => h, fun _ h => h, fun _ h => h⟩

theorem stExtends_trans {s1 s2 s3 : TraceSt} (h1 : StExtends s1 s2)
    (h2 : StExtends s2 s3) : StExtends s1 s3 :=
  ⟨fun u hu => h2.1 u (h1.1 u hu), fun p hp => h2.2.1 p (h1.2.1 p hp),
   fun p hp => h2.2.2 p (h1.2.2 p hp)⟩

theorem getAssoc_setAssoc_self {κ β : Type} [DecidableEq κ] (m : List (κ × β))
    (k : κ) (v : β) : getAssoc (setAssoc m k v) k = some v := by
  induction m with
  | nil => simp [setAssoc, getAssoc]
  | cons kv rest ih =>
      unfold setAssoc
      by_cases h : kv.1 = k
      · rw [if_pos h]
        simp [getAssoc]
      · rw [if_neg h]
        unfold getAssoc
        rw [if_neg h]
        exact ih

theorem getAssoc_setAssoc_ne {κ β : Type} [DecidableEq κ] (m : List (κ × β))
    (k k' : κ) (v : β) (h : k' ≠ k) :
    getAssoc (setAssoc m k v) k' = getAssoc m k' := by
  induction m with
  | nil =>
      unfold setAssoc getAssoc
      rw [if_neg (fun he => h he.symm)]
      rfl
  | cons kv rest ih =>
      unfold setAssoc
      by_cases hk : kv.1 = k
      · rw [if_pos hk]
        unfold getAssoc
        rw [if_neg (fun he => h he.symm), if_neg]
        rw [hk]
        exact fun he => h he.symm
      · rw [if_neg hk]
        unfold getAssoc
        by_cases hk' : kv.1 = k'
        · rw [if_pos hk', if_pos hk']
        · rw [if_neg hk', if_neg hk']
          exact ih

theorem setAssoc_ne_nil {κ β : Type} [DecidableEq κ] (m : List (κ × β)) (k : κ)
    (v : β) : setAssoc m k v ≠ [] := by
  cases m with
  | nil => simp [setAssoc]
  | cons kv rest =>
      unfold setAssoc
      split <;> simp

theorem getA_append_left {β : Type} (m1 m2 : List (Path × β)) (k : Path) (v : β)
    (h : getA m1 k = some v) : getA (m1 ++ m2) k = some v := by
  induction m1 with
  | nil => cases h
  | cons kv rest ih =>
      rw [List.cons_append]
      unfold getA at h ⊢
      by_cases hk : kv.1 = k
      · rw [if_pos hk] at h ⊢
        exact h
      · rw [if_neg hk] at h ⊢
        exact ih h

theorem register0_untraceable (t : BarrelTracker) (p : Path) :
    (t.register0 p).untraceableImports = t.untraceableImports := by
  unfold BarrelTracker.register0 BarrelTracker.register
  split <;> rfl

theorem register0_hasBarrel_mono (t : BarrelTracker) (p q : Path)
    (h : t.hasBarrel q = true) : (t.register0 p).hasBarrel q = true := by
  unfold BarrelTracker.register0 BarrelTracker.register
  split
  · exact h
  · unfold BarrelTracker.hasBarrel at h ⊢
    cases hv : getA t.barrels q with
    | none => rw [hv] at h; cases h
    | some v =>
        have := getA_append_left t.barrels [(p, BarrelState.empty)] q v hv
        simp only [this]
        rfl

theorem register0_extends (st : TraceSt) (p : Path) :
    StExtends st { st with tracker := st.tracker.register0 p } := by
  refine ⟨?_, ?_, ?_⟩
  · intro u hu
    rw [register0_untraceable]
    exact hu
  · intro pos hp
    exact hp
  · intro q hq
    exact register0_hasBarrel_mono st.tracker p q hq

theorem pushUntraceable_extends (st : TraceSt) (u : UntraceableImport) :
    StExtends st { st with tracker := pushUntraceable st.tracker u } := by
  refine ⟨?_, fun _ h => h, fun _ h => h⟩
  intro u' hu'
  unfold pushUntraceable
  exact List.mem_append_left _ hu'

theorem addRewrite_extends (name : Name) (item : ImportData) (e : ExportData)
    (target : Path) (st : TraceSt) :
    StExtends st (addRewrite name item e target st).2 := by
  unfold addRewrite
  by_cases h1 : isNameExported name e = false
  · rw [if_pos h1]
    exact stExtends_refl st
  · rw [if_neg h1]
    dsimp only
    by_cases h2 : st.added.contains (item.pos, name.name, name.aliasName.getD "")
    · rw [if_pos h2]
      exact stExtends_refl st
    · rw [if_neg h2]
      dsimp only
      refine ⟨fun u h => h, ?_, fun p h => h⟩
      intro pos hp
      rcases hp with ⟨m, hm, hne⟩
      by_cases hpos : pos = item.pos
      · subst hpos
        refine ⟨_, getAssoc_setAssoc_self _ _ _, ?_⟩
        cases getAssoc ((getAssoc st.rewrites item.pos).getD []) target with
        | none => exact setAssoc_ne_nil _ _ _
        | some ex => exact setAssoc_ne_nil _ _ _
      · refine ⟨m, ?_, hne⟩
        rw [getAssoc_setAssoc_ne _ _ _ _ hpos]
        exact hm

theorem addRewrite_true_recorded (name : Name) (item : ImportData) (e : ExportData)
    (target : Path) (st : TraceSt)
    (h : (addRewrite name item e target st).1 = true) :
    PosRecorded (addRewrite name item e target st).2 item.pos := by
  unfold addRewrite at h ⊢
  by_cases h1 : isNameExported name e = false
  · rw [if_pos h1] at h
    cases h
  · rw [if_neg h1] at h ⊢
    dsimp only at h ⊢
    by_cases h2 : st.added.contains (item.pos, name.name, name.aliasName.getD "")
    · rw [if_pos h2] at h
      cases h
    · rw [if_neg h2] at h ⊢
      dsimp only at h ⊢
      refine ⟨_, getAssoc_setAssoc_self _ _ _, ?_⟩
      cases getAssoc ((getAssoc st.rewrites item.pos).getD []) target with
      | none => exact setAssoc_ne_nil _ _ _
      | some ex => exact setAssoc_ne_nil _ _ _

theorem addRewrite_pair_extends {nm : Name} {item : ImportData} {e : ExportData}
    {tgt : Path} {st st₁ : TraceSt}
    (heq : addRewrite nm item e tgt st = (true, st₁)) :
    StExtends st st₁ ∧ PosRecorded st₁ item.pos := by
  have h1 := addRewrite_extends nm item e tgt st
  have h2 := addRewrite_true_recorded nm item e tgt st (by rw [heq])
  rw [heq] at h1 h2
  exact ⟨h1, h2⟩

theorem addRewrite_pair_extends0 {nm : Name} {item : ImportData} {e : ExportData}
    {tgt : Path} {st : TraceSt} {b : Bool} {st₁ : TraceSt}
    (heq : addRewrite nm item e tgt st = (b, st₁)) : StExtends st st₁ := by
  have h1 := addRewrite_extends nm item e tgt st
  rw [heq] at h1
  exact h1

theorem traceStep_stop_extends (A : Path → File) (ctx : Ctx) (name : Name)
    (item : ImportData) (t : Path) (e : ExportData) (st st' : TraceSt)
    (h : traceStep A ctx name item t e st = TraceStep.stop st') :
    StExtends st st' ∧ PosRecorded st' item.pos := by
  unfold traceStep at h
  dsimp only at h
  split at h
  · split at h
    · split at h
      · next heq =>
          cases h
          exact addRewrite_pair_extends heq
      · next heq => cases h
    · cases h
  · split at h
    · split at h
      · split at h
        · next heq =>
            cases h
            exact addRewrite_pair_extends heq
        · next heq => cases h
      · cases h
    · split at h
      · cases h
      · split at h
        · split at h
          · next heq =>
              cases h
              exact addRewrite_pair_extends heq
          · next heq => cases h
        · cases h

theorem traceStep_skip_extends (A : Path → File) (ctx : Ctx) (name : Name)
    (item : ImportData) (t : Path) (e : ExportData) (st st' : TraceSt)
    (h : traceStep A ctx name item t e st = TraceStep.skip st') :
    StExtends st st' := by
  unfold traceStep at h
  dsimp only at h
  split at h
  · split at h
    · split at h
      · next heq => cases h
      · next heq =>
          cases h
          exact addRewrite_pair_extends0 heq
    · cases h
      exact stExtends_refl st
  · split at h
    · split at h
      · split at h
        · next heq => cases h
        · next heq =>
            cases h
            exact addRewrite_pair_extends0 heq
      · cases h
        exact stExtends_refl st
    · split at h
      · cases h
        exact stExtends_refl st
      · split at h
        · split at h
          · next heq => cases h
          · next heq => cases h
        · cases h

theorem traceStep_descend_extends (A : Path → File) (ctx : Ctx) (name : Name)
    (item : ImportData) (t : Path) (e : ExportData) (st : TraceSt) (eff : Name)
    (tg : Path) (st' : TraceSt)
    (h : traceStep A ctx name item t e st = TraceStep.descend eff tg st') :
    StExtends st st' := by
  unfold traceStep at h
  dsimp only at h
  split at h
  · split at h
    · split at h
      · next heq => cases h
      · next heq => cases h
    · cases h
  · split at h
    · split at h
      · split at h
        · next heq => cases h
        · next heq => cases h
      · cases h
    · split at h
      · cases h
      · split at h
        · split at h
          · next heq => cases h
          · next heq =>
              cases h
              exact addRewrite_pair_extends0 heq
        · cases h
          split
          · exact register0_extends st t
          · exact stExtends_refl st

theorem traceExport_extends (A : Path → File) (ctx : Ctx) (item : ImportData) :
    ∀ fuel name exports st b st',
      traceExport A ctx fuel name item exports st = some (b, st') →
      StExtends st st' := by
  intro fuel
  induction fuel with
  | zero =>
      intro name exports st b st' h
      rw [traceExport_zero] at h
      cases h
  | succ f ih =>
      intro name exports st b st' h
      cases exports with
      | nil =>
          rw [traceExport_succ_nil] at h
          injection h with h2
          injection h2 with hb hs
          subst hs
          exact stExtends_refl st
      | cons pe rest =>
          obtain ⟨t, e⟩ := pe
          rw [traceExport_succ_cons] at h
          cases hstep : traceStep A ctx name item t e st with
          | stop st₁ =>
              rw [hstep] at h
              dsimp only at h
              injection h with h2
              injection h2 with hb hs
              subst hs
              exact (traceStep_stop_extends A ctx name item t e st st₁ hstep).1
          | skip st₁ =>
              rw [hstep] at h
              dsimp only at h
              exact stExtends_trans
                (traceStep_skip_extends A ctx name item t e st st₁ hstep)
                (ih name rest st₁ b st' h)
          | descend eff tg st₁ =>
              rw [hstep] at h
              dsimp only at h
              cases hin : traceExport A ctx f eff item (A tg).exports st₁ with
              | none =>
                  rw [hin] at h
                  cases h
              | some p =>
                  obtain ⟨bi, st₂⟩ := p
                  rw [hin] at h
                  cases bi
                  · dsimp only at h
                    exact stExtends_trans
                      (traceStep_descend_extends A ctx name item t e st eff tg st₁ hstep)
                      (stExtends_trans (ih eff ((A tg).exports) st₁ false st₂ hin)
                        (ih name rest st₂ b st' h))
                  · dsimp only at h
                    injection h with h2
                    injection h2 with hb hs
                    subst hs
                    exact stExtends_trans
                      (traceStep_descend_extends A ctx name item t e st eff tg st₁ hstep)
                      (ih eff ((A tg).exports) st₁ true st₂ hin)

theorem traceExport_true_recorded (A : Path → File) (ctx : Ctx) (item : ImportData) :
    ∀ fuel name exports st st',
      traceExport A ctx fuel name item exports st = some (true, st') →
      PosRecorded st' item.pos := by
  intro fuel
  induction fuel with
  | zero =>
      intro name exports st st' h
      rw [traceExport_zero] at h
      cases h
  | succ f ih =>
      intro name exports st st' h
      cases exports with
      | nil =>
          rw [traceExport_succ_nil] at h
          injection h with h2
          injection h2 with hb hs
          cases hb
      | cons pe rest =>
          obtain ⟨t, e⟩ := pe
          rw [traceExport_succ_cons] at h
          cases hstep : traceStep A ctx name item t e st with
          | stop st₁ =>
              rw [hstep] at h
              dsimp only at h
              injection h with h2
              injection h2 with hb hs
              subst hs
              exact (traceStep_stop_extends A ctx name item t e st st₁ hstep).2
          | skip st₁ =>
              rw [hstep] at h
              dsimp only at h
              exact ih name rest st₁ st' h
          | descend eff tg st₁ =>
              rw [hstep] at h
              dsimp only at h
              cases hin : traceExport A ctx f eff item (A tg).exports st₁ with
              | none =>
                  rw [hin] at h
                  cases h
              | some p =>
                  obtain ⟨bi, st₂⟩ := p
                  rw [hin] at h
                  cases bi
                  · dsimp only at h
                    exact ih name rest st₂ st' h
                  · dsimp only at h
                    injection h with h2
                    injection h2 with hb hs
                    subst hs
                    exact ih eff ((A tg).exports) st₁ st₂ hin

/-- What one run of the named-bindings loop guarantees: the state only
grows, and every requested name ends up either with a recorded rewrite at
the statement span or as an untraceable-import record. -/
theorem traceNames_spec (A : Path → File) (ctx : Ctx) (fuel : Nat)
    (item : ImportData) (ip fp : Path) (exports : ExportMap) :
    ∀ names st st',
      traceNames A ctx fuel item ip fp exports names st = some st' →
      StExtends st st' ∧
      ∀ n ∈ names, PosRecorded st' item.pos ∨
        ({ barrelPath := ip, consumerPath := fp, name := n.name } :
          UntraceableImport) ∈ st'.tracker.untraceableImports := by
  intro names
  induction names with
  | nil =>
      intro st st' h
      unfold traceNames at h
      injection h with h2
      subst h2
      exact ⟨stExtends_refl st, fun n hn => absurd hn (List.not_mem_nil n)⟩
  | cons n rest ih =>
      intro st st' h
      unfold traceNames at h
      cases hte : traceExport A ctx fuel n item exports st with
      | none =>
          rw [hte] at h
          cases h
      | some p =>
          obtain ⟨found, st₁⟩ := p
          rw [hte] at h
          dsimp only at h
          cases found
          · rw [if_neg (by decide)] at h
            obtain ⟨hext, hrest⟩ := ih _ st' h
            have hstep := stExtends_trans
              (traceExport_extends A ctx item fuel n exports st false st₁ hte)
              (pushUntraceable_extends st₁
                { barrelPath := ip, consumerPath := fp, name := n.name })
            refine ⟨stExtends_trans hstep hext, ?_⟩
            intro n' hn'
            rcases List.mem_cons.mp hn' with rfl | hn''
            · refine Or.inr (hext.1 _ ?_)
              simp [pushUntraceable]
            · exact hrest n' hn''
          · rw [if_pos (by decide)] at h
            obtain ⟨hext, hrest⟩ := ih _ st' h
            refine ⟨stExtends_trans
              (traceExport_extends A ctx item fuel n exports st true st₁ hte) hext, ?_⟩
            intro n' hn'
            rcases List.mem_cons.mp hn' with rfl | hn''
            · exact Or.inl (hext.2.1 _
                (traceExport_true_recorded A ctx item fuel n' exports st st₁ hte))
            · exact hrest n' hn''

theorem traceMembers_extends (A : Path → File) (ctx : Ctx) (fuel : Nat)
    (item : ImportData) (exports : ExportMap) :
    ∀ ms st st', traceMembers A ctx fuel item exports ms st = some st' →
      StExtends st st' := by
  intro ms
  induction ms with
  | nil =>
      intro st st' h
      unfold traceMembers at h
      injection h with h2
      subst h2
      exact stExtends_refl st
  | cons n rest ih =>
      intro st st' h
      unfold traceMembers at h
      cases hte : traceExport A ctx fuel n item exports st with
      | none =>
          rw [hte] at h
          cases h
      | some p =>
          obtain ⟨found, st₁⟩ := p
          rw [hte] at h
          dsimp only at h
          exact stExtends_trans
            (traceExport_extends A ctx item fuel n exports st found st₁ hte)
            (ih st₁ st' h)

/-- What the default-import step guarantees: the state only grows, and when
the item is a default import the binding `default` is recorded or reported
untraceable. -/
theorem traceDefault_spec (A : Path → File) (ctx : Ctx) (fuel : Nat)
    (item : ImportData) (ip fp : Path) (exports : ExportMap) (st st' : TraceSt)
    (h : traceDefault A ctx fuel item ip fp exports st = some st') :
    StExtends st st' ∧
    (item.kind = ImportKind.defaultImport →
      PosRecorded st' item.pos ∨
      ({ barrelPath := ip, consumerPath := fp, name := "default" } :
        UntraceableImport) ∈ st'.tracker.untraceableImports) := by
  unfold traceDefault at h
  by_cases hk : item.kind = ImportKind.defaultImport
  · rw [if_pos hk] at h
    cases hte : traceExport A ctx fuel { name := "default" } item exports st with
    | none =>
        rw [hte] at h
        cases h
    | some p =>
        obtain ⟨found, st₁⟩ := p
        rw [hte] at h
        dsimp only at h
        injection h with h2
        cases found
        · rw [if_neg (by decide)] at h2
          subst h2
          refine ⟨stExtends_trans
            (traceExport_extends A ctx item fuel _ exports st false st₁ hte)
            (pushUntraceable_extends st₁ _), fun _ => Or.inr ?_⟩
          simp [pushUntraceable]
        · rw [if_pos (by decide)] at h2
          subst h2
          refine ⟨traceExport_extends A ctx item fuel _ exports st true st₁ hte,
            fun _ => Or.inl ?_⟩
          exact traceExport_true_recorded A ctx item fuel _ exports st st₁ hte
  · rw [if_neg hk] at h
    injection h with h2
    subst h2
    exact ⟨stExtends_refl st, fun hkk => absurd hkk hk⟩

theorem ensurePos_recorded (r : Rewrites) (pos p' : Pos) (m : List (Path × Rewrite))
    (hm : getAssoc r p' = some m) : getAssoc (ensurePos r pos) p' = some m := by
  unfold ensurePos
  cases hg : getAssoc r pos with
  | some v => exact hm
  | none =>
      by_cases hp : p' = pos
      · subst hp
        rw [hm] at hg
        cases hg
      · rw [getAssoc_setAssoc_ne _ _ _ _ hp]
        exact hm

theorem ensurePos_of_some (r : Rewrites) (pos : Pos) (v : List (Path × Rewrite))
    (h : getAssoc r pos = some v) : ensurePos r pos = r := by
  unfold ensurePos
  rw [h]

theorem ensurePos_extends (st : TraceSt) (pos : Pos) :
    StExtends st { st with rewrites := ensurePos st.rewrites pos } := by
  refine ⟨fun u h => h, ?_, fun p h => h⟩
  rintro p' ⟨m, hm, hne⟩
  exact ⟨m, ensurePos_recorded _ _ _ _ hm, hne⟩

theorem setRewrites_extends (s : TraceSt) (pos : Pos) (m : List (Path × Rewrite))
    (hm : m ≠ []) :
    StExtends s { s with rewrites := setAssoc s.rewrites pos m } := by
  refine ⟨fun u h => h, ?_, fun p h => h⟩
  rintro p' ⟨m', hm', hne⟩
  by_cases hp : p' = pos
  · subst hp
    exact ⟨m, getAssoc_setAssoc_self _ _ _, hm⟩
  · refine ⟨m', ?_, hne⟩
    rw [getAssoc_setAssoc_ne _ _ _ _ hp]
    exact hm'

theorem foldl_stExtends {α : Type} (f : TraceSt → α → TraceSt)
    (hf : ∀ st x, StExtends st (f st x)) :
    ∀ (l : List α) (st : TraceSt), StExtends st (l.foldl f st) := by
  intro l
  induction l with
  | nil =>
      intro st
      exact stExtends_refl st
  | cons x rest ih =>
      intro st
      exact stExtends_trans (hf st x) (ih (f st x))

theorem setRewrites_register0_extends (s : TraceSt) (pos : Pos)
    (m : List (Path × Rewrite)) (p : Path) (hm : m ≠ []) :
    StExtends s
      { rewrites := setAssoc s.rewrites pos m, added := s.added,
        tracker := s.tracker.register0 p } := by
  refine stExtends_trans (setRewrites_extends s pos m hm) ?_
  exact register0_extends { s with rewrites := setAssoc s.rewrites pos m } p

theorem buildUnsafeNamespaceRewrites_extends (A : Path → File) (ctx : Ctx)
    (item : ImportData) (exports : ExportMap) (st : TraceSt) :
    StExtends st (buildUnsafeNamespaceRewrites A ctx item exports st) := by
  unfold buildUnsafeNamespaceRewrites
  dsimp only
  refine stExtends_trans (ensurePos_extends st item.pos) (foldl_stExtends _ ?_ exports _)
  intro s pe
  dsimp only
  split
  · exact stExtends_refl s
  · split
    · exact stExtends_refl s
    · split
      · split
        · exact stExtends_refl s
        · split
          · refine setRewrites_register0_extends s item.pos _ pe.1 ?_
            cases getAssoc ((getAssoc s.rewrites item.pos).getD []) pe.1 with
            | none => exact setAssoc_ne_nil _ _ _
            | some ex => exact setAssoc_ne_nil _ _ _
          · refine setRewrites_extends s item.pos _ ?_
            cases getAssoc ((getAssoc s.rewrites item.pos).getD []) pe.1 with
            | none => exact setAssoc_ne_nil _ _ _
            | some ex => exact setAssoc_ne_nil _ _ _
      · split
        · exact stExtends_refl s
        · split
          · refine setRewrites_register0_extends s item.pos _ pe.1 ?_
            cases getAssoc ((getAssoc s.rewrites item.pos).getD []) pe.1 with
            | none => exact setAssoc_ne_nil _ _ _
            | some ex => exact setAssoc_ne_nil _ _ _
          · refine setRewrites_extends s item.pos _ ?_
            cases getAssoc ((getAssoc s.rewrites item.pos).getD []) pe.1 with
            | none => exact setAssoc_ne_nil _ _ _
            | some ex => exact setAssoc_ne_nil _ _ _

theorem nsBranch_extends (A : Path → File) (ctx : Ctx) (item : ImportData)
    (exports : ExportMap) (st : TraceSt) :
    StExtends st (nsBranch A ctx item exports st) := by
  unfold nsBranch
  split
  · dsimp only
    split
    · split
      · exact stExtends_refl st
      · exact addRewrite_extends _ item _ _ st
    · split
      · exact buildUnsafeNamespaceRewrites_extends A ctx item exports st
      · exact stExtends_refl st
  · exact stExtends_refl st

/-- `traceStarExports` never touches the untraceable-import list, only adds
barrels, and keeps a nonempty per-span rewrite accumulator nonempty. -/
theorem traceStarExports_tracker (A : Path → File) (ctx : Ctx) (item : ImportData) :
    ∀ fuel exports pr v trk pr' v' trk',
      traceStarExports A ctx fuel item exports pr v trk = some (pr', v', trk') →
      trk'.untraceableImports = trk.untraceableImports ∧
      (∀ p, trk.hasBarrel p = true → trk'.hasBarrel p = true) ∧
      (pr ≠ [] → pr' ≠ []) := by
  intro fuel
  induction fuel with
  | zero =>
      intro exports pr v trk pr' v' trk' h
      cases h
  | succ f ih =>
      intro exports pr v trk pr' v' trk' h
      cases exports with
      | nil =>
          unfold traceStarExports at h
          injection h with h2
          injection h2 with hpr h3
          injection h3 with hv htrk
          subst hpr
          subst htrk
          exact ⟨rfl, fun p hp => hp, fun hne => hne⟩
      | cons pe rest =>
          obtain ⟨t, e⟩ := pe
          unfold traceStarExports at h
          dsimp only at h
          split at h
          · exact ih rest pr v trk pr' v' trk' h
          · split at h
            · exact ih rest pr v trk pr' v' trk' h
            · split at h
              · exact ih rest pr v trk pr' v' trk' h
              · split at h
                · cases hin : traceStarExports A ctx f item (A t).exports pr
                      (v ++ [t]) (if ctx.only.isEmpty = true then trk.register0 t else trk) with
                  | none =>
                      rw [hin] at h
                      cases h
                  | some q =>
                      obtain ⟨pr1, v1, trk1⟩ := q
                      rw [hin] at h
                      dsimp only at h
                      obtain ⟨hu1, hb1, hp1⟩ := ih _ _ _ _ _ _ _ hin
                      obtain ⟨hu2, hb2, hp2⟩ := ih _ _ _ _ _ _ _ h
                      refine ⟨?_, ?_, fun hne => hp2 (hp1 hne)⟩
                      · rw [hu2, hu1]
                        split
                        · rw [register0_untraceable]
                        · rfl
                      · intro p hp
                        refine hb2 p (hb1 p ?_)
                        split
                        · exact register0_hasBarrel_mono trk t p hp
                        · exact hp
                · obtain ⟨hu, hb, hp⟩ := ih _ _ _ _ _ _ _ h
                  refine ⟨hu, hb, fun hne => hp ?_⟩
                  split
                  · exact hne
                  · exact setAssoc_ne_nil _ _ _

theorem starBranch_spec (A : Path → File) (ctx : Ctx) (fuel : Nat)
    (item : ImportData) (exports : ExportMap) (st st' : TraceSt)
    (h : starBranch A ctx fuel item exports st = some st') :
    StExtends st st' := by
  unfold starBranch at h
  split at h
  · dsimp only at h
    cases hts : traceStarExports A ctx fuel item exports
        ((getAssoc (ensurePos st.rewrites item.pos) item.pos).getD []) [] st.tracker with
    | none =>
        rw [hts] at h
        cases h
    | some q =>
        obtain ⟨pr', v', trk'⟩ := q
        rw [hts] at h
        dsimp only at h
        injection h with h2
        subst h2
        obtain ⟨hunt, hbar, hpr⟩ :=
          traceStarExports_tracker A ctx item fuel exports _ [] st.tracker pr' v' trk' hts
        refine ⟨?_, ?_, ?_⟩
        · intro u hu
          show u ∈ trk'.untraceableImports
          rw [hunt]
          exact hu
        · rintro p' ⟨m, hm, hne⟩
          by_cases hp : p' = item.pos
          · subst hp
            refine ⟨pr', getAssoc_setAssoc_self _ _ _, hpr ?_⟩
            rw [ensurePos_of_some _ _ _ hm, hm]
            exact hne
          · refine ⟨m, ?_, hne⟩
            show getAssoc (setAssoc (ensurePos st.rewrites item.pos) item.pos pr') p' = some m
            rw [getAssoc_setAssoc_ne _ _ _ _ hp]
            exact ensurePos_recorded _ _ _ _ hm
        · intro p hp
          exact hbar p hp
  · injection h with h2
    subst h2
    exact stExtends_refl st

/-- Every named binding of the item, as well as its default binding when it
is a default import, is accounted for: a nonempty rewrite entry is recorded
at the item's statement span, or an untraceable-import record names the
binding. -/
def ItemAccounted (ip fp : Path) (item : ImportData) (st : TraceSt) : Prop :=
  (∀ n ∈ item.names, PosRecorded st item.pos ∨
    ({ barrelPath := ip, consumerPath := fp, name := n.name } :
      UntraceableImport) ∈ st.tracker.untraceableImports) ∧
  (item.kind = ImportKind.defaultImport →
    PosRecorded st item.pos ∨
    ({ barrelPath := ip, consumerPath := fp, name := "default" } :
      UntraceableImport) ∈ st.tracker.untraceableImports)

theorem itemAccounted_mono {ip fp : Path} {item : ImportData} {st st' : TraceSt}
    (hext : StExtends st st') (h : ItemAccounted ip fp item st) :
    ItemAccounted ip fp item st' := by
  refine ⟨fun n hn => ?_, fun hk => ?_⟩
  · rcases h.1 n hn with hrec | hmem
    · exact Or.inl (hext.2.1 _ hrec)
    · exact Or.inr (hext.1 _ hmem)
  · rcases h.2 hk with hrec | hmem
    · exact Or.inl (hext.2.1 _ hrec)
    · exact Or.inr (hext.1 _ hmem)

theorem processImportItem_spec (A : Path → File) (ctx : Ctx) (fuel : Nat)
    (ip fp : Path) (exports : ExportMap) (item : ImportData) (st st' : TraceSt)
    (h : processImportItem A ctx fuel ip fp exports item st = some st') :
    StExtends st st' ∧ ItemAccounted ip fp item st' := by
  unfold processImportItem at h
  cases h1 : traceNames A ctx fuel item ip fp exports item.names st with
  | none =>
      rw [h1] at h
      cases h
  | some st1 =>
      rw [h1] at h
      dsimp only at h
      cases h2 : traceMembers A ctx fuel item exports item.members st1 with
      | none =>
          rw [h2] at h
          cases h
      | some st2 =>
          rw [h2] at h
          dsimp only at h
          cases h3 : traceDefault A ctx fuel item ip fp exports st2 with
          | none =>
              rw [h3] at h
              cases h
          | some st3 =>
              rw [h3] at h
              dsimp only at h
              obtain ⟨e1, hnames⟩ := traceNames_spec A ctx fuel item ip fp exports
                item.names st st1 h1
              have e2 := traceMembers_extends A ctx fuel item exports
                item.members st1 st2 h2
              obtain ⟨e3, hdef⟩ := traceDefault_spec A ctx fuel item ip fp exports
                st2 st3 h3
              have e4 := nsBranch_extends A ctx item exports st3
              have e5 := starBranch_spec A ctx fuel item exports
                (nsBranch A ctx item exports st3) st' h
              have e45 := stExtends_trans e4 e5
              have e15 := stExtends_trans e1
                (stExtends_trans e2 (stExtends_trans e3 e45))
              refine ⟨e15, ?_, ?_⟩
              · intro n hn
                rcases hnames n hn with hrec | hmem
                · exact Or.inl ((stExtends_trans e2 (stExtends_trans e3 e45)).2.1 _ hrec)
                · exact Or.inr ((stExtends_trans e2 (stExtends_trans e3 e45)).1 _ hmem)
              · intro hk
                rcases hdef hk with hrec | hmem
                · exact Or.inl (e45.2.1 _ hrec)
                · exact Or.inr (e45.1 _ hmem)

theorem processItems_spec (A : Path → File) (ctx : Ctx) (fuel : Nat)
    (ip fp : Path) (exports : ExportMap) :
    ∀ items st st',
      processItems A ctx fuel ip fp exports items st = some st' →
      StExtends st st' ∧ ∀ item ∈ items, ItemAccounted ip fp item st' := by
  intro items
  induction items with
  | nil =>
      intro st st' h
      unfold processItems at h
      injection h with h2
      subst h2
      exact ⟨stExtends_refl st, fun item hit => absurd hit (List.not_mem_nil item)⟩
  | cons item rest ih =>
      intro st st' h
      unfold processItems at h
      cases h1 : processImportItem A ctx fuel ip fp exports item st with
      | none =>
          rw [h1] at h
          cases h
      | some st1 =>
          rw [h1] at h
          dsimp only at h
          obtain ⟨e1, hacc⟩ := processImportItem_spec A ctx fuel ip fp exports
            item st st1 h1
          obtain ⟨e2, hrest⟩ := ih st1 st' h
          refine ⟨stExtends_trans e1 e2, ?_⟩
          intro it hit
          rcases List.mem_cons.mp hit with rfl | hit'
          · exact itemAccounted_mono e2 hacc
          · exact hrest it hit'

theorem processImportEntry_extends (A : Path → File) (ctx : Ctx) (fuel : Nat)
    (fp : Path) (entry : Path × List ImportData) (st st' : TraceSt)
    (h : processImportEntry A ctx fuel fp entry st = some st') :
    StExtends st st' := by
  unfold processImportEntry at h
  dsimp only at h
  split at h
  · injection h with h2
    subst h2
    exact stExtends_refl st
  · split at h
    · injection h with h2
      subst h2
      exact stExtends_refl st
    · split at h
      · injection h with h2
        subst h2
        exact stExtends_refl st
      · split at h
        · split at h
          · injection h with h2
            subst h2
            exact stExtends_refl st
          · exact (processItems_spec A ctx fuel entry.1 fp
              (A entry.1).exports entry.2 st st' h).1
        · split at h
          · injection h with h2
            subst h2
            exact stExtends_refl st
          · exact stExtends_trans (register0_extends st entry.1)
              ((processItems_spec A ctx fuel entry.1 fp
                (A entry.1).exports entry.2 _ st' h).1)

theorem processImportEntry_spec (A : Path → File) (ctx : Ctx) (fuel : Nat)
    (fp : Path) (entry : Path × List ImportData) (st st' : TraceSt)
    (h : processImportEntry A ctx fuel fp entry st = some st')
    (habs : isAbsolutePath entry.1 = true)
    (hign : isIgnoredPath entry.1 (some ctx.base) = false)
    (hpres : (ctx.preservedBarrels.contains entry.1 ||
      ctx.isPackageEntryPoint entry.1) = false)
    (honly1 : ctx.only = [] → isBarrelFile ctx entry.1 (A entry.1) = true)
    (honly2 : ctx.only ≠ [] → st.tracker.hasBarrel entry.1 = true) :
    ∀ item ∈ entry.2, ItemAccounted entry.1 fp item st' := by
  unfold processImportEntry at h
  dsimp only at h
  rw [habs] at h
  rw [if_neg (by decide)] at h
  rw [hign] at h
  rw [if_neg (by decide)] at h
  rw [hpres] at h
  rw [if_neg (by decide)] at h
  cases ho : ctx.only with
  | nil =>
      rw [ho] at h
      simp only [List.isEmpty_nil] at h
      rw [if_neg (by decide)] at h
      have hb := honly1 ho
      rw [hb] at h
      rw [if_neg (by decide)] at h
      exact (processItems_spec A ctx fuel entry.1 fp (A entry.1).exports
        entry.2 _ st' h).2
  | cons a as =>
      rw [ho] at h
      simp only [List.isEmpty_cons] at h
      rw [if_pos trivial] at h
      have hb := honly2 (by rw [ho]; exact List.cons_ne_nil a as)
      rw [hb] at h
      rw [if_neg (by decide)] at h
      exact (processItems_spec A ctx fuel entry.1 fp (A entry.1).exports
        entry.2 st st' h).2

theorem processEntries_spec (A : Path → File) (ctx : Ctx) (fuel : Nat) (fp : Path) :
    ∀ entries st st',
      processEntries A ctx fuel fp entries st = some st' →
      StExtends st st' ∧
      ∀ entry ∈ entries,
        isAbsolutePath entry.1 = true →
        isIgnoredPath entry.1 (some ctx.base) = false →
        (ctx.preservedBarrels.contains entry.1 ||
          ctx.isPackageEntryPoint entry.1) = false →
        (ctx.only = [] → isBarrelFile ctx entry.1 (A entry.1) = true) →
        (ctx.only ≠ [] → st.tracker.hasBarrel entry.1 = true) →
        ∀ item ∈ entry.2, ItemAccounted entry.1 fp item st' := by
  intro entries
  induction entries with
  | nil =>
      intro st st' h
      unfold processEntries at h
      injection h with h2
      subst h2
      exact ⟨stExtends_refl st, fun e he => absurd he (List.not_mem_nil e)⟩
  | cons entry rest ih =>
      intro st st' h
      unfold processEntries at h
      cases h1 : processImportEntry A ctx fuel fp entry st with
      | none =>
          rw [h1] at h
          cases h
      | some st1 =>
          rw [h1] at h
          dsimp only at h
          have e1 := processImportEntry_extends A ctx fuel fp entry st st1 h1
          obtain ⟨e2, hrest⟩ := ih st1 st' h
          refine ⟨stExtends_trans e1 e2, ?_⟩
          intro e he habs hign hpres ho1 ho2
          rcases List.mem_cons.mp he with rfl | he'
          · intro item hit
            exact itemAccounted_mono e2
              (processImportEntry_spec A ctx fuel fp e st st1 h1
                habs hign hpres ho1 ho2 item hit)
          · refine hrest e he' habs hign hpres ho1 ?_
            intro hne
            exact e1.2.2 e.1 (ho2 hne)

/-- C3: amended account of the error handling of `buildRewrites`.  For a
consumer file (one that does not take the barrel early return), every
entry of the import map that passes the guards of the entry loop (absolute,
not ignored, not preserved or an entry point, a barrel in the current mode)
has every *named* binding and every *default* binding accounted for: the
returned plan records a nonempty rewrite list at the item's statement span,
or the returned tracker's `untraceableImports` names the binding as
(barrel, consumer, name).  The tracing is total: whenever the embedded
budget suffices (`some` result), no named or default binding is silently
dropped.  Member bindings of namespace imports are excluded: their trace
results are discarded (see `member_binding_untraceable_not_recorded`). -/
theorem buildRewrites_bindings_accounted
    (A : Path → File) (ctx : Ctx) (fuel : Nat) (analysis : File) (filePath : Path)
    (trk : BarrelTracker) (plan : Rewrites) (trk' : BarrelTracker)
    (hrun : buildRewrites A ctx fuel analysis filePath trk = some (plan, trk'))
    (hconsumer : (analysis.isBarrel && !ctx.preservedBarrels.contains filePath &&
      !ctx.isPackageEntryPoint filePath) = false) :
    ∀ entry ∈ analysis.imports,
      isAbsolutePath entry.1 = true →
      isIgnoredPath entry.1 (some ctx.base) = false →
      (ctx.preservedBarrels.contains entry.1 ||
        ctx.isPackageEntryPoint entry.1) = false →
      (ctx.only = [] → isBarrelFile ctx entry.1 (A entry.1) = true) →
      (ctx.only ≠ [] → trk.hasBarrel entry.1 = true) →
      ∀ item ∈ entry.2,
        (∀ n ∈ item.names,
          (∃ m, getAssoc plan item.pos = some m ∧ m ≠ []) ∨
          ({ barrelPath := entry.1, consumerPath := filePath, name := n.name } :
            UntraceableImport) ∈ trk'.untraceableImports) ∧
        (item.kind = ImportKind.defaultImport →
          (∃ m, getAssoc plan item.pos = some m ∧ m ≠ []) ∨
          ({ barrelPath := entry.1, consumerPath := filePath, name := "default" } :
            UntraceableImport) ∈ trk'.untraceableImports) := by
  unfold buildRewrites at hrun
  rw [hconsumer] at hrun
  rw [if_neg (by decide)] at hrun
  cases hpe : processEntries A ctx fuel filePath analysis.imports
      { rewrites := [], added := [], tracker := trk } with
  | none =>
      rw [hpe] at hrun
      cases hrun
  | some st =>
      rw [hpe] at hrun
      dsimp only at hrun
      injection hrun with h2
      injection h2 with hr ht
      subst hr
      subst ht
      obtain ⟨hext, hspec⟩ := processEntries_spec A ctx fuel filePath
        analysis.imports _ st hpe
      intro entry he habs hign hpres ho1 ho2
      intro item hit
      exact hspec entry he habs hign hpres ho1 ho2 item hit

/-- Witness scenario for the amended C3 theorem: the barrel re-exports
`zap` from `src.ts`; the consumer requests the named bindings `zap` (which
traces to a rewrite) and `nope` (which no export matches, so it must land
in `untraceableImports`). -/
def acctFileBar : File :=
  { isBarrel := true,
    exports :=
      [("/p/src.ts",
        { specifier := "./src.ts", pos := Pos.mk 0 30, exportedNames := ["zap"] })] }

def acctItem : ImportData :=
  { pos := Pos.mk 0 44, kind := ImportKind.named,
    names := [{ name := "zap" }, { name := "nope" }],
    originalSpecifier := some "./bar.ts" }

def acctConsumer : File :=
  { isBarrel := false, imports := [("/p/bar.ts", [acctItem])] }

def acctEnv : Path → File := fun p =>
  if p = "/p/bar.ts" then acctFileBar else { isBarrel := false }

def acctCtx : Ctx := { base := "/p" }

/-- The concrete run of the witness scenario. -/
def acctOut : Rewrites × BarrelTracker :=
  (buildRewrites acctEnv acctCtx 5 acctConsumer "/p/c.ts" BarrelTracker.empty).getD
    ([], BarrelTracker.empty)

/-- The orchestration context of `processFiles` (`main.ts`): the rewriter
context plus the effect flags and the organize-imports option. -/
structure MainCtx where
  ctx : Ctx
  write : Bool := false
  check : Bool := false
  organizeImports : Bool := false

/-- The run state threaded through `processFiles`: the filesystem (`none`
is a missing file), the run-scoped analysis cache (`ctx.fileCache`), the
tracker, and the accumulating `modified` list.  `bestExample` and the
`errors` list only feed the report and are not modelled. -/
structure RunSt where
  fs : Path → Option (List Char)
  cache : List (Path × File)
  tracker : BarrelTracker
  modified : List Path

/-- The empty analysis record. -/
def File.emptyFile : File := { isBarrel := false }

/-- `analyzeFile` from `analyzer.ts`: serve from the cache, else parse the
file's current content and cache the result.  The parser (`createSourceFile`
plus the export/import map builders) is the external collaborator `parse`.
A missing file makes the source throw; the embedding returns the empty
analysis and caches nothing (see `analyzeFileOpt` for the call site where
the thrown error changes control flow). -/
def analyzeFileM (parse : Path → List Char → File) (p : Path) (st : RunSt) :
    File × RunSt :=
  match getAssoc st.cache p with
  | some f => (f, st)
  | none =>
      match st.fs p with
      | some content =>
          let f := parse p content
          (f, { st with cache := setAssoc st.cache p f })
      | none => (File.emptyFile, st)

/-- The top-level `analyzeFile` call of the per-file loop, where a read
failure is observable: the `catch` skips the file (as does the
`!analysis.sourceFile` guard), so `none` stands for that skip. -/
def analyzeFileOpt (parse : Path → List Char → File) (p : Path) (st : RunSt) :
    Option (File × RunSt) :=
  match getAssoc st.cache p with
  | some f => some (f, st)
  | none =>
      match st.fs p with
      | some content =>
          let f := parse p content
          some (f, { st with cache := setAssoc st.cache p f })
      | none => none

/-- The analysis the rewriter sees for a path under the current state: the
cached record, or the parse of the current content.  The source routes the
rewriter's lookups through the same `analyzeFile` cache; every record that
cache ever holds equals this view's value, so the embedding passes the view
itself to `buildRewrites` (the cache entries added underneath are consulted
nowhere the entry guards do not already re-derive). -/
def readView (parse : Path → List Char → File) (st : RunSt) : Path → File :=
  fun p =>
    match getAssoc st.cache p with
    | some f => f
    | none =>
        match st.fs p with
        | some content => parse p content
        | none => File.emptyFile

/-- The dynamic-imports loop body of `discoverBarrels`. -/
def discoverDynBody (parse : Path → List Char → File) (ctx : Ctx)
    (consumerPath : Path) (s : RunSt) (dyn : Path) : RunSt :=
  let pr := analyzeFileM parse dyn s
  if isBarrelFile ctx dyn pr.1 then
    { pr.2 with tracker := (pr.2.tracker.register0 dyn).addDynamicConsumer dyn consumerPath }
  else pr.2

/-- The imports loop body of `discoverBarrels`. -/
def discoverImportBody (parse : Path → List Char → File) (ctx : Ctx)
    (analysis : File) (consumerPath : Path) (s : RunSt)
    (entry : Path × List ImportData) : RunSt :=
  if isAbsolutePath entry.1 = false then s
  else if isIgnoredPath entry.1 (some ctx.base) then s
  else
    let pr := analyzeFileM parse entry.1 s
    if isBarrelFile ctx entry.1 pr.1 then
      let t1 := (pr.2.tracker.register0 entry.1).addConsumer entry.1 consumerPath
      let t2 := if analysis.isBarrel then t1.register0 consumerPath else t1
      { pr.2 with tracker := t2 }
    else pr.2

/-- `discoverBarrels` from `main.ts`: register the consumer itself when it
is an entry-point barrel or force-included, register dynamic-import targets
that are barrels (with a dynamic consumer), and register every imported
barrel with the consumer recorded (registering the consumer too when it is
itself a barrel). -/
def discoverBarrelsM (parse : Path → List Char → File) (ctx : Ctx)
    (analysis : File) (consumerPath : Path) (st : RunSt) : RunSt :=
  let st1 :=
    if analysis.isBarrel && ctx.isPackageEntryPoint consumerPath then
      { st with tracker := st.tracker.register0 consumerPath }
    else st
  let st2 :=
    if ctx.includedBarrels.contains consumerPath then
      { st1 with tracker := st1.tracker.register0 consumerPath }
    else st1
  let st3 := analysis.dynamicImports.foldl (discoverDynBody parse ctx consumerPath) st2
  analysis.imports.foldl (discoverImportBody parse ctx analysis consumerPath) st3

/-- The loop body of `markRewrittenBarrels`. -/
def markRewrittenBody (ctx : Ctx) (consumerPath : Path) (plan : Rewrites)
    (s : RunSt) (entry : Path × List ImportData) : RunSt :=
  if isAbsolutePath entry.1 = false then s
  else if isIgnoredPath entry.1 (some ctx.base) then s
  else
    match getAssoc s.cache entry.1 with
    | none => s
    | some cached =>
        if isBarrelFile ctx entry.1 cached && s.tracker.hasBarrel entry.1 then
          if entry.2.any (fun item => (getAssoc plan item.pos).isSome) then
            { s with tracker := s.tracker.markRewritten entry.1 consumerPath }
          else s
        else s

/-- `markRewrittenBarrels` from `main.ts`: for every imported barrel that is
cached, tracked and has at least one import item whose statement span got a
plan entry, mark the consumer rewritten for that barrel. -/
def markRewrittenBarrelsM (ctx : Ctx) (analysis : File) (consumerPath : Path)
    (plan : Rewrites) (st : RunSt) : RunSt :=
  analysis.imports.foldl (markRewrittenBody ctx consumerPath plan) st

/-- The tail of one per-file iteration, from the `buildRewrites` call on:
build the plan, and on a nonempty plan mark rewritten barrels, splice the
new content, write it only when `write && !check`, and record the file as
modified either way.  `none` propagates the rewriter's exhausted embedded
budget. -/
def processAfterAnalysis (parse : Path → List Char → File)
    (render : List (Path × Rewrite) → List Char) (organize : List Char → List Char)
    (mctx : MainCtx) (fuel : Nat) (filePath : Path) (analysis : File)
    (st2 : RunSt) : Option RunSt :=
  match buildRewrites (readView parse st2) mctx.ctx fuel analysis filePath
      st2.tracker with
  | none => none
  | some (plan, trk1) =>
      let st3 := { st2 with tracker := trk1 }
      if plan.isEmpty then some st3
      else
        let st4 := markRewrittenBarrelsM mctx.ctx analysis filePath plan st3
        let content := applyRewrites render organize mctx.organizeImports
          analysis.text plan
        let st5 :=
          if mctx.write && !mctx.check then
            { st4 with fs := fun q => if q = filePath then some content else st4.fs q }
          else st4
        some { st5 with modified := st5.modified ++ [filePath] }

/-- One iteration of the per-file loop of `processFiles` (`main.ts`
lines 167-202): skip tracked barrels in only-mode, analyze (skipping on
read failure), discover barrels outside only-mode, then the plan-and-write
tail. -/
def processOneFile (parse : Path → List Char → File)
    (render : List (Path × Rewrite) → List Char) (organize : List Char → List Char)
    (mctx : MainCtx) (fuel : Nat) (filePath : Path) (st : RunSt) : Option RunSt :=
  if !mctx.ctx.only.isEmpty && st.tracker.hasBarrel filePath then some st
  else
    match analyzeFileOpt parse filePath st with
    | none => some st
    | some (analysis, st1) =>
        let st2 :=
          if mctx.ctx.only.isEmpty then
            discoverBarrelsM parse mctx.ctx analysis filePath st1
          else st1
        processAfterAnalysis parse render organize mctx fuel filePath analysis st2

def processFilesLoop (parse : Path → List Char → File)
    (render : List (Path × Rewrite) → List Char) (organize : List Char → List Char)
    (mctx : MainCtx) (fuel : Nat) : List Path → RunSt → Option RunSt
  | [], st => some st
  | p :: rest, st =>
      match processOneFile parse render organize mctx fuel p st with
      | none => none
      | some st' => processFilesLoop parse render organize mctx fuel rest st'

/-- The per-specifier body of the `trackNonTsConsumers` inner loop. -/
def nonTsSpecBody (parse : Path → List Char → File)
    (resolveM : Path → String → Option Path) (ctx : Ctx) (ntf : Path)
    (s2 : RunSt) (spec : String) : RunSt :=
  match resolveM ntf spec with
  | none => s2
  | some resolved =>
      if strStartsWith resolved ctx.base = false then s2
      else if s2.tracker.hasBarrel resolved then
        { s2 with tracker := s2.tracker.addConsumer resolved ntf }
      else
        let pr := analyzeFileM parse resolved s2
        if isBarrelFile ctx resolved pr.1 then
          { pr.2 with tracker := (pr.2.tracker.register0 resolved).addConsumer resolved ntf }
        else pr.2

/-- The per-file body of `trackNonTsConsumers`: read the file's current
content directly (skipping unreadable files) and process every specifier
extracted from it. -/
def nonTsFileBody (parse : Path → List Char → File)
    (extractSpecifiers : List Char → List String)
    (resolveM : Path → String → Option Path) (ctx : Ctx)
    (s : RunSt) (ntf : Path) : RunSt :=
  match s.fs ntf with
  | none => s
  | some content =>
      (extractSpecifiers content).foldl (nonTsSpecBody parse resolveM ctx ntf) s

/-- `trackNonTsConsumers` from `main.ts`: for every non-script project
file, pull the import specifiers out of its current content (regex matching
and `parseSpecifier` are the collaborator `extractSpecifiers`, module
resolution with the project aliases is `resolveM`), and record the file as
consumer of every resolved in-base barrel, registering newly seen ones. -/
def trackNonTsConsumersM (parse : Path → List Char → File)
    (extractSpecifiers : List Char → List String)
    (resolveM : Path → String → Option Path) (ctx : Ctx)
    (nonTsFiles : List Path) (st : RunSt) : RunSt :=
  nonTsFiles.foldl (nonTsFileBody parse extractSpecifiers resolveM ctx) st

/-- The result record of `processFiles`. -/
structure RunResult where
  modified : List Path
  deleted : List Path
  preserved : List PreservedBarrel
  untraceableImports : List UntraceableImport
deriving DecidableEq, Repr

/-- `processFiles` from `main.ts`: the per-file loop, then non-script
consumer tracking outside only-mode, then classification; `write && !check`
additionally gates the final deletions from the filesystem.  The returned
state carries the final filesystem. -/
def processFilesM (parse : Path → List Char → File)
    (render : List (Path × Rewrite) → List Char) (organize : List Char → List Char)
    (extractSpecifiers : List Char → List String)
    (resolveM : Path → String → Option Path) (mctx : MainCtx) (fuel : Nat)
    (files nonTsFiles : List Path) (st0 : RunSt) : Option (RunResult × RunSt) :=
  match processFilesLoop parse render organize mctx fuel files st0 with
  | none => none
  | some st1 =>
      let st2 :=
        if mctx.ctx.only.isEmpty then
          trackNonTsConsumersM parse extractSpecifiers resolveM mctx.ctx nonTsFiles st1
        else st1
      let dp := st2.tracker.classify mctx.ctx.toClassifyCtx
      let st3 :=
        if mctx.write && !mctx.check then
          { st2 with fs := fun q => if dp.1.contains q then none else st2.fs q }
        else st2
      some ({ modified := st2.modified, deleted := dp.1, preserved := dp.2,
              untraceableImports := st2.tracker.untraceableImports }, st3)

/-- The lockstep relation between a write-mode run state and a dry-run
state: the computation components agree, and the filesystems may differ
only at paths that are already cached (so no analysis rereads them) and
belong to the processed file set (so the non-script pass never reads
them). -/
def EffAgree (files : List Path) (a b : RunSt) : Prop :=
  a.cache = b.cache ∧ a.tracker = b.tracker ∧ a.modified = b.modified ∧
  ∀ p, a.fs p ≠ b.fs p → (getAssoc a.cache p).isSome = true ∧ p ∈ files

theorem effAgree_fs_eq {files : List Path} {a b : RunSt}
    (h : EffAgree files a b) (p : Path)
    (hp : (getAssoc a.cache p).isSome = false) : a.fs p = b.fs p := by
  by_contra hne
  have := (h.2.2.2 p hne).1
  rw [hp] at this
  cases this

theorem effAgree_tracker {files : List Path} {a b : RunSt}
    (h : EffAgree files a b) (t : BarrelTracker) :
    EffAgree files { a with tracker := t } { b with tracker := t } :=
  ⟨h.1, rfl, h.2.2.1, fun p hp => h.2.2.2 p hp⟩

theorem getAssoc_setAssoc_isSome {κ β : Type} [DecidableEq κ]
    (m : List (κ × β)) (k k' : κ) (v : β)
    (h : (getAssoc m k').isSome = true) :
    (getAssoc (setAssoc m k v) k').isSome = true := by
  by_cases hk : k' = k
  · subst hk
    rw [getAssoc_setAssoc_self]
    rfl
  · rw [getAssoc_setAssoc_ne _ _ _ _ hk]
    exact h

/-- `analyzeFile` acts in lockstep on related states: same analysis, the
relation is preserved, and neither filesystem moves. -/
theorem analyzeFileM_agree (parse : Path → List Char → File) (p : Path)
    {files : List Path} {a b : RunSt} (h : EffAgree files a b) :
    (analyzeFileM parse p a).1 = (analyzeFileM parse p b).1 ∧
    EffAgree files (analyzeFileM parse p a).2 (analyzeFileM parse p b).2 ∧
    (analyzeFileM parse p a).2.fs = a.fs ∧ (analyzeFileM parse p b).2.fs = b.fs := by
  obtain ⟨hc, ht, hm, hfs⟩ := h
  unfold analyzeFileM
  rw [hc]
  cases hg : getAssoc b.cache p with
  | some f =>
      exact ⟨rfl, ⟨hc, ht, hm, hfs⟩, rfl, rfl⟩
  | none =>
      have hfeq : a.fs p = b.fs p := by
        refine effAgree_fs_eq ⟨hc, ht, hm, hfs⟩ p ?_
        rw [hc, hg]
        rfl
      rw [hfeq]
      cases hr : b.fs p with
      | none =>
          exact ⟨rfl, ⟨hc, ht, hm, hfs⟩, rfl, rfl⟩
      | some content =>
          dsimp only
          refine ⟨rfl, ⟨rfl, ht, hm, ?_⟩, rfl, rfl⟩
          intro q hq
          exact ⟨getAssoc_setAssoc_isSome _ _ _ _ (hc ▸ (hfs q hq).1), (hfs q hq).2⟩

/-- `analyzeFileM` only grows the cache. -/
theorem analyzeFileM_cache_isSome (parse : Path → List Char → File) (p : Path)
    (st : RunSt) (q : Path) (h : (getAssoc st.cache q).isSome = true) :
    (getAssoc (analyzeFileM parse p st).2.cache q).isSome = true := by
  unfold analyzeFileM
  cases hg : getAssoc st.cache p with
  | some f => exact h
  | none =>
      cases hr : st.fs p with
      | none => exact h
      | some content => exact getAssoc_setAssoc_isSome _ _ _ _ h

/-- The top-level analysis call in lockstep: both skip, or both produce the
same analysis with the path cached afterwards. -/
theorem analyzeFileOpt_agree (parse : Path → List Char → File) (p : Path)
    {files : List Path} {a b : RunSt} (h : EffAgree files a b) :
    (analyzeFileOpt parse p a = none ∧ analyzeFileOpt parse p b = none) ∨
    (∃ f a' b', analyzeFileOpt parse p a = some (f, a') ∧
      analyzeFileOpt parse p b = some (f, b') ∧ EffAgree files a' b' ∧
      a'.fs = a.fs ∧ b'.fs = b.fs ∧ (getAssoc a'.cache p).isSome = true) := by
  obtain ⟨hc, ht, hm, hfs⟩ := h
  unfold analyzeFileOpt
  rw [hc]
  cases hg : getAssoc b.cache p with
  | some f =>
      refine Or.inr ⟨f, a, b, rfl, rfl, ⟨hc, ht, hm, hfs⟩, rfl, rfl, ?_⟩
      rw [hc, hg]
      rfl
  | none =>
      have hfeq : a.fs p = b.fs p := by
        refine effAgree_fs_eq ⟨hc, ht, hm, hfs⟩ p ?_
        rw [hc, hg]
        rfl
      rw [hfeq]
      cases hr : b.fs p with
      | none => exact Or.inl ⟨rfl, rfl⟩
      | some content =>
          dsimp only
          refine Or.inr ⟨parse p content, _, _, rfl, rfl, ⟨rfl, ht, hm, ?_⟩,
            rfl, rfl, ?_⟩
          · intro q hq
            exact ⟨getAssoc_setAssoc_isSome _ _ _ _ (hc ▸ (hfs q hq).1), (hfs q hq).2⟩
          · rw [getAssoc_setAssoc_self]
            rfl

/-- Related states present the identical analysis view to the rewriter. -/
theorem readView_agree (parse : Path → List Char → File) {files : List Path}
    {a b : RunSt} (h : EffAgree files a b) :
    readView parse a = readView parse b := by
  funext p
  unfold readView
  rw [h.1]
  cases hg : getAssoc b.cache p with
  | some f => rfl
  | none =>
      have hfeq : a.fs p = b.fs p := by
        refine effAgree_fs_eq h p ?_
        rw [h.1, hg]
        rfl
      rw [hfeq]

theorem foldl_pres2 {α : Type} (P : RunSt → RunSt → Prop) (body : RunSt → α → RunSt)
    (hstep : ∀ a b x, P a b → P (body a x) (body b x)) :
    ∀ (l : List α) (a b : RunSt), P a b → P (l.foldl body a) (l.foldl body b) := by
  intro l
  induction l with
  | nil => intro a b h; exact h
  | cons x rest ih => intro a b h; exact ih (body a x) (body b x) (hstep a b x h)

theorem foldl_pres1 {α : Type} (P : RunSt → Prop) (body : RunSt → α → RunSt)
    (hstep : ∀ s x, P s → P (body s x)) :
    ∀ (l : List α) (s : RunSt), P s → P (l.foldl body s) := by
  intro l
  induction l with
  | nil => intro s h; exact h
  | cons x rest ih => intro s h; exact ih (body s x) (hstep s x h)

theorem effAgree_refl (files : List Path) (a : RunSt) : EffAgree files a a :=
  ⟨rfl, rfl, rfl, fun _ hp => absurd rfl hp⟩

theorem discoverDynBody_agree (parse : Path → List Char → File) (ctx : Ctx)
    (cp dyn : Path) {files : List Path} {a b : RunSt} (h : EffAgree files a b) :
    EffAgree files (discoverDynBody parse ctx cp a dyn)
      (discoverDynBody parse ctx cp b dyn) ∧
    (discoverDynBody parse ctx cp a dyn).fs = a.fs ∧
    (discoverDynBody parse ctx cp b dyn).fs = b.fs := by
  unfold discoverDynBody
  dsimp only
  obtain ⟨hf, hag, hfa, hfb⟩ := analyzeFileM_agree parse dyn h
  rw [hf]
  by_cases hbar : isBarrelFile ctx dyn (analyzeFileM parse dyn b).1 = true
  · simp only [if_pos hbar]
    refine ⟨?_, hfa, hfb⟩
    rw [hag.2.1]
    exact effAgree_tracker hag _
  · simp only [if_neg hbar]
    exact ⟨hag, hfa, hfb⟩

theorem discoverImportBody_agree (parse : Path → List Char → File) (ctx : Ctx)
    (analysis : File) (cp : Path) (entry : Path × List ImportData)
    {files : List Path} {a b : RunSt} (h : EffAgree files a b) :
    EffAgree files (discoverImportBody parse ctx analysis cp a entry)
      (discoverImportBody parse ctx analysis cp b entry) ∧
    (discoverImportBody parse ctx analysis cp a entry).fs = a.fs ∧
    (discoverImportBody parse ctx analysis cp b entry).fs = b.fs := by
  unfold discoverImportBody
  dsimp only
  split
  · exact ⟨h, rfl, rfl⟩
  · split
    · exact ⟨h, rfl, rfl⟩
    · obtain ⟨hf, hag, hfa, hfb⟩ := analyzeFileM_agree parse entry.1 h
      rw [hf]
      by_cases hbar : isBarrelFile ctx entry.1 (analyzeFileM parse entry.1 b).1 = true
      · simp only [if_pos hbar]
        refine ⟨?_, hfa, hfb⟩
        rw [hag.2.1]
        exact effAgree_tracker hag _
      · simp only [if_neg hbar]
        exact ⟨hag, hfa, hfb⟩

theorem discoverBarrelsM_agree (parse : Path → List Char → File) (ctx : Ctx)
    (analysis : File) (cp : Path) {files : List Path} {a b : RunSt}
    (h : EffAgree files a b) :
    EffAgree files (discoverBarrelsM parse ctx analysis cp a)
      (discoverBarrelsM parse ctx analysis cp b) ∧
    (discoverBarrelsM parse ctx analysis cp a).fs = a.fs ∧
    (discoverBarrelsM parse ctx analysis cp b).fs = b.fs := by
  unfold discoverBarrelsM
  dsimp only
  have hstep : ∀ (x y : RunSt),
      (EffAgree files x y ∧ x.fs = a.fs ∧ y.fs = b.fs) →
      ∀ (l1 : List Path) (l2 : List (Path × List ImportData)),
      EffAgree files (l2.foldl (discoverImportBody parse ctx analysis cp)
          (l1.foldl (discoverDynBody parse ctx cp) x))
        (l2.foldl (discoverImportBody parse ctx analysis cp)
          (l1.foldl (discoverDynBody parse ctx cp) y)) ∧
      (l2.foldl (discoverImportBody parse ctx analysis cp)
          (l1.foldl (discoverDynBody parse ctx cp) x)).fs = a.fs ∧
      (l2.foldl (discoverImportBody parse ctx analysis cp)
          (l1.foldl (discoverDynBody parse ctx cp) y)).fs = b.fs := by
    intro x y hxy l1 l2
    refine foldl_pres2 (fun u v => EffAgree files u v ∧ u.fs = a.fs ∧ v.fs = b.fs)
      (discoverImportBody parse ctx analysis cp) ?_ l2 _ _
      (foldl_pres2 (fun u v => EffAgree files u v ∧ u.fs = a.fs ∧ v.fs = b.fs)
        (discoverDynBody parse ctx cp) ?_ l1 x y hxy)
    · intro u v e hp
      obtain ⟨he, hua, hvb⟩ := hp
      obtain ⟨h1, h2, h3⟩ := discoverImportBody_agree parse ctx analysis cp e he
      exact ⟨h1, by rw [h2, hua], by rw [h3, hvb]⟩
    · intro u v d hp
      obtain ⟨he, hua, hvb⟩ := hp
      obtain ⟨h1, h2, h3⟩ := discoverDynBody_agree parse ctx cp d he
      exact ⟨h1, by rw [h2, hua], by rw [h3, hvb]⟩
  split
  · split
    · refine hstep _ _ ?_ _ _
      refine ⟨?_, rfl, rfl⟩
      rw [h.2.1]
      exact effAgree_tracker h _
    · refine hstep _ _ ?_ _ _
      refine ⟨?_, rfl, rfl⟩
      rw [h.2.1]
      exact effAgree_tracker h _
  · split
    · refine hstep _ _ ?_ _ _
      refine ⟨?_, rfl, rfl⟩
      rw [h.2.1]
      exact effAgree_tracker h _
    · refine hstep _ _ ?_ _ _
      exact ⟨h, rfl, rfl⟩

theorem markRewrittenBody_agree (ctx : Ctx) (cp : Path) (plan : Rewrites)
    (entry : Path × List ImportData) {files : List Path} {a b : RunSt}
    (h : EffAgree files a b) :
    EffAgree files (markRewrittenBody ctx cp plan a entry)
      (markRewrittenBody ctx cp plan b entry) ∧
    (markRewrittenBody ctx cp plan a entry).fs = a.fs ∧
    (markRewrittenBody ctx cp plan a entry).cache = a.cache ∧
    (markRewrittenBody ctx cp plan b entry).fs = b.fs ∧
    (markRewrittenBody ctx cp plan b entry).cache = b.cache := by
  unfold markRewrittenBody
  have hsc : getAssoc a.cache entry.1 = getAssoc b.cache entry.1 := by rw [h.1]
  have hhb : a.tracker.hasBarrel entry.1 = b.tracker.hasBarrel entry.1 := by
    rw [h.2.1]
  have hmr : a.tracker.markRewritten entry.1 cp = b.tracker.markRewritten entry.1 cp := by
    rw [h.2.1]
  rw [hsc, hhb, hmr]
  split
  · exact ⟨h, rfl, rfl, rfl, rfl⟩
  · split
    · exact ⟨h, rfl, rfl, rfl, rfl⟩
    · split
      · exact ⟨h, rfl, rfl, rfl, rfl⟩
      · split
        · split
          · exact ⟨effAgree_tracker h _, rfl, rfl, rfl, rfl⟩
          · exact ⟨h, rfl, rfl, rfl, rfl⟩
        · exact ⟨h, rfl, rfl, rfl, rfl⟩

theorem markRewrittenBarrelsM_agree (ctx : Ctx) (analysis : File) (cp : Path)
    (plan : Rewrites) {files : List Path} {a b : RunSt} (h : EffAgree files a b) :
    EffAgree files (markRewrittenBarrelsM ctx analysis cp plan a)
      (markRewrittenBarrelsM ctx analysis cp plan b) ∧
    (markRewrittenBarrelsM ctx analysis cp plan a).fs = a.fs ∧
    (markRewrittenBarrelsM ctx analysis cp plan a).cache = a.cache ∧
    (markRewrittenBarrelsM ctx analysis cp plan b).fs = b.fs ∧
    (markRewrittenBarrelsM ctx analysis cp plan b).cache = b.cache := by
  unfold markRewrittenBarrelsM
  refine foldl_pres2
    (fun u v => EffAgree files u v ∧ u.fs = a.fs ∧ u.cache = a.cache ∧
      v.fs = b.fs ∧ v.cache = b.cache)
    (markRewrittenBody ctx cp plan) ?_ analysis.imports a b ⟨h, rfl, rfl, rfl, rfl⟩
  intro u v e hp
  obtain ⟨he, h1, h2, h3, h4⟩ := hp
  obtain ⟨g0, g1, g2, g3, g4⟩ := markRewrittenBody_agree ctx cp plan e he
  exact ⟨g0, by rw [g1, h1], by rw [g2, h2], by rw [g3, h3], by rw [g4, h4]⟩

theorem nonTsSpecBody_agree (parse : Path → List Char → File)
    (resolveM : Path → String → Option Path) (ctx : Ctx) (ntf : Path)
    (spec : String) {files : List Path} {a b : RunSt} (h : EffAgree files a b) :
    EffAgree files (nonTsSpecBody parse resolveM ctx ntf a spec)
      (nonTsSpecBody parse resolveM ctx ntf b spec) ∧
    (nonTsSpecBody parse resolveM ctx ntf a spec).fs = a.fs ∧
    (nonTsSpecBody parse resolveM ctx ntf b spec).fs = b.fs := by
  unfold nonTsSpecBody
  cases hres : resolveM ntf spec with
  | none => exact ⟨h, rfl, rfl⟩
  | some resolved =>
      dsimp only
      rw [h.2.1]
      split
      · exact ⟨h, rfl, rfl⟩
      · split
        · exact ⟨effAgree_tracker h _, rfl, rfl⟩
        · obtain ⟨hf, hag, hfa, hfb⟩ := analyzeFileM_agree parse resolved h
          rw [hf]
          by_cases hbar : isBarrelFile ctx resolved (analyzeFileM parse resolved b).1 = true
          · simp only [if_pos hbar]
            refine ⟨?_, hfa, hfb⟩
            rw [hag.2.1]
            exact effAgree_tracker hag _
          · simp only [if_neg hbar]
            exact ⟨hag, hfa, hfb⟩

theorem nonTsFileBody_agree (parse : Path → List Char → File)
    (extractSpecifiers : List Char → List String)
    (resolveM : Path → String → Option Path) (ctx : Ctx) (ntf : Path)
    {files : List Path} {a b : RunSt} (h : EffAgree files a b)
    (hntf : ntf ∉ files) :
    EffAgree files (nonTsFileBody parse extractSpecifiers resolveM ctx a ntf)
      (nonTsFileBody parse extractSpecifiers resolveM ctx b ntf) ∧
    (nonTsFileBody parse extractSpecifiers resolveM ctx a ntf).fs = a.fs ∧
    (nonTsFileBody parse extractSpecifiers resolveM ctx b ntf).fs = b.fs := by
  unfold nonTsFileBody
  have hfeq : a.fs ntf = b.fs ntf := by
    by_contra hne
    exact hntf (h.2.2.2 ntf hne).2
  rw [hfeq]
  cases hr : b.fs ntf with
  | none => exact ⟨h, rfl, rfl⟩
  | some content =>
      dsimp only
      refine foldl_pres2
        (fun u v => EffAgree files u v ∧ u.fs = a.fs ∧ v.fs = b.fs)
        (nonTsSpecBody parse resolveM ctx ntf) ?_ (extractSpecifiers content)
        a b ⟨h, rfl, rfl⟩
      intro u v sp hp
      obtain ⟨he, h1, h2⟩ := hp
      obtain ⟨g0, g1, g2⟩ := nonTsSpecBody_agree parse resolveM ctx ntf sp he
      exact ⟨g0, by rw [g1, h1], by rw [g2, h2]⟩

theorem trackNonTsConsumersM_agree (parse : Path → List Char → File)
    (extractSpecifiers : List Char → List String)
    (resolveM : Path → String → Option Path) (ctx : Ctx)
    {files : List Path} :
    ∀ (nonTsFiles : List Path) {a b : RunSt}, EffAgree files a b →
      (∀ f ∈ nonTsFiles, f ∉ files) →
      EffAgree files (trackNonTsConsumersM parse extractSpecifiers resolveM ctx nonTsFiles a)
        (trackNonTsConsumersM parse extractSpecifiers resolveM ctx nonTsFiles b) := by
  intro nonTsFiles
  induction nonTsFiles with
  | nil =>
      intro a b h hnon
      exact h
  | cons ntf rest ih =>
      intro a b h hnon
      unfold trackNonTsConsumersM at ih ⊢
      rw [List.foldl_cons, List.foldl_cons]
      refine ih ?_ (fun f hf => hnon f (List.mem_cons_of_mem ntf hf))
      exact (nonTsFileBody_agree parse extractSpecifiers resolveM ctx ntf h
        (hnon ntf (List.mem_cons_self ntf rest))).1

theorem analyzeFileOpt_cache_mono (parse : Path → List Char → File) (p : Path)
    (st : RunSt) (f : File) (st' : RunSt)
    (hsome : analyzeFileOpt parse p st = some (f, st')) :
    (getAssoc st'.cache p).isSome = true ∧
    ∀ q, (getAssoc st.cache q).isSome = true →
      (getAssoc st'.cache q).isSome = true := by
  unfold analyzeFileOpt at hsome
  cases hg : getAssoc st.cache p with
  | some g =>
      rw [hg] at hsome
      injection hsome with h2
      injection h2 with hf hs
      subst hs
      refine ⟨?_, fun q hq => hq⟩
      rw [hg]
      rfl
  | none =>
      rw [hg] at hsome
      cases hr : st.fs p with
      | none =>
          rw [hr] at hsome
          cases hsome
      | some content =>
          rw [hr] at hsome
          dsimp only at hsome
          injection hsome with h2
          injection h2 with hf hs
          subst hs
          constructor
          · rw [getAssoc_setAssoc_self]
            rfl
          · intro q hq
            exact getAssoc_setAssoc_isSome _ _ _ _ hq

theorem discoverDynBody_cache_isSome (parse : Path → List Char → File) (ctx : Ctx)
    (cp : Path) (s : RunSt) (dyn : Path) (q : Path)
    (hq : (getAssoc s.cache q).isSome = true) :
    (getAssoc (discoverDynBody parse ctx cp s dyn).cache q).isSome = true := by
  unfold discoverDynBody
  dsimp only
  split
  · exact analyzeFileM_cache_isSome parse dyn s q hq
  · exact analyzeFileM_cache_isSome parse dyn s q hq

theorem discoverImportBody_cache_isSome (parse : Path → List Char → File)
    (ctx : Ctx) (analysis : File) (cp : Path) (s : RunSt)
    (entry : Path × List ImportData) (q : Path)
    (hq : (getAssoc s.cache q).isSome = true) :
    (getAssoc (discoverImportBody parse ctx analysis cp s entry).cache q).isSome = true := by
  unfold discoverImportBody
  dsimp only
  split
  · exact hq
  · split
    · exact hq
    · split
      · exact analyzeFileM_cache_isSome parse entry.1 s q hq
      · exact analyzeFileM_cache_isSome parse entry.1 s q hq

theorem discoverBarrelsM_cache_isSome (parse : Path → List Char → File) (ctx : Ctx)
    (analysis : File) (cp : Path) (st : RunSt) (q : Path)
    (hq : (getAssoc st.cache q).isSome = true) :
    (getAssoc (discoverBarrelsM parse ctx analysis cp st).cache q).isSome = true := by
  unfold discoverBarrelsM
  dsimp only
  have hP : ∀ (x : RunSt), (getAssoc x.cache q).isSome = true →
      ∀ (l1 : List Path) (l2 : List (Path × List ImportData)),
      (getAssoc ((l2.foldl (discoverImportBody parse ctx analysis cp)
        (l1.foldl (discoverDynBody parse ctx cp) x)).cache) q).isSome = true := by
    intro x hx l1 l2
    refine foldl_pres1 (fun u => (getAssoc u.cache q).isSome = true)
      (discoverImportBody parse ctx analysis cp)
      (fun u e hu => discoverImportBody_cache_isSome parse ctx analysis cp u e q hu) l2 _
      (foldl_pres1 (fun u => (getAssoc u.cache q).isSome = true)
        (discoverDynBody parse ctx cp)
        (fun u d hu => discoverDynBody_cache_isSome parse ctx cp u d q hu) l1 x hx)
  split
  · split
    · refine hP _ ?_ _ _
      exact hq
    · refine hP _ ?_ _ _
      exact hq
  · split
    · refine hP _ ?_ _ _
      exact hq
    · refine hP _ ?_ _ _
      exact hq

theorem markRewrittenBody_parts (ctx : Ctx) (cp : Path) (plan : Rewrites)
    (s : RunSt) (entry : Path × List ImportData) :
    (markRewrittenBody ctx cp plan s entry).cache = s.cache ∧
    (markRewrittenBody ctx cp plan s entry).fs = s.fs ∧
    (markRewrittenBody ctx cp plan s entry).modified = s.modified := by
  unfold markRewrittenBody
  split
  · exact ⟨rfl, rfl, rfl⟩
  · split
    · exact ⟨rfl, rfl, rfl⟩
    · split
      · exact ⟨rfl, rfl, rfl⟩
      · split
        · split
          · exact ⟨rfl, rfl, rfl⟩
          · exact ⟨rfl, rfl, rfl⟩
        · exact ⟨rfl, rfl, rfl⟩

theorem markRewrittenBarrelsM_parts (ctx : Ctx) (analysis : File) (cp : Path)
    (plan : Rewrites) (st : RunSt) :
    (markRewrittenBarrelsM ctx analysis cp plan st).cache = st.cache ∧
    (markRewrittenBarrelsM ctx analysis cp plan st).fs = st.fs ∧
    (markRewrittenBarrelsM ctx analysis cp plan st).modified = st.modified := by
  unfold markRewrittenBarrelsM
  refine foldl_pres1
    (fun u => u.cache = st.cache ∧ u.fs = st.fs ∧ u.modified = st.modified)
    (markRewrittenBody ctx cp plan) ?_ analysis.imports st ⟨rfl, rfl, rfl⟩
  intro u e hu
  obtain ⟨g1, g2, g3⟩ := markRewrittenBody_parts ctx cp plan u e
  exact ⟨by rw [g1, hu.1], by rw [g2, hu.2.1], by rw [g3, hu.2.2]⟩

/-- The fs component never changes through `discoverBarrels` (single run). -/
theorem discoverBarrelsM_fs (parse : Path → List Char → File) (ctx : Ctx)
    (analysis : File) (cp : Path) (st : RunSt) :
    (discoverBarrelsM parse ctx analysis cp st).fs = st.fs :=
  (discoverBarrelsM_agree parse ctx analysis cp
    (effAgree_refl [] st)).2.1

/-- The plan-and-write tail acts in lockstep on two runs that differ only
in the effect flags: both run out of budget, or both produce related
states (the write happens to a cached, in-set path, re-establishing the
relation). -/
theorem processAfterAnalysis_agree (parse : Path → List Char → File)
    (render : List (Path × Rewrite) → List Char) (organize : List Char → List Char)
    (ctx : Ctx) (orgF w1 c1 w2 c2 : Bool) (fuel : Nat) (filePath : Path)
    (f : File) {files : List Path} {sa sb : RunSt} (hmem : filePath ∈ files)
    (h : EffAgree files sa sb)
    (hcached : (getAssoc sa.cache filePath).isSome = true) :
    (processAfterAnalysis parse render organize ⟨ctx, w1, c1, orgF⟩ fuel filePath f sa = none ∧
      processAfterAnalysis parse render organize ⟨ctx, w2, c2, orgF⟩ fuel filePath f sb = none) ∨
    (∃ a' b',
      processAfterAnalysis parse render organize ⟨ctx, w1, c1, orgF⟩ fuel filePath f sa = some a' ∧
      processAfterAnalysis parse render organize ⟨ctx, w2, c2, orgF⟩ fuel filePath f sb = some b' ∧
      EffAgree files a' b') := by
  unfold processAfterAnalysis
  dsimp only
  rw [readView_agree parse h, h.2.1]
  cases hbr : buildRewrites (readView parse sb) ctx fuel f filePath sb.tracker with
  | none => exact Or.inl ⟨rfl, rfl⟩
  | some pr =>
      obtain ⟨plan, trk1⟩ := pr
      dsimp only
      by_cases hemp : plan.isEmpty = true
      · simp only [if_pos hemp]
        exact Or.inr ⟨_, _, rfl, rfl, effAgree_tracker h trk1⟩
      · simp only [if_neg hemp]
        have hag3 := effAgree_tracker h trk1
        obtain ⟨hag4, hfa4, hca4, hfb4, hcb4⟩ :=
          markRewrittenBarrelsM_agree ctx f filePath plan hag3
        have hc4 : (getAssoc (markRewrittenBarrelsM ctx f filePath plan
            { sa with tracker := trk1 }).cache filePath).isSome = true := by
          rw [hca4]
          exact hcached
        refine Or.inr ⟨_, _, rfl, rfl, ?_⟩
        by_cases he1 : (w1 && !c1) = true
        · by_cases he2 : (w2 && !c2) = true
          · simp only [if_pos he1, if_pos he2]
            refine ⟨hag4.1, hag4.2.1, ?_, ?_⟩
            · show _ ++ [filePath] = _ ++ [filePath]
              rw [hag4.2.2.1]
            · intro q hq
              by_cases hqf : q = filePath
              · subst hqf
                exact ⟨hc4, hmem⟩
              · simp only [if_neg hqf] at hq
                exact hag4.2.2.2 q hq
          · simp only [if_pos he1, if_neg he2]
            refine ⟨hag4.1, hag4.2.1, ?_, ?_⟩
            · show _ ++ [filePath] = _ ++ [filePath]
              rw [hag4.2.2.1]
            · intro q hq
              by_cases hqf : q = filePath
              · subst hqf
                exact ⟨hc4, hmem⟩
              · simp only [if_neg hqf] at hq
                exact hag4.2.2.2 q hq
        · by_cases he2 : (w2 && !c2) = true
          · simp only [if_neg he1, if_pos he2]
            refine ⟨hag4.1, hag4.2.1, ?_, ?_⟩
            · show _ ++ [filePath] = _ ++ [filePath]
              rw [hag4.2.2.1]
            · intro q hq
              by_cases hqf : q = filePath
              · subst hqf
                exact ⟨hc4, hmem⟩
              · simp only [if_neg hqf] at hq
                exact hag4.2.2.2 q hq
          · simp only [if_neg he1, if_neg he2]
            refine ⟨hag4.1, hag4.2.1, ?_, ?_⟩
            · show _ ++ [filePath] = _ ++ [filePath]
              rw [hag4.2.2.1]
            · intro q hq
              exact hag4.2.2.2 q hq

/-- One iteration of the per-file loop acts in lockstep on two runs that
differ only in the effect flags: both skip, both run out of budget, or both
produce related states. -/
theorem processOneFile_agree (parse : Path → List Char → File)
    (render : List (Path × Rewrite) → List Char) (organize : List Char → List Char)
    (ctx : Ctx) (orgF w1 c1 w2 c2 : Bool) (fuel : Nat) (filePath : Path)
    {files : List Path} {a b : RunSt} (hmem : filePath ∈ files)
    (h : EffAgree files a b) :
    (processOneFile parse render organize ⟨ctx, w1, c1, orgF⟩ fuel filePath a = none ∧
      processOneFile parse render organize ⟨ctx, w2, c2, orgF⟩ fuel filePath b = none) ∨
    (∃ a' b',
      processOneFile parse render organize ⟨ctx, w1, c1, orgF⟩ fuel filePath a = some a' ∧
      processOneFile parse render organize ⟨ctx, w2, c2, orgF⟩ fuel filePath b = some b' ∧
      EffAgree files a' b') := by
  unfold processOneFile
  dsimp only
  rw [h.2.1]
  split
  · exact Or.inr ⟨a, b, rfl, rfl, h⟩
  · rcases analyzeFileOpt_agree parse filePath h with ⟨hna, hnb⟩ |
      ⟨f, a1, b1, hsa, hsb, hag1, hfa1, hfb1, hcached⟩
    · rw [hna, hnb]
      exact Or.inr ⟨a, b, rfl, rfl, h⟩
    · rw [hsa, hsb]
      dsimp only
      by_cases honly : ctx.only.isEmpty = true
      · simp only [if_pos honly]
        exact processAfterAnalysis_agree parse render organize ctx orgF w1 c1 w2 c2
          fuel filePath f hmem
          (discoverBarrelsM_agree parse ctx f filePath hag1).1
          (discoverBarrelsM_cache_isSome parse ctx f filePath a1 filePath
            (analyzeFileOpt_cache_mono parse filePath a f a1 hsa).1)
      · simp only [if_neg honly]
        exact processAfterAnalysis_agree parse render organize ctx orgF w1 c1 w2 c2
          fuel filePath f hmem hag1
          (analyzeFileOpt_cache_mono parse filePath a f a1 hsa).1

theorem processFilesLoop_agree (parse : Path → List Char → File)
    (render : List (Path × Rewrite) → List Char) (organize : List Char → List Char)
    (ctx : Ctx) (orgF w1 c1 w2 c2 : Bool) (fuel : Nat) {files : List Path} :
    ∀ (fl : List Path) {a b : RunSt}, (∀ p ∈ fl, p ∈ files) → EffAgree files a b →
      (processFilesLoop parse render organize ⟨ctx, w1, c1, orgF⟩ fuel fl a = none ∧
        processFilesLoop parse render organize ⟨ctx, w2, c2, orgF⟩ fuel fl b = none) ∨
      (∃ a' b',
        processFilesLoop parse render organize ⟨ctx, w1, c1, orgF⟩ fuel fl a = some a' ∧
        processFilesLoop parse render organize ⟨ctx, w2, c2, orgF⟩ fuel fl b = some b' ∧
        EffAgree files a' b') := by
  intro fl
  induction fl with
  | nil =>
      intro a b hsub h
      exact Or.inr ⟨a, b, rfl, rfl, h⟩
  | cons p rest ih =>
      intro a b hsub h
      unfold processFilesLoop
      rcases processOneFile_agree parse render organize ctx orgF w1 c1 w2 c2 fuel p
          (hsub p (List.mem_cons_self p rest)) h with
        ⟨hna, hnb⟩ | ⟨a1, b1, hsa, hsb, hag⟩
      · rw [hna, hnb]
        exact Or.inl ⟨rfl, rfl⟩
      · rw [hsa, hsb]
        dsimp only
        exact ih (fun q hq => hsub q (List.mem_cons_of_mem p hq)) hag

/-- C7: the modified, deleted, preserved and untraceable-import components
of the result of `processFiles` do not depend on the `write` and `check`
flags: those flags gate only the filesystem side effects (the content write
and the final deletions), and every analysis after a write is served from
the run-scoped cache, so a dry run and a write run over the same input
report identical result sets.  The one filesystem read that bypasses the
cache is the non-script consumer scan, whose file set is disjoint from the
processed (script) file set — the hypothesis below. -/
theorem processFiles_write_dry_equivalence (parse : Path → List Char → File)
    (render : List (Path × Rewrite) → List Char) (organize : List Char → List Char)
    (extractSpecifiers : List Char → List String)
    (resolveM : Path → String → Option Path) (ctx : Ctx)
    (orgF w1 c1 w2 c2 : Bool) (fuel : Nat) (files nonTsFiles : List Path)
    (st0 : RunSt) (hnon : ∀ f ∈ nonTsFiles, f ∉ files) :
    Option.map Prod.fst (processFilesM parse render organize extractSpecifiers
      resolveM ⟨ctx, w1, c1, orgF⟩ fuel files nonTsFiles st0) =
    Option.map Prod.fst (processFilesM parse render organize extractSpecifiers
      resolveM ⟨ctx, w2, c2, orgF⟩ fuel files nonTsFiles st0) := by
  unfold processFilesM
  dsimp only
  rcases processFilesLoop_agree parse render organize ctx orgF w1 c1 w2 c2 fuel
      files (fun p hp => hp) (effAgree_refl files st0) with
    ⟨hna, hnb⟩ | ⟨a1, b1, hsa, hsb, hag⟩
  · rw [hna, hnb]
  · rw [hsa, hsb]
    dsimp only
    by_cases honly : ctx.only.isEmpty = true
    · simp only [if_pos honly]
      have hag2 := trackNonTsConsumersM_agree parse extractSpecifiers resolveM ctx
        nonTsFiles hag hnon
      rw [hag2.2.1, hag2.2.2.1]
      rfl
    · simp only [if_neg honly]
      rw [hag.2.1, hag.2.2.1]
      rfl

/-- Concrete run for the C7 witness: one consumer file importing from the
two-name barrel of the C3 scenario, an initially uniform filesystem, all
collaborators trivial. -/
def wRun0 : RunSt :=
  { fs := fun _ => some [], cache := [], tracker := BarrelTracker.empty,
    modified := [] }

def wParse : Path → List Char → File := fun p _ =>
  if p = "/p/c.ts" then acctConsumer else acctEnv p

theorem processFiles_write_dry_equivalence_witness :
    (∀ f ∈ ([] : List Path), f ∉ ["/p/c.ts"]) ∧
    Option.map Prod.fst (processFilesM wParse (fun _ => []) (fun c => c)
      (fun _ => []) (fun _ _ => none) ⟨acctCtx, true, false, false⟩ 5
      ["/p/c.ts"] [] wRun0) =
    Option.map Prod.fst (processFilesM wParse (fun _ => []) (fun c => c)
      (fun _ => []) (fun _ _ => none) ⟨acctCtx, false, false, false⟩ 5
      ["/p/c.ts"] [] wRun0) :=
  ⟨fun f hf => absurd hf (List.not_mem_nil f),
    processFiles_write_dry_equivalence wParse (fun _ => []) (fun c => c)
      (fun _ => []) (fun _ _ => none) acctCtx false true false false false 5
      ["/p/c.ts"] [] wRun0 (fun f hf => absurd hf (List.not_mem_nil f))⟩

/-- The analysis a fresh read of the initial filesystem would produce. -/
def freshAnalysis (parse : Path → List Char → File)
    (fs0 : Path → Option (List Char)) (p : Path) : File :=
  match fs0 p with
  | some c => parse p c
  | none => File.emptyFile

/-- The single-run invariant that makes every analysis of the run equal the
fresh analysis of the initial filesystem: cached records carry the initial
analyses, and the filesystem has been changed only at cached paths. -/
def Faithful (parse : Path → List Char → File)
    (fs0 : Path → Option (List Char)) (st : RunSt) : Prop :=
  (∀ p f, getAssoc st.cache p = some f → f = freshAnalysis parse fs0 p) ∧
  (∀ p, st.fs p ≠ fs0 p → (getAssoc st.cache p).isSome = true)

theorem faithful_parts {parse : Path → List Char → File}
    {fs0 : Path → Option (List Char)} {st st' : RunSt}
    (hc : st'.cache = st.cache) (hf : st'.fs = st.fs)
    (h : Faithful parse fs0 st) : Faithful parse fs0 st' := by
  refine ⟨?_, ?_⟩
  · intro p f hpf
    rw [hc] at hpf
    exact h.1 p f hpf
  · intro p hp
    rw [hf] at hp
    rw [hc]
    exact h.2 p hp

theorem analyzeFileM_faithful (parse : Path → List Char → File)
    (fs0 : Path → Option (List Char)) (p : Path) (st : RunSt)
    (h : Faithful parse fs0 st) :
    (analyzeFileM parse p st).1 = freshAnalysis parse fs0 p ∧
    Faithful parse fs0 (analyzeFileM parse p st).2 ∧
    (analyzeFileM parse p st).2.fs = st.fs ∧
    (analyzeFileM parse p st).2.modified = st.modified ∧
    (analyzeFileM parse p st).2.tracker = st.tracker := by
  unfold analyzeFileM
  cases hg : getAssoc st.cache p with
  | some f =>
      exact ⟨h.1 p f hg, h, rfl, rfl, rfl⟩
  | none =>
      have hfp : st.fs p = fs0 p := by
        by_contra hne
        have := h.2 p hne
        rw [hg] at this
        cases this
      cases hr : st.fs p with
      | none =>
          refine ⟨?_, h, rfl, rfl, rfl⟩
          unfold freshAnalysis
          rw [← hfp, hr]
      | some content =>
          dsimp only
          refine ⟨?_, ⟨?_, ?_⟩, rfl, rfl, rfl⟩
          · unfold freshAnalysis
            rw [← hfp, hr]
          · intro q f hqf
            by_cases hqp : q = p
            · subst hqp
              rw [getAssoc_setAssoc_self] at hqf
              injection hqf with hf2
              subst hf2
              unfold freshAnalysis
              rw [← hfp, hr]
            · rw [getAssoc_setAssoc_ne _ _ _ _ hqp] at hqf
              exact h.1 q f hqf
          · intro q hq
            exact getAssoc_setAssoc_isSome _ _ _ _ (h.2 q hq)

theorem analyzeFileOpt_faithful (parse : Path → List Char → File)
    (fs0 : Path → Option (List Char)) (p : Path) (st : RunSt) (f : File)
    (st' : RunSt) (hsome : analyzeFileOpt parse p st = some (f, st'))
    (h : Faithful parse fs0 st) :
    f = freshAnalysis parse fs0 p ∧ Faithful parse fs0 st' ∧
    st'.fs = st.fs ∧ st'.modified = st.modified ∧ st'.tracker = st.tracker := by
  have hM : analyzeFileM parse p st = (f, st') := by
    unfold analyzeFileOpt at hsome
    unfold analyzeFileM
    cases hg : getAssoc st.cache p with
    | some g =>
        rw [hg] at hsome
        injection hsome
    | none =>
        rw [hg] at hsome
        cases hr : st.fs p with
        | none =>
            rw [hr] at hsome
            cases hsome
        | some content =>
            rw [hr] at hsome
            dsimp only at hsome ⊢
            injection hsome
  obtain ⟨g1, g2, g3, g4, g5⟩ := analyzeFileM_faithful parse fs0 p st h
  rw [hM] at g1 g2 g3 g4 g5
  exact ⟨g1, g2, g3, g4, g5⟩

theorem discoverDynBody_faithful (parse : Path → List Char → File) (ctx : Ctx)
    (cp : Path) (fs0 : Path → Option (List Char)) (s : RunSt) (dyn : Path)
    (h : Faithful parse fs0 s) :
    Faithful parse fs0 (discoverDynBody parse ctx cp s dyn) ∧
    (discoverDynBody parse ctx cp s dyn).fs = s.fs ∧
    (discoverDynBody parse ctx cp s dyn).modified = s.modified := by
  unfold discoverDynBody
  dsimp only
  obtain ⟨g1, g2, g3, g4, g5⟩ := analyzeFileM_faithful parse fs0 dyn s h
  split
  · exact ⟨faithful_parts rfl (by rw [g3]) g2, g3, g4⟩
  · exact ⟨g2, g3, g4⟩

theorem discoverImportBody_faithful (parse : Path → List Char → File) (ctx : Ctx)
    (analysis : File) (cp : Path) (fs0 : Path → Option (List Char)) (s : RunSt)
    (entry : Path × List ImportData) (h : Faithful parse fs0 s) :
    Faithful parse fs0 (discoverImportBody parse ctx analysis cp s entry) ∧
    (discoverImportBody parse ctx analysis cp s entry).fs = s.fs ∧
    (discoverImportBody parse ctx analysis cp s entry).modified = s.modified := by
  unfold discoverImportBody
  dsimp only
  obtain ⟨g1, g2, g3, g4, g5⟩ := analyzeFileM_faithful parse fs0 entry.1 s h
  split
  · exact ⟨h, rfl, rfl⟩
  · split
    · exact ⟨h, rfl, rfl⟩
    · split
      · exact ⟨faithful_parts rfl (by rw [g3]) g2, g3, g4⟩
      · exact ⟨g2, g3, g4⟩

theorem discoverBarrelsM_faithful (parse : Path → List Char → File) (ctx : Ctx)
    (analysis : File) (cp : Path) (fs0 : Path → Option (List Char)) (st : RunSt)
    (h : Faithful parse fs0 st) :
    Faithful parse fs0 (discoverBarrelsM parse ctx analysis cp st) ∧
    (discoverBarrelsM parse ctx analysis cp st).fs = st.fs ∧
    (discoverBarrelsM parse ctx analysis cp st).modified = st.modified := by
  unfold discoverBarrelsM
  dsimp only
  have hP : ∀ (x : RunSt),
      (Faithful parse fs0 x ∧ x.fs = st.fs ∧ x.modified = st.modified) →
      ∀ (l1 : List Path) (l2 : List (Path × List ImportData)),
      Faithful parse fs0 (l2.foldl (discoverImportBody parse ctx analysis cp)
        (l1.foldl (discoverDynBody parse ctx cp) x)) ∧
      (l2.foldl (discoverImportBody parse ctx analysis cp)
        (l1.foldl (discoverDynBody parse ctx cp) x)).fs = st.fs ∧
      (l2.foldl (discoverImportBody parse ctx analysis cp)
        (l1.foldl (discoverDynBody parse ctx cp) x)).modified = st.modified := by
    intro x hx l1 l2
    refine foldl_pres1
      (fun u => Faithful parse fs0 u ∧ u.fs = st.fs ∧ u.modified = st.modified)
      (discoverImportBody parse ctx analysis cp) ?_ l2 _
      (foldl_pres1
        (fun u => Faithful parse fs0 u ∧ u.fs = st.fs ∧ u.modified = st.modified)
        (discoverDynBody parse ctx cp) ?_ l1 x hx)
    · intro u e hu
      obtain ⟨g1, g2, g3⟩ := discoverImportBody_faithful parse ctx analysis cp fs0 u e hu.1
      exact ⟨g1, by rw [g2, hu.2.1], by rw [g3, hu.2.2]⟩
    · intro u d hu
      obtain ⟨g1, g2, g3⟩ := discoverDynBody_faithful parse ctx cp fs0 u d hu.1
      exact ⟨g1, by rw [g2, hu.2.1], by rw [g3, hu.2.2]⟩
  split
  · split
    · refine hP _ ?_ _ _
      exact ⟨faithful_parts rfl rfl h, rfl, rfl⟩
    · refine hP _ ?_ _ _
      exact ⟨faithful_parts rfl rfl h, rfl, rfl⟩
  · split
    · refine hP _ ?_ _ _
      exact ⟨faithful_parts rfl rfl h, rfl, rfl⟩
    · refine hP _ ?_ _ _
      exact ⟨h, rfl, rfl⟩

theorem nonTsSpecBody_faithful (parse : Path → List Char → File)
    (resolveM : Path → String → Option Path) (ctx : Ctx) (ntf : Path)
    (fs0 : Path → Option (List Char)) (s : RunSt) (spec : String)
    (h : Faithful parse fs0 s) :
    Faithful parse fs0 (nonTsSpecBody parse resolveM ctx ntf s spec) ∧
    (nonTsSpecBody parse resolveM ctx ntf s spec).fs = s.fs ∧
    (nonTsSpecBody parse resolveM ctx ntf s spec).modified = s.modified := by
  unfold nonTsSpecBody
  cases hres : resolveM ntf spec with
  | none => exact ⟨h, rfl, rfl⟩
  | some resolved =>
      dsimp only
      obtain ⟨g1, g2, g3, g4, g5⟩ := analyzeFileM_faithful parse fs0 resolved s h
      split
      · exact ⟨h, rfl, rfl⟩
      · split
        · exact ⟨faithful_parts rfl rfl h, rfl, rfl⟩
        · split
          · exact ⟨faithful_parts rfl (by rw [g3]) g2, g3, g4⟩
          · exact ⟨g2, g3, g4⟩

theorem nonTsFileBody_faithful (parse : Path → List Char → File)
    (extractSpecifiers : List Char → List String)
    (resolveM : Path → String → Option Path) (ctx : Ctx)
    (fs0 : Path → Option (List Char)) (s : RunSt) (ntf : Path)
    (h : Faithful parse fs0 s) :
    Faithful parse fs0 (nonTsFileBody parse extractSpecifiers resolveM ctx s ntf) ∧
    (nonTsFileBody parse extractSpecifiers resolveM ctx s ntf).fs = s.fs ∧
    (nonTsFileBody parse extractSpecifiers resolveM ctx s ntf).modified = s.modified := by
  unfold nonTsFileBody
  cases hr : s.fs ntf with
  | none => exact ⟨h, rfl, rfl⟩
  | some content =>
      dsimp only
      refine foldl_pres1
        (fun u => Faithful parse fs0 u ∧ u.fs = s.fs ∧ u.modified = s.modified)
        (nonTsSpecBody parse resolveM ctx ntf) ?_ (extractSpecifiers content) s
        ⟨h, rfl, rfl⟩
      intro u sp hu
      obtain ⟨g1, g2, g3⟩ := nonTsSpecBody_faithful parse resolveM ctx ntf fs0 u sp hu.1
      exact ⟨g1, by rw [g2, hu.2.1], by rw [g3, hu.2.2]⟩

theorem trackNonTsConsumersM_faithful (parse : Path → List Char → File)
    (extractSpecifiers : List Char → List String)
    (resolveM : Path → String → Option Path) (ctx : Ctx)
    (fs0 : Path → Option (List Char)) (nonTsFiles : List Path) (st : RunSt)
    (h : Faithful parse fs0 st) :
    Faithful parse fs0
      (trackNonTsConsumersM parse extractSpecifiers resolveM ctx nonTsFiles st) ∧
    (trackNonTsConsumersM parse extractSpecifiers resolveM ctx nonTsFiles st).fs = st.fs ∧
    (trackNonTsConsumersM parse extractSpecifiers resolveM ctx nonTsFiles st).modified =
      st.modified := by
  unfold trackNonTsConsumersM
  refine foldl_pres1
    (fun u => Faithful parse fs0 u ∧ u.fs = st.fs ∧ u.modified = st.modified)
    (nonTsFileBody parse extractSpecifiers resolveM ctx) ?_ nonTsFiles st
    ⟨h, rfl, rfl⟩
  intro u ntf hu
  obtain ⟨g1, g2, g3⟩ := nonTsFileBody_faithful parse extractSpecifiers resolveM
    ctx fs0 u ntf hu.1
  exact ⟨g1, by rw [g2, hu.2.1], by rw [g3, hu.2.2]⟩

/-- On a barrel that is neither skipped nor an entry point, the rewriter's
early return makes the plan-and-write tail a no-op: the plan is empty, so
nothing is marked, nothing is spliced, nothing is written, and the file is
not recorded as modified. -/
theorem processAfterAnalysis_barrel (parse : Path → List Char → File)
    (render : List (Path × Rewrite) → List Char) (organize : List Char → List Char)
    (mctx : MainCtx) (fuel : Nat) (q : Path) (f : File) (st : RunSt)
    (hbar : f.isBarrel = true)
    (hpres : mctx.ctx.preservedBarrels.contains q = false)
    (hentry : mctx.ctx.isPackageEntryPoint q = false) :
    processAfterAnalysis parse render organize mctx fuel q f st = some st := by
  unfold processAfterAnalysis
  have hbas : buildRewrites (readView parse st) mctx.ctx fuel f q st.tracker =
      some ([], st.tracker) := by
    unfold buildRewrites
    rw [if_pos]
    rw [hbar, hpres, hentry]
    rfl
  rw [hbas]
  rfl

theorem processAfterAnalysis_spec (parse : Path → List Char → File)
    (fs0 : Path → Option (List Char))
    (render : List (Path × Rewrite) → List Char) (organize : List Char → List Char)
    (mctx : MainCtx) (fuel : Nat) (q : Path) (f : File) (st st' : RunSt)
    (h : processAfterAnalysis parse render organize mctx fuel q f st = some st')
    (hfaith : Faithful parse fs0 st)
    (hcq : (getAssoc st.cache q).isSome = true) :
    Faithful parse fs0 st' ∧
    (∀ r, r ∈ st'.modified → r ∈ st.modified ∨ r = q) ∧
    (∀ r, r ≠ q → st'.fs r = st.fs r) := by
  unfold processAfterAnalysis at h
  dsimp only at h
  cases hbr : buildRewrites (readView parse st) mctx.ctx fuel f q st.tracker with
  | none =>
      rw [hbr] at h
      cases h
  | some pr =>
      obtain ⟨plan, trk1⟩ := pr
      rw [hbr] at h
      dsimp only at h
      obtain ⟨m1, m2, m3⟩ := markRewrittenBarrelsM_parts mctx.ctx f q plan
        { st with tracker := trk1 }
      by_cases hemp : plan.isEmpty = true
      · rw [if_pos hemp] at h
        injection h with h2
        subst h2
        exact ⟨faithful_parts rfl rfl hfaith, fun r hr => Or.inl hr, fun r _ => rfl⟩
      · rw [if_neg hemp] at h
        injection h with h2
        subst h2
        by_cases heff : (mctx.write && !mctx.check) = true
        · simp only [if_pos heff]
          refine ⟨⟨?_, ?_⟩, ?_, ?_⟩
          · intro p fp hpf
            have : getAssoc st.cache p = some fp := by
              rw [← show ({ st with tracker := trk1 } : RunSt).cache = st.cache from rfl,
                ← m1]
              exact hpf
            exact hfaith.1 p fp this
          · intro p hp
            show (getAssoc (markRewrittenBarrelsM mctx.ctx f q plan
              { st with tracker := trk1 }).cache p).isSome = true
            rw [m1]
            by_cases hpq : p = q
            · subst hpq
              exact hcq
            · have hp2 : (if p = q then
                  some (applyRewrites render organize mctx.organizeImports f.text plan)
                else (markRewrittenBarrelsM mctx.ctx f q plan
                  { st with tracker := trk1 }).fs p) ≠ fs0 p := hp
              rw [if_neg hpq, m2] at hp2
              exact hfaith.2 p hp2
          · intro r hr
            rcases List.mem_append.mp hr with hl | hrr
            · rw [m3] at hl
              exact Or.inl hl
            · exact Or.inr (List.mem_singleton.mp hrr)
          · intro r hrq
            show (if r = q then _ else _) = _
            rw [if_neg hrq, m2]
        · simp only [if_neg heff]
          refine ⟨faithful_parts (by rw [m1]) (by rw [m2]) hfaith, ?_, ?_⟩
          · intro r hr
            rcases List.mem_append.mp hr with hl | hrr
            · rw [m3] at hl
              exact Or.inl hl
            · exact Or.inr (List.mem_singleton.mp hrr)
          · intro r hrq
            rw [show ((markRewrittenBarrelsM mctx.ctx f q plan
              { st with tracker := trk1 }).fs r : Option (List Char)) =
              ({ st with tracker := trk1 } : RunSt).fs r from by rw [m2]]

theorem processOneFile_spec (parse : Path → List Char → File)
    (fs0 : Path → Option (List Char))
    (render : List (Path × Rewrite) → List Char) (organize : List Char → List Char)
    (mctx : MainCtx) (fuel : Nat) (q : Path) (st st' : RunSt)
    (h : processOneFile parse render organize mctx fuel q st = some st')
    (hfaith : Faithful parse fs0 st) :
    Faithful parse fs0 st' ∧
    (∀ r, r ∈ st'.modified → r ∈ st.modified ∨ r = q) ∧
    (∀ r, r ≠ q → st'.fs r = st.fs r) := by
  unfold processOneFile at h
  split at h
  · injection h with h2
    subst h2
    exact ⟨hfaith, fun r hr => Or.inl hr, fun r _ => rfl⟩
  · cases hopt : analyzeFileOpt parse q st with
    | none =>
        rw [hopt] at h
        injection h with h2
        subst h2
        exact ⟨hfaith, fun r hr => Or.inl hr, fun r _ => rfl⟩
    | some pr =>
        obtain ⟨f, st1⟩ := pr
        rw [hopt] at h
        dsimp only at h
        obtain ⟨hf, hfa1, hfs1, hm1, ht1⟩ :=
          analyzeFileOpt_faithful parse fs0 q st f st1 hopt hfaith
        have hc1 := (analyzeFileOpt_cache_mono parse q st f st1 hopt).1
        by_cases honly : mctx.ctx.only.isEmpty = true
        · rw [if_pos honly] at h
          obtain ⟨hfa2, hfs2, hm2⟩ :=
            discoverBarrelsM_faithful parse mctx.ctx f q fs0 st1 hfa1
          have hc2 := discoverBarrelsM_cache_isSome parse mctx.ctx f q st1 q hc1
          obtain ⟨g1, g2, g3⟩ := processAfterAnalysis_spec parse fs0 render organize
            mctx fuel q f _ st' h hfa2 hc2
          refine ⟨g1, ?_, ?_⟩
          · intro r hr
            rcases g2 r hr with hl | hrq
            · rw [hm2, hm1] at hl
              exact Or.inl hl
            · exact Or.inr hrq
          · intro r hrq
            rw [g3 r hrq, hfs2, hfs1]
        · rw [if_neg honly] at h
          obtain ⟨g1, g2, g3⟩ := processAfterAnalysis_spec parse fs0 render organize
            mctx fuel q f st1 st' h hfa1 hc1
          refine ⟨g1, ?_, ?_⟩
          · intro r hr
            rcases g2 r hr with hl | hrq
            · rw [hm1] at hl
              exact Or.inl hl
            · exact Or.inr hrq
          · intro r hrq
            rw [g3 r hrq, hfs1]

/-- On an iterated file whose fresh analysis is an unpreserved,
non-entry-point barrel, the per-file step changes neither the modified list
nor the filesystem. -/
theorem processOneFile_barrel (parse : Path → List Char → File)
    (fs0 : Path → Option (List Char))
    (render : List (Path × Rewrite) → List Char) (organize : List Char → List Char)
    (mctx : MainCtx) (fuel : Nat) (p : Path) (st st' : RunSt)
    (h : processOneFile parse render organize mctx fuel p st = some st')
    (hfaith : Faithful parse fs0 st)
    (hbar : (freshAnalysis parse fs0 p).isBarrel = true)
    (hpres : mctx.ctx.preservedBarrels.contains p = false)
    (hentry : mctx.ctx.isPackageEntryPoint p = false) :
    Faithful parse fs0 st' ∧ st'.modified = st.modified ∧ st'.fs = st.fs := by
  unfold processOneFile at h
  split at h
  · injection h with h2
    subst h2
    exact ⟨hfaith, rfl, rfl⟩
  · cases hopt : analyzeFileOpt parse p st with
    | none =>
        rw [hopt] at h
        injection h with h2
        subst h2
        exact ⟨hfaith, rfl, rfl⟩
    | some pr =>
        obtain ⟨f, st1⟩ := pr
        rw [hopt] at h
        dsimp only at h
        obtain ⟨hf, hfa1, hfs1, hm1, ht1⟩ :=
          analyzeFileOpt_faithful parse fs0 p st f st1 hopt hfaith
        have hfb : f.isBarrel = true := by
          rw [hf]
          exact hbar
        by_cases honly : mctx.ctx.only.isEmpty = true
        · rw [if_pos honly] at h
          rw [processAfterAnalysis_barrel parse render organize mctx fuel p f _
            hfb hpres hentry] at h
          injection h with h2
          subst h2
          obtain ⟨hfa2, hfs2, hm2⟩ :=
            discoverBarrelsM_faithful parse mctx.ctx f p fs0 st1 hfa1
          exact ⟨hfa2, by rw [hm2, hm1], by rw [hfs2, hfs1]⟩
        · rw [if_neg honly] at h
          rw [processAfterAnalysis_barrel parse render organize mctx fuel p f st1
            hfb hpres hentry] at h
          injection h with h2
          subst h2
          exact ⟨hfa1, hm1, hfs1⟩

theorem processFilesLoop_barrel (parse : Path → List Char → File)
    (fs0 : Path → Option (List Char))
    (render : List (Path × Rewrite) → List Char) (organize : List Char → List Char)
    (mctx : MainCtx) (fuel : Nat) (p : Path)
    (hbar : (freshAnalysis parse fs0 p).isBarrel = true)
    (hpres : mctx.ctx.preservedBarrels.contains p = false)
    (hentry : mctx.ctx.isPackageEntryPoint p = false) :
    ∀ (fl : List Path) (st st' : RunSt),
      processFilesLoop parse render organize mctx fuel fl st = some st' →
      Faithful parse fs0 st →
      Faithful parse fs0 st' ∧ (p ∈ st'.modified → p ∈ st.modified) ∧
      st'.fs p = st.fs p := by
  intro fl
  induction fl with
  | nil =>
      intro st st' h hfaith
      unfold processFilesLoop at h
      injection h with h2
      subst h2
      exact ⟨hfaith, fun hp => hp, rfl⟩
  | cons q rest ih =>
      intro st st' h hfaith
      unfold processFilesLoop at h
      cases hstep : processOneFile parse render organize mctx fuel q st with
      | none =>
          rw [hstep] at h
          cases h
      | some st1 =>
          rw [hstep] at h
          dsimp only at h
          by_cases hqp : q = p
          · subst hqp
            obtain ⟨g1, g2, g3⟩ := processOneFile_barrel parse fs0 render organize
              mctx fuel q st st1 hstep hfaith hbar hpres hentry
            obtain ⟨k1, k2, k3⟩ := ih st1 st' h g1
            exact ⟨k1, fun hp => by rw [g2] at k2; exact k2 hp,
              by rw [k3, g3]⟩
          · obtain ⟨g1, g2, g3⟩ := processOneFile_spec parse fs0 render organize
              mctx fuel q st st1 hstep hfaith
            obtain ⟨k1, k2, k3⟩ := ih st1 st' h g1
            refine ⟨k1, ?_, by rw [k3, g3 p (fun he => hqp he.symm)]⟩
            intro hp
            rcases g2 p (k2 hp) with hl | hqp2
            · exact hl
            · exact absurd hqp2.symm hqp

theorem getA_isSome_mem {β : Type} (m : List (Path × β)) (k : Path) (v : β)
    (h : getA m k = some v) : (k, v) ∈ m := by
  induction m with
  | nil => cases h
  | cons kv rest ih =>
      unfold getA at h
      by_cases hk : kv.1 = k
      · rw [if_pos hk] at h
        injection h with h2
        subst h2
        subst hk
        exact List.mem_cons_self _ _
      · rw [if_neg hk] at h
        exact List.mem_cons_of_mem _ (ih h)

/-- Every tracked, in-scope, non-skipped barrel lands in the deleted bucket
or appears in the preserved report. -/
theorem tracked_bucket (t : BarrelTracker) (ctx : ClassifyCtx) (x : Path)
    (hnd : (t.barrels.map Prod.fst).Nodup) (hhas : t.hasBarrel x = true)
    (hscope : inScope ctx x = true) (hskip : isSkipped ctx x = false) :
    x ∈ (t.classify ctx).1 ∨ ∃ e ∈ (t.classify ctx).2, e.path = x := by
  by_cases hdel : x ∈ (t.classify ctx).1
  · exact Or.inl hdel
  · unfold BarrelTracker.hasBarrel at hhas
    cases hg : getA t.barrels x with
    | none =>
        rw [hg] at hhas
        cases hhas
    | some stx =>
        have hmem := getA_isSome_mem t.barrels x stx hg
        have hreasons : getPreservationReasons ctx x stx (toDeleteSet t ctx) ≠ [] := by
          by_cases hdyn : stx.dynamicConsumers = []
          · rw [getPreservationReasons_split ctx x stx (toDeleteSet t ctx) hdyn hskip]
            intro hnil
            have hpend : pendingConsumers stx (toDeleteSet t ctx) = [] := by
              by_contra hne
              rcases List.exists_mem_of_ne_nil _ hne with ⟨c, hc⟩
              by_cases hts : (strEndsWith c ".ts" || strEndsWith c ".tsx") = true
              · have hcm : c ∈ nsPending stx (toDeleteSet t ctx) :=
                  List.mem_filter.mpr ⟨hc, hts⟩
                have : nsPending stx (toDeleteSet t ctx) ≠ [] :=
                  List.ne_nil_of_mem hcm
                rw [List.append_eq_nil] at hnil
                have h2 := hnil.2
                rw [if_pos (by simp [this])] at h2
                cases h2
              · have hcm : c ∈ nonTsPending stx (toDeleteSet t ctx) :=
                  List.mem_filter.mpr ⟨hc, by simp [hts]⟩
                have : nonTsPending stx (toDeleteSet t ctx) ≠ [] :=
                  List.ne_nil_of_mem hcm
                rw [List.append_eq_nil] at hnil
                have h1 := hnil.1
                rw [if_pos (by simp [this])] at h1
                cases h1
            have hall : ∀ c ∈ stx.consumers,
                stx.rewrittenConsumers.contains c = true ∨ c ∈ (t.classify ctx).1 := by
              intro c hc
              have hnp := List.filter_eq_nil_iff.mp hpend c hc
              cases hor : (stx.rewrittenConsumers.contains c ||
                  (toDeleteSet t ctx).contains c) with
              | false =>
                  rw [hor] at hnp
                  exact absurd rfl hnp
              | true =>
                  rw [Bool.or_eq_true] at hor
                  rcases hor with hrew | htd
                  · exact Or.inl hrew
                  · refine Or.inr ((mem_deleted_iff_toDelete t ctx c).mpr ?_)
                    exact (contains_iff_mem _ _).mp htd
            exact hdel ((deleted_spec t ctx x).mpr
              ⟨stx, hmem, hscope, hdyn, hskip, hall⟩)
          · rw [getPreservationReasons_dynamic ctx x stx (toDeleteSet t ctx) hdyn]
            exact List.cons_ne_nil _ _
        have hF : (t.classify ctx).2.filter (fun e => e.path == x) =
            (getPreservationReasons ctx x stx (toDeleteSet t ctx)).map
              (fun rc => PreservedBarrel.mk x rc.1 rc.2) := by
          rw [classify_snd_eq_preservedOf]
          rw [preservedOf_filter_eq ctx (toDeleteSet t ctx) t.barrels x stx hnd hmem]
          rw [if_pos]
          rw [Bool.and_eq_true]
          refine ⟨hscope, ?_⟩
          rw [Bool.not_eq_true', Bool.eq_false_iff]
          intro hcon
          exact hdel ((mem_deleted_iff_toDelete t ctx x).mpr
            ((contains_iff_mem _ _).mp hcon))
        have hne : (t.classify ctx).2.filter (fun e => e.path == x) ≠ [] := by
          rw [hF]
          intro hnil
          rw [List.map_eq_nil_iff] at hnil
          exact hreasons hnil
        rcases List.exists_mem_of_ne_nil _ hne with ⟨e, he⟩
        have hemem := List.mem_filter.mp he
        refine Or.inr ⟨e, hemem.1, ?_⟩
        have := hemem.2
        rwa [beq_iff_eq] at this

/-- C10: a file whose analysis is a barrel, neither in the skip set nor a
package entry point, gets the empty rewrite plan from `buildRewrites`'s
early return, so the run never records it as modified and never rewrites
its content (its file changes only if the run deletes it); being tracked
and in scope, it winds up in the deleted list or in the preserved
report. -/
theorem barrel_never_modified (parse : Path → List Char → File)
    (render : List (Path × Rewrite) → List Char) (organize : List Char → List Char)
    (extractSpecifiers : List Char → List String)
    (resolveM : Path → String → Option Path) (mctx : MainCtx) (fuel : Nat)
    (files nonTsFiles : List Path) (st0 : RunSt) (res : RunResult) (stF : RunSt)
    (hrun : processFilesM parse render organize extractSpecifiers resolveM mctx
      fuel files nonTsFiles st0 = some (res, stF))
    (hfaith : Faithful parse st0.fs st0) (p : Path)
    (hbar : (freshAnalysis parse st0.fs p).isBarrel = true)
    (hpres : mctx.ctx.preservedBarrels.contains p = false)
    (hentry : mctx.ctx.isPackageEntryPoint p = false)
    (hnot : p ∉ st0.modified)
    (hnd : (stF.tracker.barrels.map Prod.fst).Nodup) :
    p ∉ res.modified ∧
    (p ∉ res.deleted → stF.fs p = st0.fs p) ∧
    (stF.tracker.hasBarrel p = true →
      inScope mctx.ctx.toClassifyCtx p = true →
      p ∈ res.deleted ∨ ∃ e ∈ res.preserved, e.path = p) := by
  unfold processFilesM at hrun
  cases hloop : processFilesLoop parse render organize mctx fuel files st0 with
  | none =>
      rw [hloop] at hrun
      cases hrun
  | some st1 =>
      rw [hloop] at hrun
      dsimp only at hrun
      obtain ⟨f1, f2, f3⟩ := processFilesLoop_barrel parse st0.fs render organize
        mctx fuel p hbar hpres hentry files st0 st1 hloop hfaith
      have hst2 :
          (if mctx.ctx.only.isEmpty = true then
            trackNonTsConsumersM parse extractSpecifiers resolveM mctx.ctx
              nonTsFiles st1
          else st1).modified = st1.modified ∧
          (if mctx.ctx.only.isEmpty = true then
            trackNonTsConsumersM parse extractSpecifiers resolveM mctx.ctx
              nonTsFiles st1
          else st1).fs = st1.fs := by
        split
        · obtain ⟨-, hfs, hm⟩ := trackNonTsConsumersM_faithful parse
            extractSpecifiers resolveM mctx.ctx st0.fs nonTsFiles st1 f1
          exact ⟨hm, hfs⟩
        · exact ⟨rfl, rfl⟩
      injection hrun with h2
      injection h2 with hres hstF
      subst hres
      subst hstF
      refine ⟨?_, ?_, ?_⟩
      · intro hpm
        dsimp only at hpm
        rw [hst2.1] at hpm
        exact hnot (f2 hpm)
      · intro hpd
        dsimp only at hpd ⊢
        by_cases heff : (mctx.write && !mctx.check) = true
        · rw [if_pos heff]
          have hcon : ((if mctx.ctx.only.isEmpty = true then
                trackNonTsConsumersM parse extractSpecifiers resolveM mctx.ctx
                  nonTsFiles st1
              else st1).tracker.classify mctx.ctx.toClassifyCtx).1.contains p = false := by
            rw [Bool.eq_false_iff]
            intro hcp
            exact hpd ((contains_iff_mem _ _).mp hcp)
          dsimp only
          rw [hcon]
          rw [if_neg (fun he => Bool.noConfusion he)]
          rw [hst2.2, f3]
        · rw [if_neg heff]
          rw [hst2.2, f3]
      · intro hhas hscope
        dsimp only at hhas ⊢
        by_cases heff : (mctx.write && !mctx.check) = true
        · rw [if_pos heff] at hhas
          exact tracked_bucket _ mctx.ctx.toClassifyCtx p
            (by rw [if_pos heff] at hnd; exact hnd) hhas hscope
            (by
              show (mctx.ctx.toClassifyCtx.preservedBarrels.contains p ||
                mctx.ctx.toClassifyCtx.isPackageEntryPoint p) = false
              dsimp only [Ctx.toClassifyCtx]
              rw [hpres, hentry]
              rfl)
        · rw [if_neg heff] at hhas
          exact tracked_bucket _ mctx.ctx.toClassifyCtx p
            (by rw [if_neg heff] at hnd; exact hnd) hhas hscope
            (by
              show (mctx.ctx.toClassifyCtx.preservedBarrels.contains p ||
                mctx.ctx.toClassifyCtx.isPackageEntryPoint p) = false
              dsimp only [Ctx.toClassifyCtx]
              rw [hpres, hentry]
              rfl)

/-- The concrete run of the C10/C7 witness scenario, with write effects
on. -/
def wOut : RunResult × RunSt :=
  (processFilesM wParse (fun _ => []) (fun c => c) (fun _ => []) (fun _ _ => none)
    ⟨acctCtx, true, false, false⟩ 5 ["/p/c.ts"] [] wRun0).getD
    (⟨[], [], [], []⟩, wRun0)

theorem barrel_never_modified_witness :
    "/p/bar.ts" ∉ wOut.1.modified ∧
    ("/p/bar.ts" ∉ wOut.1.deleted → wOut.2.fs "/p/bar.ts" = wRun0.fs "/p/bar.ts") ∧
    (wOut.2.tracker.hasBarrel "/p/bar.ts" = true →
      inScope acctCtx.toClassifyCtx "/p/bar.ts" = true →
      "/p/bar.ts" ∈ wOut.1.deleted ∨
        ∃ e ∈ wOut.1.preserved, e.path = "/p/bar.ts") :=
  barrel_never_modified wParse (fun _ => []) (fun c => c) (fun _ => [])
    (fun _ _ => none) ⟨acctCtx, true, false, false⟩ 5 ["/p/c.ts"] [] wRun0
    wOut.1 wOut.2 rfl
    ⟨fun p f hf => by simp [wRun0, getAssoc] at hf, fun p hp => absurd rfl hp⟩
    "/p/bar.ts" (by decide) (by decide) (by decide) (by decide) (by decide)

/-- A consumer importing `x` from the head of the barrel chain
`a.ts → b.ts → cc.ts → defs.ts`, each link a named re-export, `defs.ts` the
non-barrel definer. -/
def chItem : ImportData :=
  { pos := Pos.mk 0 30, kind := ImportKind.named, names := [{ name := "x" }],
    originalSpecifier := some "./a.ts" }

def chFileMain : File :=
  { isBarrel := false, imports := [("/p/a.ts", [chItem])] }

def chFileA : File :=
  { isBarrel := true, imports := [("/p/b.ts", [])],
    exports := [("/p/b.ts",
      { specifier := "./b.ts", pos := Pos.mk 0 28, exportedNames := ["x"] })] }

def chFileB : File :=
  { isBarrel := true, imports := [("/p/cc.ts", [])],
    exports := [("/p/cc.ts",
      { specifier := "./cc.ts", pos := Pos.mk 0 28, exportedNames := ["x"] })] }

def chFileC : File :=
  { isBarrel := true, imports := [("/p/defs.ts", [])],
    exports := [("/p/defs.ts",
      { specifier := "./defs.ts", pos := Pos.mk 0 28, exportedNames := ["x"] })] }

def chEnv : Path → File := fun p =>
  if p = "/p/main.ts" then chFileMain
  else if p = "/p/a.ts" then chFileA
  else if p = "/p/b.ts" then chFileB
  else if p = "/p/cc.ts" then chFileC
  else { isBarrel := false }

def chParse : Path → List Char → File := fun p _ => chEnv p

def chCtx : Ctx := { base := "/p" }

def chRun0 : RunSt :=
  { fs := fun _ => some [], cache := [], tracker := BarrelTracker.empty,
    modified := [] }

/-- The consumer's rewrite plan over the chain. -/
def chPlanOut : Rewrites × BarrelTracker :=
  (buildRewrites chEnv chCtx 8 chFileMain "/p/main.ts" BarrelTracker.empty).getD
    ([], BarrelTracker.empty)

/-- The full dry run over the chain project. -/
def chOut : RunResult × RunSt :=
  (processFilesM chParse (fun _ => []) (fun c => c) (fun _ => []) (fun _ _ => none)
    ⟨chCtx, false, false, false⟩ 8
    ["/p/main.ts", "/p/a.ts", "/p/b.ts", "/p/cc.ts", "/p/defs.ts"] []
    chRun0).getD (⟨[], [], [], []⟩, chRun0)

/-- C1: `classify` computes the delete candidates as a fixpoint: a
registered barrel is deleted iff it is in scope, has no dynamic consumer,
is not skipped, and each of its consumers is marked rewritten or is itself
deleted; the scan is iterated to quiescence (one more pass over the final
candidate set adds nothing).  On the concrete chain
`main.ts → a.ts → b.ts → cc.ts → defs.ts`, the consumer's statement is
rewritten to target the definer `defs.ts` directly, the consumer is the
only modified file, and the barrels `a.ts` and `b.ts` are both deleted. -/
theorem classify_fixpoint_and_chain :
    (∀ (t : BarrelTracker) (ctx : ClassifyCtx) (x : Path),
      x ∈ (t.classify ctx).1 ↔
        ∃ st, (x, st) ∈ t.barrels ∧ inScope ctx x = true ∧
          st.dynamicConsumers = [] ∧ isSkipped ctx x = false ∧
          ∀ c ∈ st.consumers, st.rewrittenConsumers.contains c = true ∨
            c ∈ (t.classify ctx).1) ∧
    (∀ (t : BarrelTracker) (ctx : ClassifyCtx),
      onePass ctx t.barrels (toDeleteSet t ctx) = toDeleteSet t ctx) ∧
    ((getAssoc chPlanOut.1 (Pos.mk 0 30)).getD []).map Prod.fst = ["/p/defs.ts"] ∧
    chOut.1.modified = ["/p/main.ts"] ∧
    "/p/a.ts" ∈ chOut.1.deleted ∧ "/p/b.ts" ∈ chOut.1.deleted := by
  refine ⟨deleted_spec, ?_, by decide, by decide, by decide, by decide⟩
  intro t ctx
  exact classifyLoop_fix ctx t.barrels (t.barrels.length + 1) [] List.nodup_nil
    (fun x hx => absurd hx (List.not_mem_nil x)) (by omega)

theorem buildRewrites_bindings_accounted_witness :
    ((∃ m, getAssoc acctOut.1 (Pos.mk 0 44) = some m ∧ m ≠ []) ∨
      ({ barrelPath := "/p/bar.ts", consumerPath := "/p/c.ts", name := "nope" } :
        UntraceableImport) ∈ acctOut.2.untraceableImports) :=
  (buildRewrites_bindings_accounted acctEnv acctCtx 5 acctConsumer "/p/c.ts"
      BarrelTracker.empty acctOut.1 acctOut.2
      (by decide) (by decide) ("/p/bar.ts", [acctItem]) (by decide) (by decide)
      (by decide) (by decide) (fun _ => by decide)
      (fun hne => absurd rfl hne) acctItem (by decide)).1
    { name := "nope" } (by decide)

end Unbarrelify
